import Mathlib

/-!
# GemCompiler lexer and code generator: a shallow embedding and its verified properties

The development follows `Source/Token/Token.h`, `Source/Token/src/Token.cpp` and
`Source/Assembler/src/Assembly.cpp`.

Modelling conventions.
* `std::string` is a `List Char`; every `Char` stands for one C++ `char`.
* `<cctype>` classification is the one of the "C" locale (ASCII only).
* The `size_t` cursor `position_` is a natural number (no source reaches `2^64`
  characters).
* The `int` members `line` and `column` are integers, and every increment is
  followed by the reduction `intWrap` to the 32-bit two's complement range: an
  increment past `INT_MAX` leaves `INT_MIN`, as the compiled program does.
* The lexer is an explicit state `Lexer` passed through every member function.
  A read `source_[position_]` outside the string is the fault `outOfBounds`.
* A `while` loop is a function recursive on a fuel counter; running out of fuel
  is the fault `outOfFuel`, so a result `.ok` is a genuine result of the loop.
-/

set_option maxRecDepth 100000
set_option maxHeartbeats 4000000

namespace GC

/-! ## 1. Token location (`Token.h`, lines 16-24) -/

/-- The struct `TokenLocation`: two `int` members, both starting at `1`. -/
structure TokenLocation where
  line : Int := 1
  column : Int := 1
deriving DecidableEq

/-- The value left in an `int` when the arithmetic result `x` is stored in it:
`x` reduced to the 32-bit two's complement range. For `x` between `INT_MIN` and
`INT_MAX` it is `x`; one more than `INT_MAX` gives `INT_MIN`. -/
def intWrap (x : Int) : Int :=
  (x + 2147483648) % 4294967296 - 2147483648

/-! ## 2. Token literal (`Token.h`, line 29) -/

/-- The variant `TokenLiteral`. A `double` payload is kept as its bit pattern:
the lexer only stores and returns it. -/
inductive TokenLiteral where
  | monostate
  | int (v : Int)
  | double (bits : Nat)
  | char (c : Char)
  | string (s : List Char)
deriving DecidableEq

/-! ## 3. Token types (`Token.h`, lines 34-118) -/

/-- The enumeration `TokenType`, in declaration order. -/
inductive TokenType where
  | Import | Iter | While | If | Else | Enum | Compare | On | Default
  | Public | Private | Continue | Break | ExitProgram | Vec | Tuple
  | Destroy | Delete
  | U8 | U16 | U32 | U64 | I8 | I16 | I32 | I64 | F32 | F64 | Bool | Str
  | IntegerLiteral | FloatLiteral | StringLiteral | CharLiteral
  | Identifier
  | Plus | Minus | Multiply | Divide | Modulo | Assign | Equal | NotEqual
  | Less | LessEqual | Greater | GreaterEqual
  | And | Or | Not | Arrow | BiArrow | Range | DoubleColon
  | Ampersand | AmpersandAt
  | Pipe
  | LeftParen | RightParen | LeftBrace | RightBrace | LeftBracket
  | RightBracket | Comma | Semicolon | Colon | Dot
  | At | Hash
  | EndOfFile | Unknown
deriving DecidableEq

/-! ## 4. The token class (`Token.h`, lines 123-272) -/

/-- The class `Token` with its four private members. -/
structure Token where
  type_ : TokenType
  lexeme_ : List Char
  location_ : TokenLocation
  literal_ : TokenLiteral
deriving DecidableEq

namespace Token

/-- The three-argument constructor: the literal is `std::monostate`. -/
def new (type : TokenType) (lexeme : List Char) (location : TokenLocation) : Token :=
  { type_ := type, lexeme_ := lexeme, location_ := location, literal_ := TokenLiteral.monostate }

/-- The four-argument constructor. -/
def newWithLiteral (type : TokenType) (lexeme : List Char) (location : TokenLocation)
    (literal : TokenLiteral) : Token :=
  { type_ := type, lexeme_ := lexeme, location_ := location, literal_ := literal }

/-- Accessor `getType`. -/
def getType (t : Token) : TokenType := t.type_

/-- Accessor `getLexeme`. -/
def getLexeme (t : Token) : List Char := t.lexeme_

/-- Accessor `getLocation`. -/
def getLocation (t : Token) : TokenLocation := t.location_

/-- Member `hasLiteral`: the variant does not hold `std::monostate`. -/
def hasLiteral (t : Token) : Bool :=
  match t.literal_ with
  | TokenLiteral.monostate => false
  | _ => true

/-- Member template `getLiteral<T>` (`Token.h`, lines 151-156) at `T = int`:
the stored value when the variant holds an `int`, `std::nullopt` otherwise. -/
def getLiteralInt (t : Token) : Option Int :=
  match t.literal_ with
  | TokenLiteral.int v => some v
  | _ => none

/-- Member template `getLiteral<T>` at `T = double`. -/
def getLiteralDouble (t : Token) : Option Nat :=
  match t.literal_ with
  | TokenLiteral.double bits => some bits
  | _ => none

/-- Member template `getLiteral<T>` at `T = char`. -/
def getLiteralChar (t : Token) : Option Char :=
  match t.literal_ with
  | TokenLiteral.char c => some c
  | _ => none

/-- Member template `getLiteral<T>` at `T = std::string`. -/
def getLiteralString (t : Token) : Option (List Char) :=
  match t.literal_ with
  | TokenLiteral.string s => some s
  | _ => none

/-- The private member `tokenTypeToString` (`Token.h`, lines 169-254). The
`default:` label is unreachable for a value of the enumeration. -/
def tokenTypeToString : TokenType → List Char
  | .Import => "import".toList
  | .Iter => "iter".toList
  | .While => "while".toList
  | .If => "if".toList
  | .Else => "else".toList
  | .Enum => "enum".toList
  | .Compare => "compare".toList
  | .On => "on".toList
  | .Default => "default".toList
  | .Public => "public".toList
  | .Private => "private".toList
  | .Continue => "continue".toList
  | .Break => "break".toList
  | .ExitProgram => "exitProgram".toList
  | .Vec => "vec".toList
  | .Tuple => "tuple".toList
  | .Destroy => "destroy".toList
  | .Delete => "delete".toList
  | .U8 => "u8".toList
  | .U16 => "u16".toList
  | .U32 => "u32".toList
  | .U64 => "u64".toList
  | .I8 => "i8".toList
  | .I16 => "i16".toList
  | .I32 => "i32".toList
  | .I64 => "i64".toList
  | .F32 => "f32".toList
  | .F64 => "f64".toList
  | .Bool => "bool".toList
  | .Str => "str".toList
  | .IntegerLiteral => "integer_literal".toList
  | .FloatLiteral => "float_literal".toList
  | .StringLiteral => "string_literal".toList
  | .CharLiteral => "char_literal".toList
  | .Identifier => "identifier".toList
  | .Plus => "+".toList
  | .Minus => "-".toList
  | .Multiply => "*".toList
  | .Divide => "/".toList
  | .Modulo => "%".toList
  | .Assign => "=".toList
  | .Equal => "==".toList
  | .NotEqual => "!=".toList
  | .Less => "<".toList
  | .LessEqual => "<=".toList
  | .Greater => ">".toList
  | .GreaterEqual => ">=".toList
  | .And => "?+".toList
  | .Or => "??".toList
  | .Not => "!".toList
  | .Arrow => "->".toList
  | .BiArrow => "<->".toList
  | .Range => "..".toList
  | .DoubleColon => "::".toList
  | .Ampersand => "&".toList
  | .AmpersandAt => "&@".toList
  | .Pipe => "|".toList
  | .LeftParen => "(".toList
  | .RightParen => ")".toList
  | .LeftBrace => "\x7b".toList
  | .RightBrace => "\x7d".toList
  | .LeftBracket => "[".toList
  | .RightBracket => "]".toList
  | .Comma => ",".toList
  | .Semicolon => ";".toList
  | .Colon => ":".toList
  | .Dot => ".".toList
  | .At => "@".toList
  | .Hash => "#".toList
  | .EndOfFile => "EOF".toList
  | .Unknown => "unknown".toList

end Token

/-! ## `<cctype>` in the "C" locale -/

/-- The function `std::isspace`: space, `\t`, `\n`, `\v`, `\f`, `\r`. -/
def isspace (c : Char) : Bool :=
  c.toNat == 32 || (9 ≤ c.toNat && c.toNat ≤ 13)

/-- The function `std::isdigit`: `0` to `9`. -/
def isdigit (c : Char) : Bool :=
  48 ≤ c.toNat && c.toNat ≤ 57

/-- The function `std::isalpha`: `A` to `Z` and `a` to `z`. -/
def isalpha (c : Char) : Bool :=
  (65 ≤ c.toNat && c.toNat ≤ 90) || (97 ≤ c.toNat && c.toNat ≤ 122)

/-- The function `std::isalnum`. -/
def isalnum (c : Char) : Bool :=
  isalpha c || isdigit c

/-! ## 5. The lexer (`Token.h`, lines 277-302, and `Token.cpp`) -/

/-- The two ways a run of the embedding can stop without a result. -/
inductive Fault where
  | outOfBounds
  | outOfFuel
deriving DecidableEq

/-- The data members of the class `Lexer`. -/
structure Lexer where
  source_ : List Char
  position_ : Nat
  location_ : TokenLocation
deriving DecidableEq

namespace Lexer

/-- The constructor `Lexer(source)`: position `0`, location `1:1`. -/
def new (source : List Char) : Lexer :=
  { source_ := source, position_ := 0, location_ := { line := 1, column := 1 } }

/-- Member `isAtEnd`. -/
def isAtEnd (l : Lexer) : Bool :=
  decide (l.position_ ≥ l.source_.length)

/-- Member `peek`. -/
def peek (l : Lexer) : Char :=
  if l.isAtEnd then '\x00' else l.source_.getD l.position_ '\x00'

/-- Member `peekNext`. -/
def peekNext (l : Lexer) : Char :=
  if l.position_ + 1 ≥ l.source_.length then '\x00' else l.source_.getD (l.position_ + 1) '\x00'

/-- Member `peekNextN`. -/
def peekNextN (l : Lexer) (n : Nat) : Char :=
  if l.position_ + n ≥ l.source_.length then '\x00' else l.source_.getD (l.position_ + n) '\x00'

/-- Member `advance` (`Token.cpp`, lines 8-18). Reading past the end of the
source is the fault `outOfBounds`. The increments `location_.line++` and
`location_.column++` are increments of an `int`. -/
def advance (l : Lexer) : Except Fault (Char × Lexer) :=
  match l.source_.get? l.position_ with
  | none => Except.error Fault.outOfBounds
  | some c =>
    if c = '\n' then
      Except.ok (c, { l with position_ := l.position_ + 1,
                             location_ := { line := intWrap (l.location_.line + 1),
                                            column := 1 } })
    else
      Except.ok (c, { l with position_ := l.position_ + 1,
                             location_ := { line := l.location_.line,
                                            column := intWrap (l.location_.column + 1) } })

/-- Loop budget: every iteration of every loop consumes at least one
character, so one more than the number of characters left is enough. -/
def fuel (l : Lexer) : Nat :=
  l.source_.length - l.position_ + 1

/-- The loop of `skipLineComment` (`Token.cpp`, lines 24-25). -/
def skipLineCommentLoop : Nat → Lexer → Except Fault Lexer
  | 0, _ => Except.error Fault.outOfFuel
  | n + 1, l =>
    if !l.isAtEnd && l.peek != '\n' then
      match l.advance with
      | Except.error e => Except.error e
      | Except.ok (_, l1) => skipLineCommentLoop n l1
    else
      Except.ok l

/-- Member `skipLineComment`. -/
def skipLineComment (l : Lexer) : Except Fault Lexer :=
  skipLineCommentLoop l.fuel l

/-- The loop of `skipBlockComment` (`Token.cpp`, lines 33-43). -/
def skipBlockCommentLoop : Nat → Lexer → Except Fault Lexer
  | 0, _ => Except.error Fault.outOfFuel
  | n + 1, l =>
    if !l.isAtEnd then
      if l.peek = '-' && l.peekNext = '-' && l.peekNextN 2 = '|' then
        match l.advance with
        | Except.error e => Except.error e
        | Except.ok (_, l1) =>
          match l1.advance with
          | Except.error e => Except.error e
          | Except.ok (_, l2) =>
            match l2.advance with
            | Except.error e => Except.error e
            | Except.ok (_, l3) => Except.ok l3
      else
        match l.advance with
        | Except.error e => Except.error e
        | Except.ok (_, l1) => skipBlockCommentLoop n l1
    else
      Except.ok l

/-- Member `skipBlockComment`. -/
def skipBlockComment (l : Lexer) : Except Fault Lexer :=
  skipBlockCommentLoop l.fuel l

/-- The loop of `skipWhitespaceAndComments` (`Token.cpp`, lines 50-73). -/
def skipWhitespaceAndCommentsLoop : Nat → Lexer → Except Fault Lexer
  | 0, _ => Except.error Fault.outOfFuel
  | n + 1, l =>
    if !l.isAtEnd then
      let c := l.peek
      if isspace c then
        match l.advance with
        | Except.error e => Except.error e
        | Except.ok (_, l1) => skipWhitespaceAndCommentsLoop n l1
      else if c = '|' && l.peekNext = '|' then
        match l.advance with
        | Except.error e => Except.error e
        | Except.ok (_, l1) =>
          match l1.advance with
          | Except.error e => Except.error e
          | Except.ok (_, l2) =>
            match l2.skipLineComment with
            | Except.error e => Except.error e
            | Except.ok l3 => skipWhitespaceAndCommentsLoop n l3
      else if c = '|' && l.peekNext = '-' && l.peekNextN 2 = '-' then
        match l.advance with
        | Except.error e => Except.error e
        | Except.ok (_, l1) =>
          match l1.advance with
          | Except.error e => Except.error e
          | Except.ok (_, l2) =>
            match l2.advance with
            | Except.error e => Except.error e
            | Except.ok (_, l3) =>
              match l3.skipBlockComment with
              | Except.error e => Except.error e
              | Except.ok l4 => skipWhitespaceAndCommentsLoop n l4
      else
        Except.ok l
    else
      Except.ok l

/-- Member `skipWhitespaceAndComments`. -/
def skipWhitespaceAndComments (l : Lexer) : Except Fault Lexer :=
  skipWhitespaceAndCommentsLoop l.fuel l

/-- The loop of `stringLiteral` (`Token.cpp`, lines 284-295). -/
def stringLiteralLoop : Nat → Lexer → List Char → Except Fault (List Char × Lexer)
  | 0, _, _ => Except.error Fault.outOfFuel
  | n + 1, l, str =>
    if !l.isAtEnd && l.peek != '"' then
      if l.peek = '\\' then
        match l.advance with
        | Except.error e => Except.error e
        | Except.ok (_, l1) =>
          if !l1.isAtEnd then
            match l1.advance with
            | Except.error e => Except.error e
            | Except.ok (escaped, l2) => stringLiteralLoop n l2 (str ++ [escaped])
          else
            stringLiteralLoop n l1 str
      else
        match l.advance with
        | Except.error e => Except.error e
        | Except.ok (c, l1) => stringLiteralLoop n l1 (str ++ [c])
    else
      Except.ok (str, l)

/-- Member `stringLiteral` (`Token.cpp`, lines 281-299). -/
def stringLiteral (l : Lexer) : Except Fault (Token × Lexer) :=
  let tokenStart := l.location_
  match stringLiteralLoop l.fuel l [] with
  | Except.error e => Except.error e
  | Except.ok (str, l1) =>
    if !l1.isAtEnd then
      match l1.advance with
      | Except.error e => Except.error e
      | Except.ok (_, l2) => Except.ok (Token.new TokenType.StringLiteral str tokenStart, l2)
    else
      Except.ok (Token.new TokenType.StringLiteral str tokenStart, l1)

/-- The loop of `charLiteral` (`Token.cpp`, lines 307-318). -/
def charLiteralLoop : Nat → Lexer → List Char → Except Fault (List Char × Lexer)
  | 0, _, _ => Except.error Fault.outOfFuel
  | n + 1, l, str =>
    if !l.isAtEnd && l.peek != '\'' then
      if l.peek = '\\' then
        match l.advance with
        | Except.error e => Except.error e
        | Except.ok (_, l1) =>
          if !l1.isAtEnd then
            match l1.advance with
            | Except.error e => Except.error e
            | Except.ok (escaped, l2) => charLiteralLoop n l2 (str ++ [escaped])
          else
            charLiteralLoop n l1 str
      else
        match l.advance with
        | Except.error e => Except.error e
        | Except.ok (c, l1) => charLiteralLoop n l1 (str ++ [c])
    else
      Except.ok (str, l)

/-- Member `charLiteral` (`Token.cpp`, lines 304-322). -/
def charLiteral (l : Lexer) : Except Fault (Token × Lexer) :=
  let tokenStart := l.location_
  match charLiteralLoop l.fuel l [] with
  | Except.error e => Except.error e
  | Except.ok (str, l1) =>
    if !l1.isAtEnd then
      match l1.advance with
      | Except.error e => Except.error e
      | Except.ok (_, l2) => Except.ok (Token.new TokenType.CharLiteral str tokenStart, l2)
    else
      Except.ok (Token.new TokenType.CharLiteral str tokenStart, l1)

/-- The digit loops of the number branch (`Token.cpp`, lines 207-208 and
213-214): `while (!isAtEnd() && std::isdigit(peek())) numberStr.push_back(advance());` -/
def digitLoop : Nat → Lexer → List Char → Except Fault (List Char × Lexer)
  | 0, _, _ => Except.error Fault.outOfFuel
  | n + 1, l, numberStr =>
    if !l.isAtEnd && isdigit l.peek then
      match l.advance with
      | Except.error e => Except.error e
      | Except.ok (c, l1) => digitLoop n l1 (numberStr ++ [c])
    else
      Except.ok (numberStr, l)

/-- The number branch of `scanToken` (`Token.cpp`, lines 203-220); `c` is the
digit already consumed. -/
def scanNumber (c : Char) (tokenStart : TokenLocation) (l : Lexer) :
    Except Fault (Token × Lexer) :=
  match digitLoop l.fuel l [c] with
  | Except.error e => Except.error e
  | Except.ok (numberStr, l1) =>
    if !l1.isAtEnd && l1.peek = '.' then
      if l1.peekNext != '.' then
        match l1.advance with
        | Except.error e => Except.error e
        | Except.ok (dot, l2) =>
          match digitLoop l2.fuel l2 (numberStr ++ [dot]) with
          | Except.error e => Except.error e
          | Except.ok (numberStr2, l3) =>
            Except.ok (Token.new TokenType.FloatLiteral numberStr2 tokenStart, l3)
      else
        Except.ok (Token.new TokenType.IntegerLiteral numberStr tokenStart, l1)
    else
      Except.ok (Token.new TokenType.IntegerLiteral numberStr tokenStart, l1)

/-- The loop of the identifier branch (`Token.cpp`, lines 234-238). -/
def identLoop : Nat → Lexer → List Char → Except Fault (List Char × Lexer)
  | 0, _, _ => Except.error Fault.outOfFuel
  | n + 1, l, ident =>
    if !l.isAtEnd && (isalnum l.peek || l.peek = '_' || l.peek = '@' || l.peek = '#') then
      match l.advance with
      | Except.error e => Except.error e
      | Except.ok (c, l1) => identLoop n l1 (ident ++ [c])
    else
      Except.ok (ident, l)

/-- The reserved-word checks of the identifier branch (`Token.cpp`, lines
240-271), in source order. -/
def keywordOrIdentifier (ident : List Char) (tokenStart : TokenLocation) : Token :=
  if ident = "import".toList then Token.new TokenType.Import ident tokenStart
  else if ident = "iter".toList then Token.new TokenType.Iter ident tokenStart
  else if ident = "while".toList then Token.new TokenType.While ident tokenStart
  else if ident = "if".toList then Token.new TokenType.If ident tokenStart
  else if ident = "else".toList then Token.new TokenType.Else ident tokenStart
  else if ident = "enum".toList then Token.new TokenType.Enum ident tokenStart
  else if ident = "compare".toList then Token.new TokenType.Compare ident tokenStart
  else if ident = "on".toList then Token.new TokenType.On ident tokenStart
  else if ident = "default".toList then Token.new TokenType.Default ident tokenStart
  else if ident = "public".toList then Token.new TokenType.Public ident tokenStart
  else if ident = "private".toList then Token.new TokenType.Private ident tokenStart
  else if ident = "continue".toList then Token.new TokenType.Continue ident tokenStart
  else if ident = "break".toList then Token.new TokenType.Break ident tokenStart
  else if ident = "exitProgram".toList then Token.new TokenType.ExitProgram ident tokenStart
  else if ident = "vec".toList then Token.new TokenType.Vec ident tokenStart
  else if ident = "tuple".toList then Token.new TokenType.Tuple ident tokenStart
  else if ident = "destroy".toList then Token.new TokenType.Destroy ident tokenStart
  else if ident = "delete".toList then Token.new TokenType.Delete ident tokenStart
  else if ident = "u8".toList then Token.new TokenType.U8 ident tokenStart
  else if ident = "u16".toList then Token.new TokenType.U16 ident tokenStart
  else if ident = "u32".toList then Token.new TokenType.U32 ident tokenStart
  else if ident = "u64".toList then Token.new TokenType.U64 ident tokenStart
  else if ident = "i8".toList then Token.new TokenType.I8 ident tokenStart
  else if ident = "i16".toList then Token.new TokenType.I16 ident tokenStart
  else if ident = "i32".toList then Token.new TokenType.I32 ident tokenStart
  else if ident = "i64".toList then Token.new TokenType.I64 ident tokenStart
  else if ident = "f32".toList then Token.new TokenType.F32 ident tokenStart
  else if ident = "f64".toList then Token.new TokenType.F64 ident tokenStart
  else if ident = "bool".toList then Token.new TokenType.Bool ident tokenStart
  else if ident = "str".toList then Token.new TokenType.Str ident tokenStart
  else Token.new TokenType.Identifier ident tokenStart

/-- The identifier branch of `scanToken` (`Token.cpp`, lines 231-272); `c` is
the character already consumed. -/
def scanIdentifier (c : Char) (tokenStart : TokenLocation) (l : Lexer) :
    Except Fault (Token × Lexer) :=
  match identLoop l.fuel l [c] with
  | Except.error e => Except.error e
  | Except.ok (ident, l1) => Except.ok (keywordOrIdentifier ident tokenStart, l1)

/-- The pattern shared by the two-character operators of the `switch`:
`if (!isAtEnd() && peek() == next) { advance(); return long; } return short;` -/
def scanPair (next : Char) (long short : Token) (l : Lexer) : Except Fault (Token × Lexer) :=
  if !l.isAtEnd && l.peek = next then
    match l.advance with
    | Except.error e => Except.error e
    | Except.ok (_, l1) => Except.ok (long, l1)
  else
    Except.ok (short, l)

/-- The case `<` of the `switch` (`Token.cpp`, lines 123-140). -/
def scanLess (tokenStart : TokenLocation) (l : Lexer) : Except Fault (Token × Lexer) :=
  if !l.isAtEnd && l.peek = '=' then
    match l.advance with
    | Except.error e => Except.error e
    | Except.ok (_, l1) => Except.ok (Token.new TokenType.LessEqual "<=".toList tokenStart, l1)
  else if !l.isAtEnd && l.peek = '-' then
    match l.advance with
    | Except.error e => Except.error e
    | Except.ok (_, l1) =>
      if !l1.isAtEnd && l1.peek = '>' then
        match l1.advance with
        | Except.error e => Except.error e
        | Except.ok (_, l2) => Except.ok (Token.new TokenType.BiArrow "<->".toList tokenStart, l2)
      else
        Except.ok (Token.new TokenType.Less "<".toList tokenStart, l1)
  else
    Except.ok (Token.new TokenType.Less "<".toList tokenStart, l)

/-- The case `?` of the `switch` (`Token.cpp`, lines 149-162). -/
def scanQuestion (tokenStart : TokenLocation) (l : Lexer) : Except Fault (Token × Lexer) :=
  if !l.isAtEnd then
    let next := l.peek
    if next = '+' then
      match l.advance with
      | Except.error e => Except.error e
      | Except.ok (_, l1) => Except.ok (Token.new TokenType.And "?+".toList tokenStart, l1)
    else if next = '?' then
      match l.advance with
      | Except.error e => Except.error e
      | Except.ok (_, l1) => Except.ok (Token.new TokenType.Or "??".toList tokenStart, l1)
    else
      Except.ok (Token.new TokenType.Unknown "?".toList tokenStart, l)
  else
    Except.ok (Token.new TokenType.Unknown "?".toList tokenStart, l)

/-- The `switch` of `scanToken` (`Token.cpp`, lines 100-200) on the character
`c` just consumed; `none` is the label `default: break`. -/
def scanSwitch (c : Char) (tokenStart : TokenLocation) (l : Lexer) :
    Option (Except Fault (Token × Lexer)) :=
  if c = '+' then some (Except.ok (Token.new TokenType.Plus "+".toList tokenStart, l))
  else if c = '-' then
    some (scanPair '>' (Token.new TokenType.Arrow "->".toList tokenStart)
      (Token.new TokenType.Minus "-".toList tokenStart) l)
  else if c = '*' then some (Except.ok (Token.new TokenType.Multiply "*".toList tokenStart, l))
  else if c = '/' then some (Except.ok (Token.new TokenType.Divide "/".toList tokenStart, l))
  else if c = '%' then some (Except.ok (Token.new TokenType.Modulo "%".toList tokenStart, l))
  else if c = '=' then
    some (scanPair '=' (Token.new TokenType.Equal "==".toList tokenStart)
      (Token.new TokenType.Assign "=".toList tokenStart) l)
  else if c = '!' then
    some (scanPair '=' (Token.new TokenType.NotEqual "!=".toList tokenStart)
      (Token.new TokenType.Not "!".toList tokenStart) l)
  else if c = '<' then some (scanLess tokenStart l)
  else if c = '>' then
    some (scanPair '=' (Token.new TokenType.GreaterEqual ">=".toList tokenStart)
      (Token.new TokenType.Greater ">".toList tokenStart) l)
  else if c = '?' then some (scanQuestion tokenStart l)
  else if c = '&' then
    some (scanPair '@' (Token.new TokenType.AmpersandAt "&@".toList tokenStart)
      (Token.new TokenType.Ampersand "&".toList tokenStart) l)
  else if c = '|' then some (Except.ok (Token.new TokenType.Pipe "|".toList tokenStart, l))
  else if c = ':' then
    some (scanPair ':' (Token.new TokenType.DoubleColon "::".toList tokenStart)
      (Token.new TokenType.Colon ":".toList tokenStart) l)
  else if c = '.' then
    some (scanPair '.' (Token.new TokenType.Range "..".toList tokenStart)
      (Token.new TokenType.Dot ".".toList tokenStart) l)
  else if c = '(' then some (Except.ok (Token.new TokenType.LeftParen "(".toList tokenStart, l))
  else if c = ')' then some (Except.ok (Token.new TokenType.RightParen ")".toList tokenStart, l))
  else if c = '\x7b' then
    some (Except.ok (Token.new TokenType.LeftBrace "\x7b".toList tokenStart, l))
  else if c = '\x7d' then
    some (Except.ok (Token.new TokenType.RightBrace "\x7d".toList tokenStart, l))
  else if c = '[' then some (Except.ok (Token.new TokenType.LeftBracket "[".toList tokenStart, l))
  else if c = ']' then some (Except.ok (Token.new TokenType.RightBracket "]".toList tokenStart, l))
  else if c = ',' then some (Except.ok (Token.new TokenType.Comma ",".toList tokenStart, l))
  else if c = ';' then some (Except.ok (Token.new TokenType.Semicolon ";".toList tokenStart, l))
  else if c = '@' then some (Except.ok (Token.new TokenType.At "@".toList tokenStart, l))
  else if c = '#' then some (Except.ok (Token.new TokenType.Hash "#".toList tokenStart, l))
  else none

/-- Member `scanToken` (`Token.cpp`, lines 94-276). -/
def scanToken (l : Lexer) : Except Fault (Token × Lexer) :=
  match l.skipWhitespaceAndComments with
  | Except.error e => Except.error e
  | Except.ok l0 =>
    let tokenStart := l0.location_
    match l0.advance with
    | Except.error e => Except.error e
    | Except.ok (c, l1) =>
      match scanSwitch c tokenStart l1 with
      | some r => r
      | none =>
        if isdigit c then scanNumber c tokenStart l1
        else if c = '"' then l1.stringLiteral
        else if c = '\'' then l1.charLiteral
        else if isalpha c || c = '_' || c = '@' || c = '#' then scanIdentifier c tokenStart l1
        else Except.ok (Token.new TokenType.Unknown [c] tokenStart, l1)

/-- The loop of `tokenize` (`Token.cpp`, lines 81-86). -/
def tokenizeLoop : Nat → Lexer → List Token → Except Fault (List Token × Lexer)
  | 0, _, _ => Except.error Fault.outOfFuel
  | n + 1, l, tokens =>
    if !l.isAtEnd then
      match l.skipWhitespaceAndComments with
      | Except.error e => Except.error e
      | Except.ok l1 =>
        if l1.isAtEnd then
          Except.ok (tokens, l1)
        else
          match l1.scanToken with
          | Except.error e => Except.error e
          | Except.ok (t, l2) => tokenizeLoop n l2 (tokens ++ [t])
    else
      Except.ok (tokens, l)

/-- Member `tokenize` (`Token.cpp`, lines 79-89). -/
def tokenize (l : Lexer) : Except Fault (List Token) :=
  match tokenizeLoop l.fuel l [] with
  | Except.error e => Except.error e
  | Except.ok (tokens, l1) =>
    Except.ok (tokens ++ [Token.new TokenType.EndOfFile [] l1.location_])

end Lexer

/-- The convenience function `Tokenize` (`Token.cpp`, lines 327-330). -/
def Tokenize (source : List Char) : Except Fault (List Token) :=
  (Lexer.new source).tokenize

/-! ## 6. The code generator (`Assembler/src/Assembly.cpp`) -/

/-- The program header that `TokenToASM` starts with (`Assembly.cpp`, lines
7-11). -/
def asmHeader : List Char :=
  "section .text\nglobal main\nextern ExitProcess\n\nmain:\n".toList

/-- The `for` loop of `TokenToASM` (`Assembly.cpp`, lines 16-33) at index `i`
with the output written so far. A read `tokens[i]` outside the vector is the
fault `outOfBounds`. -/
def TokenToASMLoop : Nat → List Token → Nat → List Char → Except Fault (List Char)
  | 0, _, _, _ => Except.error Fault.outOfFuel
  | n + 1, tokens, i, outputASM =>
    if i < tokens.length then
      match tokens.get? i with
      | none => Except.error Fault.outOfBounds
      | some token =>
        if token.getType = TokenType.ExitProgram then
          if i + 1 < tokens.length then
            match tokens.get? (i + 1) with
            | none => Except.error Fault.outOfBounds
            | some next =>
              if next.getType = TokenType.IntegerLiteral then
                match tokens.get? (i + 1) with
                | none => Except.error Fault.outOfBounds
                | some consumed =>
                  TokenToASMLoop n tokens (i + 1 + 1)
                    (outputASM ++ "    sub rsp, 40\n".toList
                      ++ ("    mov rcx, ".toList ++ consumed.getLexeme ++ "\n".toList))
              else
                TokenToASMLoop n tokens (i + 1) outputASM
          else
            TokenToASMLoop n tokens (i + 1) outputASM
        else
          TokenToASMLoop n tokens (i + 1) outputASM
    else
      Except.ok outputASM

/-- The function `TokenToASM` (`Assembly.cpp`, lines 5-36). Every iteration
moves the index forward, so `tk_len + 1` iterations are enough. -/
def TokenToASM (tokens : List Token) : Except Fault (List Char) :=
  match TokenToASMLoop (tokens.length + 1) tokens 0 asmHeader with
  | Except.error e => Except.error e
  | Except.ok outputASM => Except.ok (outputASM ++ "    call ExitProcess\n".toList)

/-! ## Reference notions on plain character lists

These definitions restate, on the characters that are still to be read, what
each member function consumes and returns. They are used to describe the
results of the embedding; the theorems below connect them to it. -/

/-- The location update performed by one call of `advance` reading `c`. -/
def TokenLocation.next (loc : TokenLocation) (c : Char) : TokenLocation :=
  if c = '\n' then { line := intWrap (loc.line + 1), column := 1 }
  else { line := loc.line, column := intWrap (loc.column + 1) }

/-- The location reached from `loc` after the characters `cs` were consumed. -/
def TokenLocation.after (loc : TokenLocation) (cs : List Char) : TokenLocation :=
  cs.foldl TokenLocation.next loc

/-- The location of the end of `cs` in a source that starts with `cs`:
line `1 +` number of newlines, column `1 +` characters after the last newline. -/
def locOf (cs : List Char) : TokenLocation :=
  { line := 1 + cs.count '\n',
    column := 1 + (cs.reverse.takeWhile (fun c => c != '\n')).length }

/-- A lexer whose source is `pre ++ cs` and whose cursor stands between the
two parts. -/
def Lexer.atSplit (pre cs : List Char) (loc : TokenLocation) : Lexer :=
  { source_ := pre ++ cs, position_ := pre.length, location_ := loc }

/-- The character `n` places ahead in the characters left, `\0` past the end
(what `peek`, `peekNext` and `peekNextN` return). -/
def look (cs : List Char) (n : Nat) : Char :=
  cs.getD n '\x00'

/-- What `skipBlockComment` consumes, and what it leaves. -/
def blockSplit : List Char → List Char × List Char
  | [] => ([], [])
  | c :: cs =>
    if c = '-' && look cs 0 = '-' && look cs 1 = '|' then
      (c :: cs.take 2, cs.drop 2)
    else
      (c :: (blockSplit cs).1, (blockSplit cs).2)

/-- What `skipWhitespaceAndComments` consumes, and what it leaves, within a
budget of `n` loop iterations. -/
def triviaSplit : Nat → List Char → List Char × List Char
  | 0, cs => ([], cs)
  | _ + 1, [] => ([], [])
  | n + 1, c :: cs =>
    if isspace c then
      (c :: (triviaSplit n cs).1, (triviaSplit n cs).2)
    else if c = '|' && look cs 0 = '|' then
      let body := cs.drop 1
      let r := triviaSplit n (body.dropWhile (fun x => x != '\n'))
      (c :: cs.take 1 ++ body.takeWhile (fun x => x != '\n') ++ r.1, r.2)
    else if c = '|' && look cs 0 = '-' && look cs 1 = '-' then
      let b := blockSplit (cs.drop 2)
      let r := triviaSplit n b.2
      (c :: cs.take 2 ++ b.1 ++ r.1, r.2)
    else
      ([], c :: cs)

/-- What `skipWhitespaceAndComments` consumes, and what it leaves. -/
def trivia (cs : List Char) : List Char × List Char :=
  triviaSplit (cs.length + 1) cs

/-- The first character `c` of `c :: cs` opens neither whitespace nor a
comment. -/
def startsToken (c : Char) (cs : List Char) : Bool :=
  !isspace c && !(c = '|' && look cs 0 = '|')
    && !(c = '|' && look cs 0 = '-' && look cs 1 = '-')

/-- The body loop of a quoted literal closed by `q`: the accumulated text, the
characters consumed, and the characters left (starting at the closing `q`, if
any). -/
def quotedSplit (q : Char) : List Char → List Char × List Char × List Char
  | [] => ([], [], [])
  | c :: cs =>
    if c = q then ([], [], c :: cs)
    else if c = '\\' then
      match cs with
      | [] => ([], [c], [])
      | e :: cs1 =>
        (e :: (quotedSplit q cs1).1, c :: e :: (quotedSplit q cs1).2.1, (quotedSplit q cs1).2.2)
    else
      (c :: (quotedSplit q cs).1, c :: (quotedSplit q cs).2.1, (quotedSplit q cs).2.2)

/-- The characters accepted inside an identifier (`Token.cpp`, line 235). -/
def isIdentChar (c : Char) : Bool :=
  isalnum c || c = '_' || c = '@' || c = '#'

/-- The token type chosen by the reserved-word checks for the text `ident`. -/
def keywordType (ident : List Char) : TokenType :=
  (Lexer.keywordOrIdentifier ident { line := 1, column := 1 }).type_

/-- The outcome of one call of `scanToken`, read off the characters left:
the token's type and lexeme, the characters consumed before the token location
was recorded (`start`), all the characters consumed (`used`) and the characters
left (`rest`). -/
structure Scanned where
  type : TokenType
  lexeme : List Char
  start : List Char
  used : List Char
  rest : List Char

/-- The result of `scanToken` that the outcome `sc` describes, when the token
starts after `pre` at location `loc`: the token, and the lexer after it. -/
def Scanned.result (sc : Scanned) (pre : List Char) (loc : TokenLocation) :
    Except Fault (Token × Lexer) :=
  Except.ok (Token.new sc.type sc.lexeme (loc.after sc.start),
    Lexer.atSplit (pre ++ sc.used) sc.rest (loc.after sc.used))

/-- Outcome of `scanPair` after the character `c`. -/
def pairScan (c next : Char) (long short : TokenType) (longLexeme shortLexeme : List Char)
    (cs : List Char) : Scanned :=
  if !cs.isEmpty && look cs 0 = next then
    { type := long, lexeme := longLexeme, start := [], used := c :: cs.take 1, rest := cs.drop 1 }
  else
    { type := short, lexeme := shortLexeme, start := [], used := [c], rest := cs }

/-- Outcome of a case of the `switch` that consumes nothing more. -/
def singleScan (c : Char) (type : TokenType) (lexeme cs : List Char) : Scanned :=
  { type := type, lexeme := lexeme, start := [], used := [c], rest := cs }

/-- Outcome of `scanLess` after the character `c`. -/
def lessScan (c : Char) (cs : List Char) : Scanned :=
  if !cs.isEmpty && look cs 0 = '=' then
    { type := TokenType.LessEqual, lexeme := "<=".toList, start := [],
      used := c :: cs.take 1, rest := cs.drop 1 }
  else if !cs.isEmpty && look cs 0 = '-' then
    if !(cs.drop 1).isEmpty && look cs 1 = '>' then
      { type := TokenType.BiArrow, lexeme := "<->".toList, start := [],
        used := c :: cs.take 2, rest := cs.drop 2 }
    else
      { type := TokenType.Less, lexeme := "<".toList, start := [],
        used := c :: cs.take 1, rest := cs.drop 1 }
  else
    { type := TokenType.Less, lexeme := "<".toList, start := [], used := [c], rest := cs }

/-- Outcome of `scanQuestion` after the character `c`. -/
def questionScan (c : Char) (cs : List Char) : Scanned :=
  if !cs.isEmpty then
    if look cs 0 = '+' then
      { type := TokenType.And, lexeme := "?+".toList, start := [],
        used := c :: cs.take 1, rest := cs.drop 1 }
    else if look cs 0 = '?' then
      { type := TokenType.Or, lexeme := "??".toList, start := [],
        used := c :: cs.take 1, rest := cs.drop 1 }
    else
      { type := TokenType.Unknown, lexeme := "?".toList, start := [], used := [c], rest := cs }
  else
    { type := TokenType.Unknown, lexeme := "?".toList, start := [], used := [c], rest := cs }

/-- Outcome of `scanSwitch` on the character `c` followed by `cs`. -/
def switchScan (c : Char) (cs : List Char) : Option Scanned :=
  if c = '+' then some (singleScan c TokenType.Plus "+".toList cs)
  else if c = '-' then
    some (pairScan c '>' TokenType.Arrow TokenType.Minus "->".toList "-".toList cs)
  else if c = '*' then some (singleScan c TokenType.Multiply "*".toList cs)
  else if c = '/' then some (singleScan c TokenType.Divide "/".toList cs)
  else if c = '%' then some (singleScan c TokenType.Modulo "%".toList cs)
  else if c = '=' then
    some (pairScan c '=' TokenType.Equal TokenType.Assign "==".toList "=".toList cs)
  else if c = '!' then
    some (pairScan c '=' TokenType.NotEqual TokenType.Not "!=".toList "!".toList cs)
  else if c = '<' then some (lessScan c cs)
  else if c = '>' then
    some (pairScan c '=' TokenType.GreaterEqual TokenType.Greater ">=".toList ">".toList cs)
  else if c = '?' then some (questionScan c cs)
  else if c = '&' then
    some (pairScan c '@' TokenType.AmpersandAt TokenType.Ampersand "&@".toList "&".toList cs)
  else if c = '|' then some (singleScan c TokenType.Pipe "|".toList cs)
  else if c = ':' then
    some (pairScan c ':' TokenType.DoubleColon TokenType.Colon "::".toList ":".toList cs)
  else if c = '.' then
    some (pairScan c '.' TokenType.Range TokenType.Dot "..".toList ".".toList cs)
  else if c = '(' then some (singleScan c TokenType.LeftParen "(".toList cs)
  else if c = ')' then some (singleScan c TokenType.RightParen ")".toList cs)
  else if c = '\x7b' then some (singleScan c TokenType.LeftBrace "\x7b".toList cs)
  else if c = '\x7d' then some (singleScan c TokenType.RightBrace "\x7d".toList cs)
  else if c = '[' then some (singleScan c TokenType.LeftBracket "[".toList cs)
  else if c = ']' then some (singleScan c TokenType.RightBracket "]".toList cs)
  else if c = ',' then some (singleScan c TokenType.Comma ",".toList cs)
  else if c = ';' then some (singleScan c TokenType.Semicolon ";".toList cs)
  else if c = '@' then some (singleScan c TokenType.At "@".toList cs)
  else if c = '#' then some (singleScan c TokenType.Hash "#".toList cs)
  else none

/-- Outcome of `scanNumber` after the digit `c`. -/
def numberScan (c : Char) (cs : List Char) : Scanned :=
  let d1 := cs.takeWhile isdigit
  let r1 := cs.dropWhile isdigit
  if !r1.isEmpty && look r1 0 = '.' then
    if look r1 1 != '.' then
      let d2 := (r1.drop 1).takeWhile isdigit
      { type := TokenType.FloatLiteral, lexeme := c :: d1 ++ r1.take 1 ++ d2, start := [],
        used := c :: d1 ++ r1.take 1 ++ d2, rest := (r1.drop 1).dropWhile isdigit }
    else
      { type := TokenType.IntegerLiteral, lexeme := c :: d1, start := [],
        used := c :: d1, rest := r1 }
  else
    { type := TokenType.IntegerLiteral, lexeme := c :: d1, start := [],
      used := c :: d1, rest := r1 }

/-- Outcome of `stringLiteral` / `charLiteral` after the opening quote `c`,
for the closing quote `q`. -/
def quotedScan (type : TokenType) (c q : Char) (cs : List Char) : Scanned :=
  let r := quotedSplit q cs
  { type := type, lexeme := r.1, start := [c],
    used := c :: r.2.1 ++ r.2.2.take 1, rest := r.2.2.drop 1 }

/-- Outcome of `scanIdentifier` after the character `c`. -/
def identScan (c : Char) (cs : List Char) : Scanned :=
  let w := cs.takeWhile isIdentChar
  { type := keywordType (c :: w), lexeme := c :: w, start := [],
    used := c :: w, rest := cs.dropWhile isIdentChar }

/-- Outcome of `scanToken` when the characters left are `c :: cs` and `c`
opens a token. -/
def scan (c : Char) (cs : List Char) : Scanned :=
  match switchScan c cs with
  | some r => r
  | none =>
    if isdigit c then numberScan c cs
    else if c = '"' then quotedScan TokenType.StringLiteral c '"' cs
    else if c = '\'' then quotedScan TokenType.CharLiteral c '\'' cs
    else if isalpha c || c = '_' || c = '@' || c = '#' then identScan c cs
    else { type := TokenType.Unknown, lexeme := [c], start := [], used := [c], rest := cs }

/-- The tokens pushed by the loop of `tokenize` when the characters left are
`cs` and the location is `loc`, within a budget of `n` loop iterations. -/
def tokensFrom : Nat → TokenLocation → List Char → List Token
  | 0, _, _ => []
  | n + 1, loc, cs =>
    match (trivia cs).2 with
    | [] => []
    | c :: cs1 =>
      let sc := scan c cs1
      let loc1 := loc.after (trivia cs).1
      Token.new sc.type sc.lexeme (loc1.after sc.start) :: tokensFrom n (loc1.after sc.used) sc.rest

/-- The tokens pushed by the loop of `tokenize` when the characters left are
`cs` and the location is `loc`. -/
def tokensOf (loc : TokenLocation) (cs : List Char) : List Token :=
  tokensFrom (cs.length + 1) loc cs

/-- The cases of the `switch` that return at once: character, token type,
lexeme. -/
def singleTable : List (Char × TokenType × List Char) :=
  [('+', TokenType.Plus, "+".toList), ('*', TokenType.Multiply, "*".toList),
   ('/', TokenType.Divide, "/".toList), ('%', TokenType.Modulo, "%".toList),
   ('|', TokenType.Pipe, "|".toList), ('(', TokenType.LeftParen, "(".toList),
   (')', TokenType.RightParen, ")".toList), ('\x7b', TokenType.LeftBrace, "\x7b".toList),
   ('\x7d', TokenType.RightBrace, "\x7d".toList), ('[', TokenType.LeftBracket, "[".toList),
   (']', TokenType.RightBracket, "]".toList), (',', TokenType.Comma, ",".toList),
   (';', TokenType.Semicolon, ";".toList), ('@', TokenType.At, "@".toList),
   ('#', TokenType.Hash, "#".toList)]

/-- The cases of the `switch` that look one character ahead: character,
continuation, type and lexeme with the continuation, type and lexeme without. -/
def pairTable : List (Char × Char × TokenType × TokenType × List Char × List Char) :=
  [('-', '>', TokenType.Arrow, TokenType.Minus, "->".toList, "-".toList),
   ('=', '=', TokenType.Equal, TokenType.Assign, "==".toList, "=".toList),
   ('!', '=', TokenType.NotEqual, TokenType.Not, "!=".toList, "!".toList),
   ('>', '=', TokenType.GreaterEqual, TokenType.Greater, ">=".toList, ">".toList),
   ('&', '@', TokenType.AmpersandAt, TokenType.Ampersand, "&@".toList, "&".toList),
   (':', ':', TokenType.DoubleColon, TokenType.Colon, "::".toList, ":".toList),
   ('.', '.', TokenType.Range, TokenType.Dot, "..".toList, ".".toList)]

/-- The characters that have a case of their own in the `switch`. -/
def switchChars : List Char :=
  ['+', '-', '*', '/', '%', '=', '!', '<', '>', '?', '&', '|', ':', '.', '(', ')',
   '\x7b', '\x7d', '[', ']', ',', ';', '@', '#']

/-- The 30 reserved words: 18 keywords and 12 type keywords. -/
def reservedWords : List (List Char) :=
  ["import".toList, "iter".toList, "while".toList, "if".toList, "else".toList, "enum".toList,
   "compare".toList, "on".toList, "default".toList, "public".toList, "private".toList,
   "continue".toList, "break".toList, "exitProgram".toList, "vec".toList, "tuple".toList,
   "destroy".toList, "delete".toList,
   "u8".toList, "u16".toList, "u32".toList, "u64".toList, "i8".toList, "i16".toList,
   "i32".toList, "i64".toList, "f32".toList, "f64".toList, "bool".toList, "str".toList]

/-- The keyword and type-keyword members of `TokenType` (`Token.h`, lines
36-60). -/
def isKeywordType : TokenType → Bool
  | .Import | .Iter | .While | .If | .Else | .Enum | .Compare | .On | .Default
  | .Public | .Private | .Continue | .Break | .ExitProgram | .Vec | .Tuple
  | .Destroy | .Delete
  | .U8 | .U16 | .U32 | .U64 | .I8 | .I16 | .I32 | .I64 | .F32 | .F64 | .Bool | .Str => true
  | _ => false

/-- The token types with one fixed spelling: keywords, type keywords,
operators, punctuation and special symbols, that is every type other than the
four literal types, `Identifier`, `EndOfFile` and `Unknown`. -/
def isFixedType : TokenType → Bool
  | .IntegerLiteral | .FloatLiteral | .StringLiteral | .CharLiteral
  | .Identifier | .EndOfFile | .Unknown => false
  | _ => true

/-- The text of a run of segments `(gap, used)`: for each token in turn, the
characters skipped before it and the characters consumed for it. -/
def segmentsText : List (List Char × List Char) → List Char
  | [] => []
  | seg :: segs => seg.1 ++ seg.2 ++ segmentsText segs

/-- The tokens `ts` sit where the segments say, in a source that starts with
`pre` followed by the text of the segments, when `locate p` is the location of
the position that has the characters `p` before it: the token of the segment
`(gap, used)` consumed the non-empty text `used`, and, unless it is a string
or character literal, its lexeme is a leading part of `used` and its location
is the position of the first character of `used`, that is `locate` of all
the characters before it. -/
def TokensAt (locate : List Char → TokenLocation) :
    List Char → List Token → List (List Char × List Char) → Prop
  | _, [], [] => True
  | pre, t :: ts, seg :: segs =>
    seg.2 ≠ []
      ∧ (t.type_ ≠ TokenType.StringLiteral → t.type_ ≠ TokenType.CharLiteral →
          t.location_ = locate (pre ++ seg.1) ∧ t.lexeme_ <+: seg.2)
      ∧ TokensAt locate (pre ++ seg.1 ++ seg.2) ts segs
  | _, _ :: _, [] => False
  | _, [], _ :: _ => False

/-- Drop the backslash, copy the next character: scan `b` left to right, copy
every character that is not a backslash, and for each backslash drop it and
copy the character after it verbatim; a final backslash with nothing after it
contributes nothing. -/
def unescape : List Char → List Char
  | [] => []
  | c :: cs =>
    if c = '\\' then
      match cs with
      | [] => []
      | e :: cs1 => e :: unescape cs1
    else
      c :: unescape cs

/-- Every `"` of the body is immediately preceded by an escaping backslash, and
the body does not end in an escaping backslash; a backslash is escaping when it
is not itself the character copied after an escaping backslash. -/
def quotesEscaped : List Char → Bool
  | [] => true
  | c :: cs =>
    if c = '\\' then
      match cs with
      | [] => false
      | _ :: cs1 => quotesEscaped cs1
    else if c = '"' then false
    else quotesEscaped cs

/-- The location one line further down, in the same column, the line being
counted as `advance` counts it. -/
def TokenLocation.lineBelow (loc : TokenLocation) : TokenLocation :=
  { line := intWrap (loc.line + 1), column := loc.column }

/-- The same token, located one line further down in the same column. -/
def Token.lineBelow (t : Token) : Token :=
  { t with location_ := t.location_.lineBelow }

/-- The index `i` opens an exit pair of `ts`: `ts[i]` has type `ExitProgram`,
and `ts[i+1]` exists and has type `IntegerLiteral`. -/
def isExitPair (ts : List Token) (i : Nat) : Bool :=
  match ts.get? i, ts.get? (i + 1) with
  | some t, some u =>
    decide (t.type_ = TokenType.ExitProgram) && decide (u.type_ = TokenType.IntegerLiteral)
  | _, _ => false

/-- The two lines emitted for the exit pair opened at index `i`. -/
def exitPairLines (ts : List Token) (i : Nat) : List Char :=
  match ts.get? (i + 1) with
  | some u => "    sub rsp, 40\n".toList ++ ("    mov rcx, ".toList ++ u.lexeme_ ++ "\n".toList)
  | none => []

/-- The expected output of `TokenToASM`: the header, then, for each index that
opens an exit pair, in increasing order, the two lines of that pair, then one
trailing call line. -/
def expectedASM (ts : List Token) : List Char :=
  asmHeader
    ++ (((List.range ts.length).filter (isExitPair ts)).map (exitPairLines ts)).flatten
    ++ "    call ExitProcess\n".toList

/-- What the loop of `TokenToASM` appends when the tokens still to be visited
are `ts`: after an exit pair it goes on behind the integer literal. -/
def asmFrom : List Token → List Char
  | [] => []
  | [_] => []
  | t :: u :: rest =>
    if t.type_ = TokenType.ExitProgram then
      if u.type_ = TokenType.IntegerLiteral then
        "    sub rsp, 40\n".toList ++ ("    mov rcx, ".toList ++ u.lexeme_ ++ "\n".toList)
          ++ asmFrom rest
      else asmFrom (u :: rest)
    else asmFrom (u :: rest)

/-- The body ends in an escaping backslash: scanning left to right, where a
backslash takes the character after it with it, the last character is a
backslash left alone. -/
def endsInEscape : List Char → Bool
  | [] => false
  | c :: cs =>
    if c = '\\' then
      match cs with
      | [] => true
      | _ :: cs1 => endsInEscape cs1
    else endsInEscape cs

/-- Lexicographic order on locations, strict: an earlier line, or the same line
and an earlier column. -/
def TokenLocation.before (a b : TokenLocation) : Bool :=
  decide (a.line < b.line) || (decide (a.line = b.line) && decide (a.column < b.column))

/-- Lexicographic order on locations, large: `a` is before `b` or equal to it. -/
def TokenLocation.notAfter (a b : TokenLocation) : Bool :=
  decide (a.line < b.line) || (decide (a.line = b.line) && decide (a.column ≤ b.column))

/-- The order that two consecutive tokens of the output respect: the location
of `t1` is not after the location of `t2`, its line is not below, and, unless
`t1` is a string or character literal, its location is strictly before. -/
def Token.precedes (t1 t2 : Token) : Prop :=
  t1.location_.notAfter t2.location_ = true
    ∧ t1.location_.line ≤ t2.location_.line
    ∧ (t1.type_ ≠ TokenType.StringLiteral → t1.type_ ≠ TokenType.CharLiteral →
        t1.location_.before t2.location_ = true)

/-- The location `loc` as two `int` members hold it: both numbers reduced to the
range of `int`. -/
def TokenLocation.wrap (loc : TokenLocation) : TokenLocation :=
  { line := intWrap loc.line, column := intWrap loc.column }

/-- The number of characters of `cs` after its last newline, all of `cs` when it
has none. -/
def lastLineLength (cs : List Char) : Nat :=
  (cs.reverse.takeWhile (fun c => c != '\n')).length

/-- The type and the lexeme of a token. -/
def Token.shape (t : Token) : TokenType × List Char :=
  (t.type_, t.lexeme_)

end GC

/-! ## Evaluation of the primitives at a split source -/

namespace GC

@[simp]
theorem look_nil (n : Nat) : look [] n = '\x00' := rfl

@[simp]
theorem look_cons_zero (c : Char) (cs : List Char) : look (c :: cs) 0 = c := rfl

@[simp]
theorem look_cons_succ (c : Char) (cs : List Char) (n : Nat) :
    look (c :: cs) (n + 1) = look cs n := rfl

@[simp]
theorem TokenLocation.after_nil (loc : TokenLocation) : loc.after [] = loc := rfl

@[simp]
theorem TokenLocation.after_cons (loc : TokenLocation) (c : Char) (cs : List Char) :
    loc.after (c :: cs) = (loc.next c).after cs := rfl

theorem TokenLocation.after_append (loc : TokenLocation) (xs ys : List Char) :
    loc.after (xs ++ ys) = (loc.after xs).after ys := by
  simp [TokenLocation.after, List.foldl_append]

theorem Lexer.new_eq_atSplit (source : List Char) :
    Lexer.new source = Lexer.atSplit [] source { line := 1, column := 1 } := by
  simp [Lexer.new, Lexer.atSplit]

theorem Lexer.atSplit_append (pre xs cs : List Char) (loc : TokenLocation) :
    (Lexer.atSplit (pre ++ xs) cs loc).source_ = (Lexer.atSplit pre (xs ++ cs) loc).source_ := by
  simp [Lexer.atSplit]

@[simp]
theorem Lexer.isAtEnd_atSplit (pre cs : List Char) (loc : TokenLocation) :
    (Lexer.atSplit pre cs loc).isAtEnd = cs.isEmpty := by
  cases cs <;> simp [Lexer.isAtEnd, Lexer.atSplit]

@[simp]
theorem Lexer.peekNextN_atSplit (pre cs : List Char) (loc : TokenLocation) (n : Nat) :
    (Lexer.atSplit pre cs loc).peekNextN n = look cs n := by
  unfold Lexer.peekNextN Lexer.atSplit look
  simp only [List.length_append, ge_iff_le, add_le_add_iff_left]
  split
  · rename_i h
    rw [List.getD_eq_default _ _ h]
  · rw [List.getD_eq_getElem?_getD, List.getD_eq_getElem?_getD,
      List.getElem?_append_right (Nat.le_add_right _ _)]
    simp

@[simp]
theorem Lexer.peek_atSplit (pre cs : List Char) (loc : TokenLocation) :
    (Lexer.atSplit pre cs loc).peek = look cs 0 := by
  have h := Lexer.peekNextN_atSplit pre cs loc 0
  simpa [Lexer.peek, Lexer.peekNextN, Lexer.isAtEnd] using h

@[simp]
theorem Lexer.peekNext_atSplit (pre cs : List Char) (loc : TokenLocation) :
    (Lexer.atSplit pre cs loc).peekNext = look cs 1 := by
  have h := Lexer.peekNextN_atSplit pre cs loc 1
  simpa [Lexer.peekNext, Lexer.peekNextN] using h

@[simp]
theorem Lexer.advance_atSplit_nil (pre : List Char) (loc : TokenLocation) :
    (Lexer.atSplit pre [] loc).advance = Except.error Fault.outOfBounds := by
  simp [Lexer.advance, Lexer.atSplit]

@[simp]
theorem Lexer.advance_atSplit_cons (pre : List Char) (c : Char) (cs : List Char)
    (loc : TokenLocation) :
    (Lexer.atSplit pre (c :: cs) loc).advance
      = Except.ok (c, Lexer.atSplit (pre ++ [c]) cs (loc.next c)) := by
  simp only [Lexer.advance, Lexer.atSplit, List.get?_eq_getElem?,
    List.getElem?_append_right (Nat.le_refl _), Nat.sub_self, List.getElem?_cons_zero,
    TokenLocation.next, List.length_append, List.length_singleton, List.append_assoc,
    List.singleton_append]
  split <;> rfl

@[simp]
theorem Lexer.fuel_atSplit (pre cs : List Char) (loc : TokenLocation) :
    (Lexer.atSplit pre cs loc).fuel = cs.length + 1 := by
  simp [Lexer.fuel, Lexer.atSplit]

theorem Lexer.skipLineCommentLoop_atSplit (n : Nat) (pre cs : List Char) (loc : TokenLocation)
    (h : cs.length < n) :
    Lexer.skipLineCommentLoop n (Lexer.atSplit pre cs loc)
      = Except.ok (Lexer.atSplit (pre ++ cs.takeWhile (fun x => x != '\n'))
          (cs.dropWhile (fun x => x != '\n')) (loc.after (cs.takeWhile (fun x => x != '\n')))) := by
  induction n generalizing pre cs loc with
  | zero => omega
  | succ n ih =>
    cases cs with
    | nil => simp [Lexer.skipLineCommentLoop, TokenLocation.after_nil]
    | cons c cs =>
      by_cases hc : c = '\n'
      · simp [Lexer.skipLineCommentLoop, hc, TokenLocation.after_nil]
      · have hlen : cs.length < n := by simpa using h
        simp [Lexer.skipLineCommentLoop, hc, ih _ _ _ hlen, TokenLocation.after_cons]

theorem Lexer.skipLineComment_atSplit (pre cs : List Char) (loc : TokenLocation) :
    (Lexer.atSplit pre cs loc).skipLineComment
      = Except.ok (Lexer.atSplit (pre ++ cs.takeWhile (fun x => x != '\n'))
          (cs.dropWhile (fun x => x != '\n')) (loc.after (cs.takeWhile (fun x => x != '\n')))) := by
  unfold Lexer.skipLineComment
  exact Lexer.skipLineCommentLoop_atSplit _ _ _ _ (by simp)

theorem Lexer.skipBlockCommentLoop_atSplit (n : Nat) (pre cs : List Char) (loc : TokenLocation)
    (h : cs.length < n) :
    Lexer.skipBlockCommentLoop n (Lexer.atSplit pre cs loc)
      = Except.ok (Lexer.atSplit (pre ++ (blockSplit cs).1) (blockSplit cs).2
          (loc.after (blockSplit cs).1)) := by
  induction n generalizing pre cs loc with
  | zero => omega
  | succ n ih =>
    cases cs with
    | nil => simp [Lexer.skipBlockCommentLoop, blockSplit, TokenLocation.after_nil]
    | cons c cs =>
      have hlen : cs.length < n := by simpa using h
      by_cases hc : (c = '-' ∧ look cs 0 = '-') ∧ look cs 1 = '|'
      · match cs, hc with
        | [], hc => simp at hc
        | [d], hc => simp at hc
        | d :: e :: cs, hc =>
          simp at hc
          obtain ⟨⟨rfl, rfl⟩, rfl⟩ := hc
          simp [Lexer.skipBlockCommentLoop, blockSplit]
      · simp [Lexer.skipBlockCommentLoop, blockSplit, hc, ih _ _ _ hlen]

theorem length_dropWhile_le (p : Char → Bool) (cs : List Char) :
    (cs.dropWhile p).length ≤ cs.length :=
  (List.dropWhile_sublist p).length_le

theorem blockSplit_append (cs : List Char) : (blockSplit cs).1 ++ (blockSplit cs).2 = cs := by
  induction cs with
  | nil => rfl
  | cons c cs ih =>
    unfold blockSplit
    split
    · simp
    · simp [ih]

theorem blockSplit_length_le (cs : List Char) : (blockSplit cs).2.length ≤ cs.length := by
  have h := congrArg List.length (blockSplit_append cs)
  simp only [List.length_append] at h
  omega

theorem Lexer.skipBlockComment_atSplit (pre cs : List Char) (loc : TokenLocation) :
    (Lexer.atSplit pre cs loc).skipBlockComment
      = Except.ok (Lexer.atSplit (pre ++ (blockSplit cs).1) (blockSplit cs).2
          (loc.after (blockSplit cs).1)) := by
  unfold Lexer.skipBlockComment
  exact Lexer.skipBlockCommentLoop_atSplit _ _ _ _ (by simp)

theorem triviaSplit_append (n : Nat) (cs : List Char) :
    (triviaSplit n cs).1 ++ (triviaSplit n cs).2 = cs := by
  induction n generalizing cs with
  | zero => simp [triviaSplit]
  | succ n ih =>
    cases cs with
    | nil => simp [triviaSplit]
    | cons c cs =>
      unfold triviaSplit
      split
      · simp [ih]
      · split
        · simp only [List.cons_append, List.append_assoc, ih, List.takeWhile_append_dropWhile,
            List.take_append_drop]
        · split
          · simp only [List.cons_append, List.append_assoc, ih, blockSplit_append,
              List.take_append_drop]
          · simp

theorem triviaSplit_length_le (n : Nat) (cs : List Char) :
    (triviaSplit n cs).2.length ≤ cs.length := by
  have h := congrArg List.length (triviaSplit_append n cs)
  simp only [List.length_append] at h
  omega

theorem triviaSplit_fuel (n m : Nat) (cs : List Char) (hn : cs.length < n) (hm : cs.length < m) :
    triviaSplit n cs = triviaSplit m cs := by
  induction n generalizing m cs with
  | zero => omega
  | succ n ih =>
    cases m with
    | zero => omega
    | succ m =>
      cases cs with
      | nil => simp [triviaSplit]
      | cons c cs =>
        have hn1 : cs.length < n := by simpa using hn
        have hm1 : cs.length < m := by simpa using hm
        have hd : ∀ k, (List.dropWhile (fun x => x != '\n') (cs.drop k)).length ≤ cs.length := by
          intro k
          exact le_trans (length_dropWhile_le _ _) (by simp)
        have hb : ∀ k, (blockSplit (cs.drop k)).2.length ≤ cs.length := by
          intro k
          exact le_trans (blockSplit_length_le _) (by simp)
        unfold triviaSplit
        simp only
        rw [ih m cs hn1 hm1, ih m _ (lt_of_le_of_lt (hd 1) hn1) (lt_of_le_of_lt (hd 1) hm1),
          ih m _ (lt_of_le_of_lt (hb 2) hn1) (lt_of_le_of_lt (hb 2) hm1)]

theorem Lexer.skipWhitespaceAndCommentsLoop_atSplit (n : Nat) (pre cs : List Char)
    (loc : TokenLocation) (h : cs.length < n) :
    Lexer.skipWhitespaceAndCommentsLoop n (Lexer.atSplit pre cs loc)
      = Except.ok (Lexer.atSplit (pre ++ (triviaSplit n cs).1) (triviaSplit n cs).2
          (loc.after (triviaSplit n cs).1)) := by
  induction n generalizing pre cs loc with
  | zero => omega
  | succ n ih =>
    cases cs with
    | nil => simp [Lexer.skipWhitespaceAndCommentsLoop, triviaSplit]
    | cons c cs =>
      have hlen : cs.length < n := by simpa using h
      by_cases hsp : isspace c = true
      · simp [Lexer.skipWhitespaceAndCommentsLoop, triviaSplit, hsp, ih _ _ _ hlen]
      · by_cases hl : c = '|' ∧ look cs 0 = '|'
        · match cs, hl, hlen with
          | [], hl, _ => simp at hl
          | d :: cs, hl, hlen =>
            simp at hl
            obtain ⟨rfl, rfl⟩ := hl
            have hd : (List.dropWhile (fun x => x != '\n') cs).length < n :=
              lt_of_le_of_lt (length_dropWhile_le _ _) (by simp at hlen; omega)
            simp [Lexer.skipWhitespaceAndCommentsLoop, triviaSplit, hsp,
              Lexer.skipLineComment_atSplit, ih _ _ _ hd, TokenLocation.after_append]
        · by_cases hb : (c = '|' ∧ look cs 0 = '-') ∧ look cs 1 = '-'
          · match cs, hb, hlen with
            | [], hb, _ => simp at hb
            | [d], hb, _ => simp at hb
            | d :: e :: cs, hb, hlen =>
              simp at hb
              obtain ⟨⟨rfl, rfl⟩, rfl⟩ := hb
              have hd : (blockSplit cs).2.length < n :=
                lt_of_le_of_lt (blockSplit_length_le _) (by simp at hlen; omega)
              simp [Lexer.skipWhitespaceAndCommentsLoop, triviaSplit, hsp,
                Lexer.skipBlockComment_atSplit, ih _ _ _ hd, TokenLocation.after_append]
          · simp [Lexer.skipWhitespaceAndCommentsLoop, triviaSplit, hsp, hl, hb]

theorem Lexer.skipWhitespaceAndComments_atSplit (pre cs : List Char) (loc : TokenLocation) :
    (Lexer.atSplit pre cs loc).skipWhitespaceAndComments
      = Except.ok (Lexer.atSplit (pre ++ (trivia cs).1) (trivia cs).2
          (loc.after (trivia cs).1)) := by
  unfold Lexer.skipWhitespaceAndComments trivia
  rw [Lexer.fuel_atSplit]
  exact Lexer.skipWhitespaceAndCommentsLoop_atSplit _ _ _ _ (by simp)

theorem Lexer.digitLoop_atSplit (n : Nat) (pre cs : List Char) (loc : TokenLocation)
    (acc : List Char) (h : cs.length < n) :
    Lexer.digitLoop n (Lexer.atSplit pre cs loc) acc
      = Except.ok (acc ++ cs.takeWhile isdigit,
          Lexer.atSplit (pre ++ cs.takeWhile isdigit) (cs.dropWhile isdigit)
            (loc.after (cs.takeWhile isdigit))) := by
  induction n generalizing pre cs loc acc with
  | zero => omega
  | succ n ih =>
    cases cs with
    | nil => simp [Lexer.digitLoop]
    | cons c cs =>
      have hlen : cs.length < n := by simpa using h
      by_cases hc : isdigit c = true
      · simp [Lexer.digitLoop, hc, ih _ _ _ _ hlen]
      · simp [Lexer.digitLoop, hc]

theorem Lexer.identLoop_atSplit (n : Nat) (pre cs : List Char) (loc : TokenLocation)
    (acc : List Char) (h : cs.length < n) :
    Lexer.identLoop n (Lexer.atSplit pre cs loc) acc
      = Except.ok (acc ++ cs.takeWhile isIdentChar,
          Lexer.atSplit (pre ++ cs.takeWhile isIdentChar) (cs.dropWhile isIdentChar)
            (loc.after (cs.takeWhile isIdentChar))) := by
  induction n generalizing pre cs loc acc with
  | zero => omega
  | succ n ih =>
    cases cs with
    | nil => simp [Lexer.identLoop]
    | cons c cs =>
      have hlen : cs.length < n := by simpa using h
      by_cases hc : isIdentChar c = true
      · have hc2 := hc
        simp only [isIdentChar, Bool.or_eq_true, decide_eq_true_eq] at hc2
        simp [Lexer.identLoop, hc, hc2, ih _ _ _ _ hlen]
      · have hc2 := hc
        simp only [isIdentChar, Bool.or_eq_true, decide_eq_true_eq] at hc2
        simp [Lexer.identLoop, hc, hc2]

theorem quotedSplit_nil (q : Char) : quotedSplit q [] = ([], [], []) := by
  simp [quotedSplit]

theorem quotedSplit_close (q : Char) (cs : List Char) :
    quotedSplit q (q :: cs) = ([], [], q :: cs) := by
  cases cs <;> simp [quotedSplit]

theorem quotedSplit_escape_end (q : Char) (hq : '\\' ≠ q) :
    quotedSplit q ['\\'] = ([], ['\\'], []) := by
  simp [quotedSplit, hq]

theorem quotedSplit_escape (q e : Char) (cs : List Char) (hq : '\\' ≠ q) :
    quotedSplit q ('\\' :: e :: cs)
      = (e :: (quotedSplit q cs).1, '\\' :: e :: (quotedSplit q cs).2.1,
          (quotedSplit q cs).2.2) := by
  simp [quotedSplit, hq]

theorem quotedSplit_other (q c : Char) (cs : List Char) (hq : c ≠ q) (hb : c ≠ '\\') :
    quotedSplit q (c :: cs)
      = (c :: (quotedSplit q cs).1, c :: (quotedSplit q cs).2.1, (quotedSplit q cs).2.2) := by
  cases cs <;> simp [quotedSplit, hq, hb]

theorem Lexer.stringLiteralLoop_atSplit (n : Nat) (pre cs : List Char) (loc : TokenLocation)
    (acc : List Char) (h : cs.length < n) :
    Lexer.stringLiteralLoop n (Lexer.atSplit pre cs loc) acc
      = Except.ok (acc ++ (quotedSplit '"' cs).1,
          Lexer.atSplit (pre ++ (quotedSplit '"' cs).2.1) (quotedSplit '"' cs).2.2
            (loc.after (quotedSplit '"' cs).2.1)) := by
  induction n generalizing pre cs loc acc with
  | zero => omega
  | succ n ih =>
    cases cs with
    | nil => simp [Lexer.stringLiteralLoop, quotedSplit_nil, quotedSplit_escape_end]
    | cons c cs =>
      have hlen : cs.length < n := by simpa using h
      by_cases hq : c = '"'
      · subst hq
        simp [Lexer.stringLiteralLoop, quotedSplit_close]
      · by_cases hb : c = '\\'
        · subst hb
          cases cs with
          | nil =>
            cases n with
            | zero => simp at hlen
            | succ n => simp [Lexer.stringLiteralLoop, quotedSplit_nil, quotedSplit_escape_end]
          | cons e cs =>
            have hlen2 : cs.length < n := by simp at hlen; omega
            simp [Lexer.stringLiteralLoop, quotedSplit_escape, ih _ _ _ _ hlen2]
        · simp [Lexer.stringLiteralLoop, quotedSplit_other _ _ _ hq hb, hq, hb, ih _ _ _ _ hlen]

theorem Lexer.charLiteralLoop_atSplit (n : Nat) (pre cs : List Char) (loc : TokenLocation)
    (acc : List Char) (h : cs.length < n) :
    Lexer.charLiteralLoop n (Lexer.atSplit pre cs loc) acc
      = Except.ok (acc ++ (quotedSplit '\'' cs).1,
          Lexer.atSplit (pre ++ (quotedSplit '\'' cs).2.1) (quotedSplit '\'' cs).2.2
            (loc.after (quotedSplit '\'' cs).2.1)) := by
  induction n generalizing pre cs loc acc with
  | zero => omega
  | succ n ih =>
    cases cs with
    | nil => simp [Lexer.charLiteralLoop, quotedSplit_nil, quotedSplit_escape_end]
    | cons c cs =>
      have hlen : cs.length < n := by simpa using h
      by_cases hq : c = '\''
      · subst hq
        simp [Lexer.charLiteralLoop, quotedSplit_close]
      · by_cases hb : c = '\\'
        · subst hb
          cases cs with
          | nil =>
            cases n with
            | zero => simp at hlen
            | succ n => simp [Lexer.charLiteralLoop, quotedSplit_nil, quotedSplit_escape_end]
          | cons e cs =>
            have hlen2 : cs.length < n := by simp at hlen; omega
            simp [Lexer.charLiteralLoop, quotedSplit_escape, ih _ _ _ _ hlen2]
        · simp [Lexer.charLiteralLoop, quotedSplit_other _ _ _ hq hb, hq, hb, ih _ _ _ _ hlen]

theorem quotedSplit_append (q : Char) (hq : '\\' ≠ q) (cs : List Char) :
    (quotedSplit q cs).2.1 ++ (quotedSplit q cs).2.2 = cs := by
  generalize h : cs.length = n
  induction n using Nat.strong_induction_on generalizing cs with
  | _ n ih =>
    match cs, h with
    | [], _ => simp [quotedSplit_nil]
    | c :: cs, h =>
      by_cases hc : c = q
      · subst hc
        simp [quotedSplit_close]
      · by_cases hb : c = '\\'
        · subst hb
          match cs, h with
          | [], _ => simp [quotedSplit_escape_end, hq]
          | e :: cs, h =>
            have := ih cs.length (by simp at h; omega) cs rfl
            simp [quotedSplit_escape, hq, this]
        · have := ih cs.length (by simp at h; omega) cs rfl
          simp [quotedSplit_other _ _ _ hc hb, this]

theorem quotedSplit_length_le (q : Char) (hq : '\\' ≠ q) (cs : List Char) :
    (quotedSplit q cs).2.2.length ≤ cs.length := by
  have h := congrArg List.length (quotedSplit_append q hq cs)
  simp only [List.length_append] at h
  omega

@[simp]
theorem Lexer.atSplit_location (pre cs : List Char) (loc : TokenLocation) :
    (Lexer.atSplit pre cs loc).location_ = loc := rfl

@[simp]
theorem Lexer.atSplit_source (pre cs : List Char) (loc : TokenLocation) :
    (Lexer.atSplit pre cs loc).source_ = pre ++ cs := rfl

@[simp]
theorem Lexer.atSplit_position (pre cs : List Char) (loc : TokenLocation) :
    (Lexer.atSplit pre cs loc).position_ = pre.length := rfl

theorem Lexer.keywordOrIdentifier_eq (ident : List Char) (ts : TokenLocation) :
    Lexer.keywordOrIdentifier ident ts = Token.new (keywordType ident) ident ts := by
  unfold keywordType Lexer.keywordOrIdentifier
  simp only [apply_ite Token.type_, Token.new, apply_ite (fun t => Token.mk t ident ts TokenLiteral.monostate)]

theorem Lexer.scanPair_atSplit (c next : Char) (long short : TokenType) (ll sl : List Char)
    (pre cs : List Char) (loc : TokenLocation) :
    Lexer.scanPair next (Token.new long ll loc) (Token.new short sl loc)
        (Lexer.atSplit (pre ++ [c]) cs (loc.next c))
      = (pairScan c next long short ll sl cs).result pre loc := by
  cases cs with
  | nil => simp [Lexer.scanPair, pairScan, Scanned.result]
  | cons d cs =>
    by_cases hd : d = next
    · simp [Lexer.scanPair, pairScan, Scanned.result, hd]
    · simp [Lexer.scanPair, pairScan, Scanned.result, hd]

theorem Lexer.scanLess_atSplit (c : Char) (pre cs : List Char) (loc : TokenLocation) :
    Lexer.scanLess loc (Lexer.atSplit (pre ++ [c]) cs (loc.next c))
      = (lessScan c cs).result pre loc := by
  match cs with
  | [] => simp [Lexer.scanLess, lessScan, Scanned.result]
  | [d] =>
    by_cases h1 : d = '='
    · simp [Lexer.scanLess, lessScan, Scanned.result, h1]
    · by_cases h2 : d = '-'
      · simp [Lexer.scanLess, lessScan, Scanned.result, h2]
      · simp [Lexer.scanLess, lessScan, Scanned.result, h1, h2]
  | d :: e :: cs =>
    by_cases h1 : d = '='
    · simp [Lexer.scanLess, lessScan, Scanned.result, h1]
    · by_cases h2 : d = '-'
      · by_cases h3 : e = '>'
        · simp [Lexer.scanLess, lessScan, Scanned.result, h2, h3]
        · simp [Lexer.scanLess, lessScan, Scanned.result, h2, h3]
      · simp [Lexer.scanLess, lessScan, Scanned.result, h1, h2]

theorem Lexer.scanQuestion_atSplit (c : Char) (pre cs : List Char) (loc : TokenLocation) :
    Lexer.scanQuestion loc (Lexer.atSplit (pre ++ [c]) cs (loc.next c))
      = (questionScan c cs).result pre loc := by
  cases cs with
  | nil => simp [Lexer.scanQuestion, questionScan, Scanned.result]
  | cons d cs =>
    by_cases h1 : d = '+'
    · simp [Lexer.scanQuestion, questionScan, Scanned.result, h1]
    · by_cases h2 : d = '?'
      · simp [Lexer.scanQuestion, questionScan, Scanned.result, h2]
      · simp [Lexer.scanQuestion, questionScan, Scanned.result, h1, h2]

theorem singleScan_result (c : Char) (type : TokenType) (lexeme pre cs : List Char)
    (loc : TokenLocation) :
    (singleScan c type lexeme cs).result pre loc
      = Except.ok (Token.new type lexeme loc, Lexer.atSplit (pre ++ [c]) cs (loc.next c)) := by
  simp [singleScan, Scanned.result]

theorem Lexer.scanSwitch_atSplit (c : Char) (pre cs : List Char) (loc : TokenLocation) :
    Lexer.scanSwitch c loc (Lexer.atSplit (pre ++ [c]) cs (loc.next c))
      = (switchScan c cs).map (fun sc => sc.result pre loc) := by
  unfold Lexer.scanSwitch switchScan
  simp only [Lexer.scanPair_atSplit, Lexer.scanLess_atSplit, Lexer.scanQuestion_atSplit,
    ← singleScan_result, apply_ite (Option.map (fun sc => Scanned.result sc pre loc)),
    Option.map_some', Option.map_none']

theorem Lexer.scanNumber_atSplit (c : Char) (pre cs : List Char) (loc : TokenLocation) :
    Lexer.scanNumber c loc (Lexer.atSplit (pre ++ [c]) cs (loc.next c))
      = (numberScan c cs).result pre loc := by
  unfold Lexer.scanNumber numberScan
  rw [Lexer.fuel_atSplit, Lexer.digitLoop_atSplit _ _ _ _ _ (Nat.lt_succ_self _)]
  simp only
  generalize hd1 : List.takeWhile isdigit cs = d1
  generalize hr1 : List.dropWhile isdigit cs = r1
  match r1 with
  | [] => simp [Scanned.result, TokenLocation.after_append]
  | [x] =>
    by_cases hx : x = '.'
    · subst hx
      simp [Scanned.result, TokenLocation.after_append, Lexer.digitLoop]
    · simp [Scanned.result, TokenLocation.after_append, hx]
  | x :: y :: r =>
    by_cases hx : x = '.'
    · subst hx
      by_cases hy : y = '.'
      · subst hy
        simp [Scanned.result, TokenLocation.after_append]
      · simp only [Lexer.isAtEnd_atSplit, Lexer.peek_atSplit, Lexer.peekNext_atSplit,
          Lexer.advance_atSplit_cons, Lexer.fuel_atSplit]
        rw [Lexer.digitLoop_atSplit _ _ _ _ _ (Nat.lt_succ_self _)]
        simp [Scanned.result, TokenLocation.after_append, hy]
    · simp [Scanned.result, TokenLocation.after_append, hx]

theorem Lexer.scanIdentifier_atSplit (c : Char) (pre cs : List Char) (loc : TokenLocation) :
    Lexer.scanIdentifier c loc (Lexer.atSplit (pre ++ [c]) cs (loc.next c))
      = (identScan c cs).result pre loc := by
  unfold Lexer.scanIdentifier identScan
  rw [Lexer.fuel_atSplit, Lexer.identLoop_atSplit _ _ _ _ _ (Nat.lt_succ_self _)]
  simp [Scanned.result, Lexer.keywordOrIdentifier_eq, TokenLocation.after_append]

theorem Lexer.stringLiteral_atSplit (c : Char) (pre cs : List Char) (loc : TokenLocation) :
    (Lexer.atSplit (pre ++ [c]) cs (loc.next c)).stringLiteral
      = (quotedScan TokenType.StringLiteral c '"' cs).result pre loc := by
  unfold Lexer.stringLiteral quotedScan
  rw [Lexer.fuel_atSplit, Lexer.stringLiteralLoop_atSplit _ _ _ _ _ (Nat.lt_succ_self _)]
  simp only
  generalize (quotedSplit '"' cs).1 = s
  generalize (quotedSplit '"' cs).2.1 = u
  generalize (quotedSplit '"' cs).2.2 = r
  cases r with
  | nil => simp [Scanned.result, TokenLocation.after_append]
  | cons x r => simp [Scanned.result, TokenLocation.after_append]

theorem Lexer.charLiteral_atSplit (c : Char) (pre cs : List Char) (loc : TokenLocation) :
    (Lexer.atSplit (pre ++ [c]) cs (loc.next c)).charLiteral
      = (quotedScan TokenType.CharLiteral c '\'' cs).result pre loc := by
  unfold Lexer.charLiteral quotedScan
  rw [Lexer.fuel_atSplit, Lexer.charLiteralLoop_atSplit _ _ _ _ _ (Nat.lt_succ_self _)]
  simp only
  generalize (quotedSplit '\'' cs).1 = s
  generalize (quotedSplit '\'' cs).2.1 = u
  generalize (quotedSplit '\'' cs).2.2 = r
  cases r with
  | nil => simp [Scanned.result, TokenLocation.after_append]
  | cons x r => simp [Scanned.result, TokenLocation.after_append]

theorem trivia_append (cs : List Char) : (trivia cs).1 ++ (trivia cs).2 = cs :=
  triviaSplit_append _ cs

theorem trivia_length_le (cs : List Char) : (trivia cs).2.length ≤ cs.length :=
  triviaSplit_length_le _ cs

theorem trivia_nil : trivia [] = ([], []) := by
  simp [trivia, triviaSplit]

theorem trivia_of_startsToken (c : Char) (cs : List Char) (h : startsToken c cs = true) :
    trivia (c :: cs) = ([], c :: cs) := by
  simp only [startsToken, Bool.and_eq_true, Bool.not_eq_true', Bool.and_eq_false_iff,
    decide_eq_false_iff_not, Bool.not_eq_eq_eq_not, Bool.not_true] at h
  obtain ⟨⟨h1, h2⟩, h3⟩ := h
  have h2a : ¬ (c = '|' ∧ look cs 0 = '|') := by tauto
  have h3a : ¬ ((c = '|' ∧ look cs 0 = '-') ∧ look cs 1 = '-') := by tauto
  simp [trivia, triviaSplit, h1, h2a, h3a]

theorem triviaSplit_rest_startsToken (n : Nat) (cs : List Char) (c : Char) (cs1 : List Char)
    (hn : cs.length < n) (h : (triviaSplit n cs).2 = c :: cs1) : startsToken c cs1 = true := by
  induction n generalizing cs with
  | zero => omega
  | succ n ih =>
    cases cs with
    | nil => simp [triviaSplit] at h
    | cons d cs =>
      have hlen : cs.length < n := by simpa using hn
      unfold triviaSplit at h
      by_cases hsp : isspace d = true
      · simp only [hsp, if_true] at h
        exact ih cs hlen h
      · by_cases hl : d = '|' ∧ look cs 0 = '|'
        · simp only [hsp, Bool.false_eq_true, if_false, hl, decide_True, Bool.and_self, if_true] at h
          refine ih _ ?_ h
          exact lt_of_le_of_lt (le_trans (length_dropWhile_le _ _) (by simp)) hlen
        · by_cases hb : (d = '|' ∧ look cs 0 = '-') ∧ look cs 1 = '-'
          · have hl2 : ¬ (look cs 0 = '|') := by
              intro h0
              rw [hb.1.2] at h0
              exact absurd h0 (by decide)
            simp only [hsp, Bool.false_eq_true, if_false, hb.1.1, hb.1.2, hb.2, hl2,
              decide_True, decide_False, Bool.and_self, Bool.and_false, if_true] at h
            refine ih _ ?_ h
            exact lt_of_le_of_lt (le_trans (blockSplit_length_le _) (by simp)) hlen
          · have hl1 : ¬ ((decide (d = '|') && decide (look cs 0 = '|')) = true) := by
              simpa using hl
            have hb1 : ¬ ((decide (d = '|') && decide (look cs 0 = '-')
                && decide (look cs 1 = '-')) = true) := by
              simpa [and_assoc] using hb
            simp only [hsp, Bool.false_eq_true, if_false, hl1, hb1] at h
            simp only [List.cons.injEq] at h
            obtain ⟨rfl, rfl⟩ := h
            simp only [startsToken, Bool.and_eq_true, Bool.not_eq_true', hsp]
            simp only [Bool.not_eq_true] at hl1 hb1 hsp
            simp [hsp, hl1, hb1]

theorem trivia_rest_startsToken (cs : List Char) (c : Char) (cs1 : List Char)
    (h : (trivia cs).2 = c :: cs1) : startsToken c cs1 = true :=
  triviaSplit_rest_startsToken _ cs c cs1 (Nat.lt_succ_self _) h

theorem trivia_rest_fixed (cs : List Char) : trivia (trivia cs).2 = ([], (trivia cs).2) := by
  cases h : (trivia cs).2 with
  | nil => exact trivia_nil
  | cons c cs1 => exact trivia_of_startsToken c cs1 (trivia_rest_startsToken cs c cs1 h)

theorem pairScan_spec (c next : Char) (long short : TokenType) (ll sl cs : List Char) :
    ∃ u, (pairScan c next long short ll sl cs).used = c :: u
      ∧ u ++ (pairScan c next long short ll sl cs).rest = cs := by
  unfold pairScan
  split
  · exact ⟨_, rfl, List.take_append_drop 1 cs⟩
  · exact ⟨[], rfl, rfl⟩

theorem lessScan_spec (c : Char) (cs : List Char) :
    ∃ u, (lessScan c cs).used = c :: u ∧ u ++ (lessScan c cs).rest = cs := by
  unfold lessScan
  split
  · exact ⟨_, rfl, List.take_append_drop 1 cs⟩
  · split
    · split
      · exact ⟨_, rfl, List.take_append_drop 2 cs⟩
      · exact ⟨_, rfl, List.take_append_drop 1 cs⟩
    · exact ⟨[], rfl, rfl⟩

theorem questionScan_spec (c : Char) (cs : List Char) :
    ∃ u, (questionScan c cs).used = c :: u ∧ u ++ (questionScan c cs).rest = cs := by
  unfold questionScan
  split
  · split
    · exact ⟨_, rfl, List.take_append_drop 1 cs⟩
    · split
      · exact ⟨_, rfl, List.take_append_drop 1 cs⟩
      · exact ⟨[], rfl, rfl⟩
  · exact ⟨[], rfl, rfl⟩

theorem ite_some_elim {α : Type} (P : α → Prop) {c : Prop} [Decidable c] {a x : α}
    {other : Option α} (h : (if c then some a else other) = some x) (ha : P a)
    (hr : other = some x → P x) : P x := by
  split at h
  · simp only [Option.some.injEq] at h
    exact h ▸ ha
  · exact hr h

theorem switchScan_spec (c : Char) (cs : List Char) (sc : Scanned)
    (h : switchScan c cs = some sc) : ∃ u, sc.used = c :: u ∧ u ++ sc.rest = cs := by
  unfold switchScan at h
  repeat
    refine ite_some_elim (fun sc => ∃ u, sc.used = c :: u ∧ u ++ sc.rest = cs) h
      (by first
        | exact ⟨[], rfl, rfl⟩
        | exact pairScan_spec _ _ _ _ _ _ _
        | exact lessScan_spec _ _
        | exact questionScan_spec _ _) (fun h => ?_)
  simp at h

theorem numberScan_spec (c : Char) (cs : List Char) :
    ∃ u, (numberScan c cs).used = c :: u ∧ u ++ (numberScan c cs).rest = cs := by
  unfold numberScan
  simp only
  split
  · split
    · refine ⟨_, rfl, ?_⟩
      simp only [List.append_eq, List.append_assoc, List.takeWhile_append_dropWhile,
        List.take_append_drop]
    · exact ⟨_, rfl, List.takeWhile_append_dropWhile _ _⟩
  · exact ⟨_, rfl, List.takeWhile_append_dropWhile _ _⟩

theorem quotedScan_spec (type : TokenType) (c q : Char) (hq : '\\' ≠ q) (cs : List Char) :
    ∃ u, (quotedScan type c q cs).used = c :: u ∧ u ++ (quotedScan type c q cs).rest = cs := by
  unfold quotedScan
  refine ⟨_, rfl, ?_⟩
  simp only [List.append_eq, List.append_assoc, List.take_append_drop,
    quotedSplit_append q hq]

theorem identScan_spec (c : Char) (cs : List Char) :
    ∃ u, (identScan c cs).used = c :: u ∧ u ++ (identScan c cs).rest = cs := by
  unfold identScan
  exact ⟨_, rfl, List.takeWhile_append_dropWhile _ _⟩

theorem scan_spec (c : Char) (cs : List Char) :
    ∃ u, (scan c cs).used = c :: u ∧ u ++ (scan c cs).rest = cs := by
  unfold scan
  split
  · rename_i r h
    exact switchScan_spec c cs r h
  · split
    · exact numberScan_spec c cs
    · split
      · exact quotedScan_spec _ _ _ (by decide) cs
      · split
        · exact quotedScan_spec _ _ _ (by decide) cs
        · split
          · exact identScan_spec c cs
          · exact ⟨[], rfl, rfl⟩

theorem scan_used_append (c : Char) (cs : List Char) :
    (scan c cs).used ++ (scan c cs).rest = c :: cs := by
  obtain ⟨u, h1, h2⟩ := scan_spec c cs
  rw [h1, List.cons_append, h2]

theorem scan_rest_length_le (c : Char) (cs : List Char) :
    (scan c cs).rest.length ≤ cs.length := by
  obtain ⟨u, _, h2⟩ := scan_spec c cs
  have h := congrArg List.length h2
  simp only [List.length_append] at h
  omega

theorem Lexer.scanToken_atSplit (pre cs : List Char) (loc : TokenLocation) (c : Char)
    (cs1 : List Char) (h : (trivia cs).2 = c :: cs1) :
    (Lexer.atSplit pre cs loc).scanToken
      = (scan c cs1).result (pre ++ (trivia cs).1) (loc.after (trivia cs).1) := by
  unfold Lexer.scanToken
  rw [Lexer.skipWhitespaceAndComments_atSplit, h]
  simp only [Lexer.advance_atSplit_cons, Lexer.atSplit_location, Lexer.scanSwitch_atSplit,
    Lexer.scanNumber_atSplit, Lexer.stringLiteral_atSplit, Lexer.charLiteral_atSplit,
    Lexer.scanIdentifier_atSplit]
  unfold scan
  cases hs : switchScan c cs1 with
  | some r => simp
  | none =>
    simp only [Option.map_none']
    split_ifs <;> rfl

theorem tokensFrom_fuel (n m : Nat) (loc : TokenLocation) (cs : List Char)
    (hn : cs.length < n) (hm : cs.length < m) : tokensFrom n loc cs = tokensFrom m loc cs := by
  induction n generalizing m loc cs with
  | zero => omega
  | succ n ih =>
    cases m with
    | zero => omega
    | succ m =>
      unfold tokensFrom
      cases h : (trivia cs).2 with
      | nil => rfl
      | cons c cs1 =>
        have h1 : cs1.length < cs.length := by
          have := trivia_length_le cs
          rw [h] at this
          simpa using this
        have h2 := scan_rest_length_le c cs1
        simp only
        rw [ih m _ _ (by omega) (by omega)]

theorem tokensOf_eq (n : Nat) (loc : TokenLocation) (cs : List Char) (hn : cs.length < n) :
    tokensFrom n loc cs = tokensOf loc cs :=
  tokensFrom_fuel _ _ _ _ hn (Nat.lt_succ_self _)

theorem Lexer.tokenizeLoop_atSplit (n : Nat) (pre cs : List Char) (loc : TokenLocation)
    (acc : List Token) (hn : cs.length < n) :
    Lexer.tokenizeLoop n (Lexer.atSplit pre cs loc) acc
      = Except.ok (acc ++ tokensFrom n loc cs, Lexer.atSplit (pre ++ cs) [] (loc.after cs)) := by
  induction n generalizing pre cs loc acc with
  | zero => omega
  | succ n ih =>
    unfold Lexer.tokenizeLoop tokensFrom
    cases cs with
    | nil => simp [trivia_nil]
    | cons d cs0 =>
      simp only [Lexer.isAtEnd_atSplit, List.isEmpty_cons, Bool.not_false, if_true,
        Lexer.skipWhitespaceAndComments_atSplit]
      have happ := trivia_append (d :: cs0)
      cases h : (trivia (d :: cs0)).2 with
      | nil =>
        rw [h, List.append_nil] at happ
        simp [happ]
      | cons c cs1 =>
        have hfix := trivia_rest_fixed (d :: cs0)
        rw [h] at hfix
        have hfix2 : (trivia (c :: cs1)).2 = c :: cs1 := by rw [hfix]
        rw [h] at happ
        have h1 : cs1.length < (d :: cs0).length := by
          have := congrArg List.length happ
          simp only [List.length_append, List.length_cons] at this
          simp only [List.length_cons]
          omega
        have h2 := scan_rest_length_le c cs1
        have hlen : (scan c cs1).rest.length < n := by
          simp only [List.length_cons] at h1 hn
          omega
        simp only [Lexer.isAtEnd_atSplit, List.isEmpty_cons, Bool.false_eq_true, if_false,
          Lexer.scanToken_atSplit _ _ _ c cs1 hfix2, hfix, Scanned.result, List.append_nil,
          TokenLocation.after_nil, ih _ _ _ _ hlen]
        have hsrc : (trivia (d :: cs0)).1 ++ ((scan c cs1).used ++ (scan c cs1).rest)
            = d :: cs0 := by
          rw [scan_used_append, happ]
        simp only [List.append_assoc, hsrc, ← TokenLocation.after_append, List.singleton_append]

theorem Tokenize_eq (source : List Char) :
    Tokenize source
      = Except.ok (tokensOf { line := 1, column := 1 } source
          ++ [Token.new TokenType.EndOfFile [] (TokenLocation.after { line := 1, column := 1 } source)]) := by
  unfold Tokenize Lexer.tokenize
  rw [Lexer.new_eq_atSplit, Lexer.fuel_atSplit,
    Lexer.tokenizeLoop_atSplit _ _ _ _ _ (Nat.lt_succ_self _)]
  simp [tokensOf]

theorem ite_elim {α : Type} (P : α → Prop) {c : Prop} [Decidable c] {a b : α}
    (ha : c → P a) (hb : ¬ c → P b) : P (if c then a else b) := by
  split
  · exact ha ‹_›
  · exact hb ‹_›

theorem switchScan_cases (P : Option Scanned → Prop) (c : Char) (cs : List Char)
    (hsingle : ∀ ty lex, (c, ty, lex) ∈ singleTable → P (some (singleScan c ty lex cs)))
    (hpair : ∀ next long short ll sl, (c, next, long, short, ll, sl) ∈ pairTable →
      P (some (pairScan c next long short ll sl cs)))
    (hless : c = '<' → P (some (lessScan c cs)))
    (hquestion : c = '?' → P (some (questionScan c cs)))
    (hnone : c ∉ switchChars → P none) : P (switchScan c cs) := by
  unfold switchScan
  have hs : ∀ d ty lex, (d, ty, lex) ∈ singleTable → c = d → P (some (singleScan c ty lex cs)) :=
    fun d ty lex hm hc => hsingle ty lex (hc ▸ hm)
  have hp : ∀ d next long short ll sl, (d, next, long, short, ll, sl) ∈ pairTable → c = d →
      P (some (pairScan c next long short ll sl cs)) :=
    fun d next long short ll sl hm hc => hpair next long short ll sl (hc ▸ hm)
  refine ite_elim P (hs _ _ _ (by decide)) (fun n1 => ?_)
  refine ite_elim P (hp _ _ _ _ _ _ (by decide)) (fun n2 => ?_)
  refine ite_elim P (hs _ _ _ (by decide)) (fun n3 => ?_)
  refine ite_elim P (hs _ _ _ (by decide)) (fun n4 => ?_)
  refine ite_elim P (hs _ _ _ (by decide)) (fun n5 => ?_)
  refine ite_elim P (hp _ _ _ _ _ _ (by decide)) (fun n6 => ?_)
  refine ite_elim P (hp _ _ _ _ _ _ (by decide)) (fun n7 => ?_)
  refine ite_elim P hless (fun n8 => ?_)
  refine ite_elim P (hp _ _ _ _ _ _ (by decide)) (fun n9 => ?_)
  refine ite_elim P hquestion (fun n10 => ?_)
  refine ite_elim P (hp _ _ _ _ _ _ (by decide)) (fun n11 => ?_)
  refine ite_elim P (hs _ _ _ (by decide)) (fun n12 => ?_)
  refine ite_elim P (hp _ _ _ _ _ _ (by decide)) (fun n13 => ?_)
  refine ite_elim P (hp _ _ _ _ _ _ (by decide)) (fun n14 => ?_)
  refine ite_elim P (hs _ _ _ (by decide)) (fun n15 => ?_)
  refine ite_elim P (hs _ _ _ (by decide)) (fun n16 => ?_)
  refine ite_elim P (hs _ _ _ (by decide)) (fun n17 => ?_)
  refine ite_elim P (hs _ _ _ (by decide)) (fun n18 => ?_)
  refine ite_elim P (hs _ _ _ (by decide)) (fun n19 => ?_)
  refine ite_elim P (hs _ _ _ (by decide)) (fun n20 => ?_)
  refine ite_elim P (hs _ _ _ (by decide)) (fun n21 => ?_)
  refine ite_elim P (hs _ _ _ (by decide)) (fun n22 => ?_)
  refine ite_elim P (hs _ _ _ (by decide)) (fun n23 => ?_)
  refine ite_elim P (hs _ _ _ (by decide)) (fun n24 => ?_)
  apply hnone
  simp only [switchChars, List.mem_cons, List.mem_singleton, List.not_mem_nil, or_false, not_or]
  exact ⟨n1, n2, n3, n4, n5, n6, n7, n8, n9, n10, n11, n12, n13, n14, n15, n16, n17, n18, n19,
    n20, n21, n22, n23, n24⟩

theorem switchScan_eq_none (c : Char) (cs : List Char) (h : c ∉ switchChars) :
    switchScan c cs = none := by
  simp only [switchChars, List.mem_cons, List.mem_singleton, List.not_mem_nil, or_false,
    not_or] at h
  obtain ⟨n1, n2, n3, n4, n5, n6, n7, n8, n9, n10, n11, n12, n13, n14, n15, n16, n17, n18, n19,
    n20, n21, n22, n23, n24⟩ := h
  unfold switchScan
  simp only [n1, n2, n3, n4, n5, n6, n7, n8, n9, n10, n11, n12, n13, n14, n15, n16, n17, n18,
    n19, n20, n21, n22, n23, n24, if_false]

theorem scan_cases (P : Scanned → Prop) (c : Char) (cs : List Char)
    (hsingle : ∀ ty lex, (c, ty, lex) ∈ singleTable → P (singleScan c ty lex cs))
    (hpair : ∀ next long short ll sl, (c, next, long, short, ll, sl) ∈ pairTable →
      P (pairScan c next long short ll sl cs))
    (hless : c = '<' → P (lessScan c cs))
    (hquestion : c = '?' → P (questionScan c cs))
    (hnumber : isdigit c = true → P (numberScan c cs))
    (hstring : c = '"' → P (quotedScan TokenType.StringLiteral c '"' cs))
    (hchar : c = '\'' → P (quotedScan TokenType.CharLiteral c '\'' cs))
    (hident : (isalpha c || c = '_' || c = '@' || c = '#') = true → P (identScan c cs))
    (hunknown : c ∉ switchChars → isdigit c = false → c ≠ '"' → c ≠ '\'' →
      (isalpha c || c = '_' || c = '@' || c = '#') = false →
      P { type := TokenType.Unknown, lexeme := [c], start := [], used := [c], rest := cs }) :
    P (scan c cs) := by
  unfold scan
  refine switchScan_cases
    (fun o => P (match o with
      | some r => r
      | none =>
        if isdigit c then numberScan c cs
        else if c = '"' then quotedScan TokenType.StringLiteral c '"' cs
        else if c = '\'' then quotedScan TokenType.CharLiteral c '\'' cs
        else if isalpha c || c = '_' || c = '@' || c = '#' then identScan c cs
        else { type := TokenType.Unknown, lexeme := [c], start := [], used := [c], rest := cs }))
    c cs hsingle hpair hless hquestion (fun hsw => ?_)
  simp only
  refine ite_elim P hnumber (fun n1 => ?_)
  refine ite_elim P hstring (fun n2 => ?_)
  refine ite_elim P hchar (fun n3 => ?_)
  refine ite_elim P hident (fun n4 => ?_)
  exact hunknown hsw (by simpa using n1) n2 n3 (by simpa using n4)

theorem tokensOf_of_rest_nil (loc : TokenLocation) (cs : List Char) (h : (trivia cs).2 = []) :
    tokensOf loc cs = [] := by
  unfold tokensOf tokensFrom
  rw [h]

theorem tokensOf_of_rest_cons (loc : TokenLocation) (cs : List Char) (c : Char)
    (cs1 : List Char) (h : (trivia cs).2 = c :: cs1) :
    tokensOf loc cs
      = Token.new (scan c cs1).type (scan c cs1).lexeme
          ((loc.after (trivia cs).1).after (scan c cs1).start)
        :: tokensOf ((loc.after (trivia cs).1).after (scan c cs1).used) (scan c cs1).rest := by
  have h1 : cs1.length < cs.length := by
    have := trivia_length_le cs
    rw [h] at this
    simpa using this
  have h2 := scan_rest_length_le c cs1
  unfold tokensOf
  rw [tokensFrom]
  simp only [h]
  rw [tokensFrom_fuel _ ((scan c cs1).rest.length + 1) _ _ (by omega) (by omega)]

theorem tokensOf_nil (loc : TokenLocation) : tokensOf loc [] = [] :=
  tokensOf_of_rest_nil loc [] (by rw [trivia_nil])

theorem tokensOf_cons_of_startsToken (loc : TokenLocation) (c : Char) (cs : List Char)
    (h : startsToken c cs = true) :
    tokensOf loc (c :: cs)
      = Token.new (scan c cs).type (scan c cs).lexeme (loc.after (scan c cs).start)
        :: tokensOf (loc.after (scan c cs).used) (scan c cs).rest := by
  have ht := trivia_of_startsToken c cs h
  rw [tokensOf_of_rest_cons loc (c :: cs) c cs (by rw [ht]), ht]
  rfl

theorem tokensOf_induct (P : TokenLocation → List Char → List Token → Prop)
    (hnil : ∀ loc cs, (trivia cs).2 = [] → P loc cs [])
    (hcons : ∀ loc cs c cs1, (trivia cs).2 = c :: cs1 →
      P ((loc.after (trivia cs).1).after (scan c cs1).used) (scan c cs1).rest
        (tokensOf ((loc.after (trivia cs).1).after (scan c cs1).used) (scan c cs1).rest) →
      P loc cs (Token.new (scan c cs1).type (scan c cs1).lexeme
          ((loc.after (trivia cs).1).after (scan c cs1).start)
        :: tokensOf ((loc.after (trivia cs).1).after (scan c cs1).used) (scan c cs1).rest))
    (loc : TokenLocation) (cs : List Char) : P loc cs (tokensOf loc cs) := by
  generalize hn : cs.length = n
  induction n using Nat.strong_induction_on generalizing loc cs with
  | _ n ih =>
    cases h : (trivia cs).2 with
    | nil =>
      rw [tokensOf_of_rest_nil loc cs h]
      exact hnil loc cs h
    | cons c cs1 =>
      rw [tokensOf_of_rest_cons loc cs c cs1 h]
      refine hcons loc cs c cs1 h (ih _ ?_ _ _ rfl)
      have h1 := trivia_length_le cs
      rw [h] at h1
      have h2 := scan_rest_length_le c cs1
      simp only [List.length_cons] at h1
      omega

theorem keywordType_cases (w : List Char) :
    (keywordType w = TokenType.Identifier ∧ w ∉ reservedWords)
      ∨ (w ∈ reservedWords ∧ isKeywordType (keywordType w) = true
          ∧ Token.tokenTypeToString (keywordType w) = w) := by
  unfold keywordType Lexer.keywordOrIdentifier
  iterate 30
    refine ite_elim (fun t : Token =>
        (t.type_ = TokenType.Identifier ∧ w ∉ reservedWords)
          ∨ (w ∈ reservedWords ∧ isKeywordType t.type_ = true
              ∧ Token.tokenTypeToString t.type_ = w))
      (fun h => Or.inr ⟨by subst h; decide, rfl, by subst h; rfl⟩) (fun _ => ?_)
  refine Or.inl ⟨rfl, ?_⟩
  simp only [reservedWords, List.mem_cons, List.mem_singleton, List.not_mem_nil, or_false,
    not_or]
  repeat' constructor
  all_goals assumption

theorem keywordType_ne_endOfFile (w : List Char) : keywordType w ≠ TokenType.EndOfFile := by
  rcases keywordType_cases w with ⟨h, _⟩ | ⟨_, h, _⟩
  · rw [h]; decide
  · intro h2; rw [h2] at h; exact absurd h (by decide)

theorem scan_type_ne_endOfFile (c : Char) (cs : List Char) :
    (scan c cs).type ≠ TokenType.EndOfFile := by
  refine scan_cases (fun sc => sc.type ≠ TokenType.EndOfFile) c cs ?_ ?_ ?_ ?_ ?_ ?_ ?_ ?_ ?_
  · intro ty lex h
    have : ∀ x ∈ singleTable, x.2.1 ≠ TokenType.EndOfFile := by decide
    exact this _ h
  · intro next long short ll sl h
    have : ∀ x ∈ pairTable, x.2.2.1 ≠ TokenType.EndOfFile ∧ x.2.2.2.1 ≠ TokenType.EndOfFile := by
      decide
    have h2 := this _ h
    unfold pairScan
    split
    · exact h2.1
    · exact h2.2
  · intro _
    unfold lessScan
    split_ifs <;> simp
  · intro _
    unfold questionScan
    split_ifs <;> simp
  · intro _
    unfold numberScan
    simp only
    split_ifs <;> simp
  · intro _; simp [quotedScan]
  · intro _; simp [quotedScan]
  · intro _; exact keywordType_ne_endOfFile _
  · intro _ _ _ _ _; simp

theorem tokensOf_type_ne_endOfFile (loc : TokenLocation) (cs : List Char) :
    ∀ t ∈ tokensOf loc cs, t.type_ ≠ TokenType.EndOfFile := by
  refine tokensOf_induct (fun _ _ ts => ∀ t ∈ ts, t.type_ ≠ TokenType.EndOfFile) ?_ ?_ loc cs
  · intro _ _ _ t ht
    simp at ht
  · intro loc cs c cs1 _ ih t ht
    rcases List.mem_cons.mp ht with rfl | ht
    · exact scan_type_ne_endOfFile c cs1
    · exact ih t ht

/-- C1. For every source `s`, `Tokenize s` returns a token sequence that is
non-empty: it is `body ++ [last]`, where `last` has type `EndOfFile` and an
empty lexeme, and no token of `body` has type `EndOfFile`. -/
theorem tokenize_ends_with_one_endOfFile (s : List Char) :
    ∃ body last, Tokenize s = Except.ok (body ++ [last])
      ∧ last.type_ = TokenType.EndOfFile ∧ last.lexeme_ = []
      ∧ ∀ t ∈ body, t.type_ ≠ TokenType.EndOfFile :=
  ⟨_, _, Tokenize_eq s, rfl, rfl, tokensOf_type_ne_endOfFile _ s⟩

/-- C2. `tokenize` never faults: `advance` raises a fault, `outOfBounds`,
exactly when it is called with `position_` not below the source length; every
fault of a callee is passed on by its caller; and `Tokenize s` is a result
`.ok` for every source `s`, so that no call of `advance` made by `tokenize`
reads outside the source and no loop budget runs out. This holds in particular
on an unterminated string or character literal, an unterminated block comment,
a trailing backslash inside a literal and a trailing prefix character of a
compound operator. -/
theorem tokenize_never_faults (s : List Char) :
    (∀ l : Lexer, (∃ e, l.advance = Except.error e) ↔ l.source_.length ≤ l.position_)
      ∧ (∀ l : Lexer, ∀ e, l.advance = Except.error e → e = Fault.outOfBounds)
      ∧ (∃ tokens, Tokenize s = Except.ok tokens)
      ∧ [['"', 'a', 'b'], ['\'', 'a'], ['|', '-', '-', ' ', 'x'], ['"', 'a', '\\'],
          ['\'', '\\'], ['<'], ['<', '-'], ['?'], ['1', '.']].map
            (fun src => (Tokenize src).toBool)
          = [true, true, true, true, true, true, true, true, true] := by
  refine ⟨?_, ?_, ⟨_, Tokenize_eq s⟩, rfl⟩
  · intro l
    unfold Lexer.advance
    cases h : l.source_.get? l.position_ with
    | none =>
      simp only [List.get?_eq_getElem?, List.getElem?_eq_none_iff] at h
      simp [h]
    | some c =>
      have h2 : l.position_ < l.source_.length := by
        by_contra hn
        have : l.source_.get? l.position_ = none := by
          simp only [List.get?_eq_getElem?, List.getElem?_eq_none_iff]
          omega
        rw [this] at h
        cases h
      simp only
      constructor
      · rintro ⟨e, he⟩
        split at he <;> cases he
      · intro h3
        omega
  · intro l e
    unfold Lexer.advance
    cases h : l.source_.get? l.position_ with
    | none =>
      simp only
      intro he
      cases he
      rfl
    | some c =>
      simp only
      intro he
      split at he <;> cases he

theorem isalpha_facts (c : Char) (hc : isalpha c = true ∨ c = '_') :
    c ∉ switchChars ∧ isspace c = false ∧ isdigit c = false ∧ c ≠ '"' ∧ c ≠ '\''
      ∧ (isalpha c || c = '_' || c = '@' || c = '#') = true := by
  have key : ∀ x ∈ switchChars, isalpha x = false ∧ x ≠ '_' := by decide
  refine ⟨?_, ?_, ?_, ?_, ?_, ?_⟩
  · intro hm
    have := key c hm
    rcases hc with hc | hc
    · rw [this.1] at hc; cases hc
    · exact this.2 hc
  · rcases hc with hc | rfl
    · simp only [isalpha, isspace, Bool.or_eq_true, Bool.and_eq_true, decide_eq_true_eq,
        beq_iff_eq, Bool.or_eq_false_iff, Bool.and_eq_false_iff, decide_eq_false_iff_not,
        beq_eq_false_iff_ne] at *
      omega
    · decide
  · rcases hc with hc | rfl
    · simp only [isalpha, isdigit, Bool.or_eq_true, Bool.and_eq_true, decide_eq_true_eq,
        Bool.and_eq_false_iff, decide_eq_false_iff_not] at *
      omega
    · decide
  · rcases hc with hc | rfl
    · rintro rfl
      exact absurd hc (by decide)
    · decide
  · rcases hc with hc | rfl
    · rintro rfl
      exact absurd hc (by decide)
    · decide
  · rcases hc with hc | rfl
    · simp [hc]
    · decide

theorem startsToken_of (c : Char) (cs : List Char) (h1 : isspace c = false) (h2 : c ≠ '|') :
    startsToken c cs = true := by
  simp [startsToken, h1, h2]

theorem scan_of_isalpha (c : Char) (cs : List Char) (hc : isalpha c = true ∨ c = '_') :
    scan c cs = identScan c cs := by
  obtain ⟨h1, _, h3, h4, h5, h6⟩ := isalpha_facts c hc
  unfold scan
  rw [switchScan_eq_none c cs h1]
  simp only [h3, h4, h5, h6, Bool.false_eq_true, if_false, if_true]

theorem Tokenize_cons_of_startsToken (c : Char) (cs : List Char) (h : startsToken c cs = true) :
    Tokenize (c :: cs)
      = Except.ok (Token.new (scan c cs).type (scan c cs).lexeme
            (TokenLocation.after { line := 1, column := 1 } (scan c cs).start)
          :: (tokensOf (TokenLocation.after { line := 1, column := 1 } (scan c cs).used)
                (scan c cs).rest
              ++ [Token.new TokenType.EndOfFile []
                    (TokenLocation.after { line := 1, column := 1 } (c :: cs))])) := by
  rw [Tokenize_eq, tokensOf_cons_of_startsToken _ c cs h]
  rfl

/-- C3. Keyword/identifier partition: for every text `c :: w` made of a leading
ASCII letter or underscore followed by ASCII letters, digits, `_`, `@` or `#`,
`Tokenize` returns exactly two tokens: a token with lexeme `c :: w` at location
`1:1`, then `EndOfFile`. When the text is one of the 30 reserved words the
first token has the keyword type whose canonical text is that word; otherwise
it is `Identifier`. The 30 reserved words get, in order, the 30 keyword types;
`iffy`, `if1`, `If` and `u128` are identifiers. -/
theorem keyword_identifier_partition (c : Char) (w : List Char)
    (hc : isalpha c = true ∨ c = '_')
    (hw : ∀ x ∈ w, isalpha x = true ∨ isdigit x = true ∨ x = '_' ∨ x = '@' ∨ x = '#') :
    (∃ t eof, Tokenize (c :: w) = Except.ok [t, eof]
      ∧ t.lexeme_ = c :: w ∧ t.location_ = { line := 1, column := 1 }
      ∧ eof.type_ = TokenType.EndOfFile
      ∧ (c :: w ∈ reservedWords →
          isKeywordType t.type_ = true ∧ Token.tokenTypeToString t.type_ = c :: w)
      ∧ (c :: w ∉ reservedWords → t.type_ = TokenType.Identifier))
    ∧ reservedWords.map (fun r => (Tokenize r).map (List.map Token.getType))
        = [TokenType.Import, TokenType.Iter, TokenType.While, TokenType.If, TokenType.Else,
            TokenType.Enum, TokenType.Compare, TokenType.On, TokenType.Default,
            TokenType.Public, TokenType.Private, TokenType.Continue, TokenType.Break,
            TokenType.ExitProgram, TokenType.Vec, TokenType.Tuple, TokenType.Destroy,
            TokenType.Delete, TokenType.U8, TokenType.U16, TokenType.U32, TokenType.U64,
            TokenType.I8, TokenType.I16, TokenType.I32, TokenType.I64, TokenType.F32,
            TokenType.F64, TokenType.Bool, TokenType.Str].map
          (fun ty => Except.ok [ty, TokenType.EndOfFile])
    ∧ ["iffy".toList, "if1".toList, "If".toList, "u128".toList].map
          (fun r => (Tokenize r).map (List.map Token.shape))
        = ["iffy".toList, "if1".toList, "If".toList, "u128".toList].map
          (fun r => Except.ok [(TokenType.Identifier, r), (TokenType.EndOfFile, [])]) := by
  refine ⟨?_, rfl, rfl⟩
  obtain ⟨h1, h2, _, _, _, _⟩ := isalpha_facts c hc
  have hbar : c ≠ '|' := fun h => h1 (by rw [h]; decide)
  have hall : ∀ x ∈ w, isIdentChar x = true := by
    intro x hx
    rcases hw x hx with h | h | h | h | h <;> simp [isIdentChar, isalnum, h]
  have htake : w.takeWhile isIdentChar = w := List.takeWhile_eq_self_iff.mpr hall
  have hdrop : w.dropWhile isIdentChar = [] := List.dropWhile_eq_nil_iff.mpr hall
  have hT : Tokenize (c :: w)
      = Except.ok [Token.new (keywordType (c :: w)) (c :: w) { line := 1, column := 1 },
          Token.new TokenType.EndOfFile []
            (TokenLocation.after { line := 1, column := 1 } (c :: w))] := by
    rw [Tokenize_cons_of_startsToken c w (startsToken_of c w h2 hbar), scan_of_isalpha c w hc]
    simp only [identScan, htake, hdrop, tokensOf_nil, List.nil_append, TokenLocation.after_nil]
  refine ⟨_, _, hT, rfl, rfl, rfl, ?_, ?_⟩
  · intro hmem
    rcases keywordType_cases (c :: w) with ⟨_, h⟩ | ⟨_, h⟩
    · exact absurd hmem h
    · exact h
  · intro hmem
    rcases keywordType_cases (c :: w) with ⟨h, _⟩ | ⟨h, _⟩
    · exact h
    · exact absurd h hmem

/-- Witness for C3 on the text `iffy`, which is not a reserved word. -/
theorem keyword_identifier_partition_witness :
    (∃ t eof, Tokenize "iffy".toList = Except.ok [t, eof]
      ∧ t.lexeme_ = "iffy".toList ∧ t.location_ = { line := 1, column := 1 }
      ∧ eof.type_ = TokenType.EndOfFile
      ∧ ("iffy".toList ∈ reservedWords →
          isKeywordType t.type_ = true ∧ Token.tokenTypeToString t.type_ = "iffy".toList)
      ∧ ("iffy".toList ∉ reservedWords → t.type_ = TokenType.Identifier))
    ∧ reservedWords.map (fun r => (Tokenize r).map (List.map Token.getType))
        = [TokenType.Import, TokenType.Iter, TokenType.While, TokenType.If, TokenType.Else,
            TokenType.Enum, TokenType.Compare, TokenType.On, TokenType.Default,
            TokenType.Public, TokenType.Private, TokenType.Continue, TokenType.Break,
            TokenType.ExitProgram, TokenType.Vec, TokenType.Tuple, TokenType.Destroy,
            TokenType.Delete, TokenType.U8, TokenType.U16, TokenType.U32, TokenType.U64,
            TokenType.I8, TokenType.I16, TokenType.I32, TokenType.I64, TokenType.F32,
            TokenType.F64, TokenType.Bool, TokenType.Str].map
          (fun ty => Except.ok [ty, TokenType.EndOfFile])
    ∧ ["iffy".toList, "if1".toList, "If".toList, "u128".toList].map
          (fun r => (Tokenize r).map (List.map Token.shape))
        = ["iffy".toList, "if1".toList, "If".toList, "u128".toList].map
          (fun r => Except.ok [(TokenType.Identifier, r), (TokenType.EndOfFile, [])]) :=
  keyword_identifier_partition 'i' "ffy".toList (by decide) (by decide)

theorem tokensOf_shape (loc loc2 : TokenLocation) (cs : List Char) :
    (tokensOf loc cs).map Token.shape = (tokensOf loc2 cs).map Token.shape := by
  refine tokensOf_induct
    (fun _ cs ts => ∀ loc2, ts.map Token.shape = (tokensOf loc2 cs).map Token.shape)
    ?_ ?_ loc cs loc2
  · intro _ cs h loc2
    rw [tokensOf_of_rest_nil loc2 cs h]
  · intro loc cs c cs1 h ih loc2
    rw [tokensOf_of_rest_cons loc2 cs c cs1 h]
    simp only [List.map_cons, List.cons.injEq]
    exact ⟨rfl, ih _⟩

theorem Tokenize_shape_rest (loc eofLoc : TokenLocation) (cs : List Char) :
    ∃ toks, Tokenize cs = Except.ok toks
      ∧ (tokensOf loc cs ++ [Token.new TokenType.EndOfFile [] eofLoc]).map Token.shape
          = toks.map Token.shape := by
  refine ⟨_, Tokenize_eq cs, ?_⟩
  simp only [List.map_append, tokensOf_shape loc { line := 1, column := 1 } cs]
  rfl

theorem first_token (c : Char) (cs : List Char) (h : startsToken c cs = true) :
    ∃ toks toksRest,
      Tokenize (c :: cs)
        = Except.ok (Token.new (scan c cs).type (scan c cs).lexeme
            (TokenLocation.after { line := 1, column := 1 } (scan c cs).start) :: toks)
      ∧ Tokenize (scan c cs).rest = Except.ok toksRest
      ∧ toks.map Token.shape = toksRest.map Token.shape := by
  obtain ⟨toksRest, h1, h2⟩ := Tokenize_shape_rest
    (TokenLocation.after { line := 1, column := 1 } (scan c cs).used)
    (TokenLocation.after { line := 1, column := 1 } (c :: cs)) (scan c cs).rest
  exact ⟨_, toksRest, Tokenize_cons_of_startsToken c cs h, h1, h2⟩

theorem scanToken_new (c : Char) (cs : List Char) (h : startsToken c cs = true) :
    (Lexer.new (c :: cs)).scanToken
      = (scan c cs).result [] { line := 1, column := 1 } := by
  rw [Lexer.new_eq_atSplit,
    Lexer.scanToken_atSplit [] (c :: cs) _ c cs (by rw [trivia_of_startsToken c cs h]),
    trivia_of_startsToken c cs h]
  rfl

/-- C4. Compound operators: for each of the eleven pairs `(text, type)` and
every `rest`, the first token of `Tokenize (text ++ rest)` has that type, the
lexeme `text` and the location `1:1`, and the tokens after it have the same
types and lexemes, in the same order, as `Tokenize rest`. In particular
`a <-> b` gives `Identifier a`, `BiArrow <->`, `Identifier b`, `EndOfFile`. -/
theorem compound_operators (text : List Char) (type : TokenType) (rest : List Char)
    (h : (text, type) ∈ [("->".toList, TokenType.Arrow), ("==".toList, TokenType.Equal),
      ("!=".toList, TokenType.NotEqual), ("<=".toList, TokenType.LessEqual),
      ("<->".toList, TokenType.BiArrow), (">=".toList, TokenType.GreaterEqual),
      ("?+".toList, TokenType.And), ("??".toList, TokenType.Or),
      ("&@".toList, TokenType.AmpersandAt), ("::".toList, TokenType.DoubleColon),
      ("..".toList, TokenType.Range)]) :
    (∃ first toks toksRest, Tokenize (text ++ rest) = Except.ok (first :: toks)
      ∧ first.type_ = type ∧ first.lexeme_ = text
      ∧ first.location_ = { line := 1, column := 1 }
      ∧ Tokenize rest = Except.ok toksRest
      ∧ toks.map Token.shape = toksRest.map Token.shape)
    ∧ (Tokenize "a <-> b".toList).map (List.map Token.shape)
        = Except.ok [(TokenType.Identifier, "a".toList), (TokenType.BiArrow, "<->".toList),
            (TokenType.Identifier, "b".toList), (TokenType.EndOfFile, [])] := by
  refine ⟨?_, rfl⟩
  have key : ∀ (c : Char) (cs : List Char) (ty : TokenType) (lex : List Char),
      startsToken c cs = true → (scan c cs).type = ty → (scan c cs).lexeme = lex →
      (scan c cs).start = [] → (scan c cs).rest = rest →
      ∃ first toks toksRest, Tokenize (c :: cs) = Except.ok (first :: toks)
        ∧ first.type_ = ty ∧ first.lexeme_ = lex
        ∧ first.location_ = { line := 1, column := 1 }
        ∧ Tokenize rest = Except.ok toksRest
        ∧ toks.map Token.shape = toksRest.map Token.shape := by
    intro c cs ty lex hs h1 h2 h3 h4
    obtain ⟨toks, toksRest, e1, e2, e3⟩ := first_token c cs hs
    rw [h4] at e2
    refine ⟨_, toks, toksRest, e1, h1, h2, ?_, e2, e3⟩
    simp only [Token.new, h3, TokenLocation.after_nil]
  simp only [List.mem_cons, Prod.mk.injEq, List.mem_singleton, List.not_mem_nil, or_false] at h
  rcases h with h | h | h | h | h | h | h | h | h | h | h
  all_goals
    obtain ⟨htext, htype⟩ := h
    subst htext htype
    refine key _ _ _ _ (by simp [startsToken, isspace]) ?_ ?_ ?_ ?_ <;>
      simp [scan, switchScan, pairScan, lessScan, questionScan]

/-- Witness for C4 on the text `<->` followed by ` b`. -/
theorem compound_operators_witness :
    (∃ first toks toksRest, Tokenize ("<->".toList ++ " b".toList) = Except.ok (first :: toks)
      ∧ first.type_ = TokenType.BiArrow ∧ first.lexeme_ = "<->".toList
      ∧ first.location_ = { line := 1, column := 1 }
      ∧ Tokenize " b".toList = Except.ok toksRest
      ∧ toks.map Token.shape = toksRest.map Token.shape)
    ∧ (Tokenize "a <-> b".toList).map (List.map Token.shape)
        = Except.ok [(TokenType.Identifier, "a".toList), (TokenType.BiArrow, "<->".toList),
            (TokenType.Identifier, "b".toList), (TokenType.EndOfFile, [])] :=
  compound_operators "<->".toList TokenType.BiArrow " b".toList (by decide)

/-- C5 (the code at the failing input). On `a <- b` the scanner returns
`Identifier a`, `Less <`, `Identifier b`, `EndOfFile`: the `-` after `<` is
consumed by the case `<` and appears in no token, whereas `- b` alone starts
with a `Minus` token. After `scanToken` on `<- b` the cursor stands at offset
`2`, past the `-`. -/
theorem less_minus_drops_the_minus :
    (Tokenize "a <- b".toList).map (List.map Token.shape)
        = Except.ok [(TokenType.Identifier, "a".toList), (TokenType.Less, "<".toList),
            (TokenType.Identifier, "b".toList), (TokenType.EndOfFile, [])]
      ∧ (Tokenize "- b".toList).map (List.map Token.shape)
        = Except.ok [(TokenType.Minus, "-".toList), (TokenType.Identifier, "b".toList),
            (TokenType.EndOfFile, [])]
      ∧ (Lexer.new "<- b".toList).scanToken.map (fun r => (r.1.shape, r.2.position_))
        = Except.ok ((TokenType.Less, "<".toList), 2) :=
  ⟨rfl, rfl, rfl⟩

/-- C6. No overconsumption: for each prefix character `p` with its set `K` of
continuation characters and its single-character token type, and for every
`rest` that is empty or whose first character is not in `K`, the first token of
`Tokenize (p :: rest)` has that type and the lexeme `p`, `scanToken` leaves the
cursor at offset `1`, and the tokens after the first have the same types and
lexemes, in the same order, as `Tokenize rest`. In particular `x < y` gives
`Identifier x`, `Less <`, `Identifier y`, `EndOfFile`. -/
theorem no_overconsumption (p : Char) (K : List Char) (type : TokenType) (rest : List Char)
    (h : (p, K, type) ∈ [('-', ['>'], TokenType.Minus), ('=', ['='], TokenType.Assign),
      ('!', ['='], TokenType.Not), ('<', ['=', '-'], TokenType.Less),
      ('>', ['='], TokenType.Greater), ('?', ['+', '?'], TokenType.Unknown),
      ('&', ['@'], TokenType.Ampersand), (':', [':'], TokenType.Colon),
      ('.', ['.'], TokenType.Dot)])
    (hrest : ∀ d, rest.head? = some d → d ∉ K) :
    (∃ first toks toksRest after, Tokenize (p :: rest) = Except.ok (first :: toks)
      ∧ first.type_ = type ∧ first.lexeme_ = [p]
      ∧ (Lexer.new (p :: rest)).scanToken = Except.ok (first, after)
      ∧ after.position_ = 1
      ∧ Tokenize rest = Except.ok toksRest
      ∧ toks.map Token.shape = toksRest.map Token.shape)
    ∧ (Tokenize "x < y".toList).map (List.map Token.shape)
        = Except.ok [(TokenType.Identifier, "x".toList), (TokenType.Less, "<".toList),
            (TokenType.Identifier, "y".toList), (TokenType.EndOfFile, [])] := by
  refine ⟨?_, rfl⟩
  have key : ∀ (c : Char) (ty : TokenType),
      startsToken c rest = true → (scan c rest).type = ty → (scan c rest).lexeme = [c] →
      (scan c rest).start = [] → (scan c rest).used = [c] → (scan c rest).rest = rest →
      ∃ first toks toksRest after, Tokenize (c :: rest) = Except.ok (first :: toks)
        ∧ first.type_ = ty ∧ first.lexeme_ = [c]
        ∧ (Lexer.new (c :: rest)).scanToken = Except.ok (first, after)
        ∧ after.position_ = 1
        ∧ Tokenize rest = Except.ok toksRest
        ∧ toks.map Token.shape = toksRest.map Token.shape := by
    intro c ty hs h1 h2 h3 h4 h5
    obtain ⟨toks, toksRest, e1, e2, e3⟩ := first_token c rest hs
    rw [h5] at e2
    refine ⟨_, toks, toksRest, _, e1, h1, h2, scanToken_new c rest hs, ?_, e2, e3⟩
    simp [h4]
  simp only [List.mem_cons, Prod.mk.injEq, List.mem_singleton, List.not_mem_nil, or_false] at h
  cases rest with
  | nil =>
    rcases h with h | h | h | h | h | h | h | h | h
    all_goals
      obtain ⟨hp, hK, htype⟩ := h
      subst hp hK htype
      refine key _ _ (by simp [startsToken, isspace]) ?_ ?_ ?_ ?_ ?_ <;>
        simp [scan, switchScan, pairScan, lessScan, questionScan]
  | cons d ds =>
    have hd := hrest d rfl
    rcases h with h | h | h | h | h | h | h | h | h
    all_goals
      obtain ⟨hp, hK, htype⟩ := h
      subst hp hK htype
      simp only [List.mem_cons, List.mem_singleton, List.not_mem_nil, or_false, not_or] at hd
      refine key _ _ (by simp [startsToken, isspace]) ?_ ?_ ?_ ?_ ?_ <;>
        simp [scan, switchScan, pairScan, lessScan, questionScan, hd]

/-- Witness for C6 on `<` followed by ` y`. -/
theorem no_overconsumption_witness :
    (∃ first toks toksRest after, Tokenize ('<' :: " y".toList) = Except.ok (first :: toks)
      ∧ first.type_ = TokenType.Less ∧ first.lexeme_ = ['<']
      ∧ (Lexer.new ('<' :: " y".toList)).scanToken = Except.ok (first, after)
      ∧ after.position_ = 1
      ∧ Tokenize " y".toList = Except.ok toksRest
      ∧ toks.map Token.shape = toksRest.map Token.shape)
    ∧ (Tokenize "x < y".toList).map (List.map Token.shape)
        = Except.ok [(TokenType.Identifier, "x".toList), (TokenType.Less, "<".toList),
            (TokenType.Identifier, "y".toList), (TokenType.EndOfFile, [])] :=
  no_overconsumption '<' ['=', '-'] TokenType.Less " y".toList (by decide) (by decide)

theorem scan_lexeme_canonical (c : Char) (cs : List Char)
    (h : isFixedType (scan c cs).type = true) :
    (scan c cs).lexeme = Token.tokenTypeToString (scan c cs).type := by
  revert h
  refine scan_cases
    (fun sc => isFixedType sc.type = true → sc.lexeme = Token.tokenTypeToString sc.type)
    c cs ?_ ?_ ?_ ?_ ?_ ?_ ?_ ?_ ?_
  · intro ty lex h _
    have : ∀ x ∈ singleTable, x.2.2 = Token.tokenTypeToString x.2.1 := by decide
    exact this _ h
  · intro next long short ll sl h _
    have : ∀ x ∈ pairTable, x.2.2.2.2.1 = Token.tokenTypeToString x.2.2.1
        ∧ x.2.2.2.2.2 = Token.tokenTypeToString x.2.2.2.1 := by decide
    have h2 := this _ h
    unfold pairScan
    split
    · exact h2.1
    · exact h2.2
  · intro _ _
    unfold lessScan
    split_ifs <;> rfl
  · intro _
    unfold questionScan
    split_ifs <;> intro h <;> first | rfl | simp [isFixedType] at h
  · intro _
    unfold numberScan
    simp only
    split_ifs <;> intro h <;> simp [isFixedType] at h
  · intro _ h; simp [isFixedType, quotedScan] at h
  · intro _ h; simp [isFixedType, quotedScan] at h
  · intro _ h
    rcases keywordType_cases (c :: cs.takeWhile isIdentChar) with ⟨h1, _⟩ | ⟨_, _, h1⟩
    · simp only [identScan] at h
      rw [h1] at h
      exact absurd h (by decide)
    · exact h1.symm
  · intro _ _ _ _ _ h
    simp [isFixedType] at h

theorem tokensOf_lexeme_canonical (loc : TokenLocation) (cs : List Char) :
    ∀ t ∈ tokensOf loc cs, isFixedType t.type_ = true →
      t.lexeme_ = Token.tokenTypeToString t.type_ := by
  refine tokensOf_induct
    (fun _ _ ts => ∀ t ∈ ts, isFixedType t.type_ = true →
      t.lexeme_ = Token.tokenTypeToString t.type_) ?_ ?_ loc cs
  · intro _ _ _ t ht
    simp at ht
  · intro loc cs c cs1 _ ih t ht
    rcases List.mem_cons.mp ht with rfl | ht
    · exact scan_lexeme_canonical c cs1
    · exact ih t ht

/-- C7. Lexeme fidelity: for every source `s`, `Tokenize s` returns tokens, and
every one of them whose type is a keyword, type keyword, operator, punctuation
or special symbol has for lexeme the canonical text that `tokenTypeToString`
gives for its type. -/
theorem lexeme_fidelity (s : List Char) :
    ∃ toks, Tokenize s = Except.ok toks
      ∧ ∀ t ∈ toks, isFixedType t.type_ = true →
          t.lexeme_ = Token.tokenTypeToString t.type_ := by
  refine ⟨_, Tokenize_eq s, ?_⟩
  intro t ht
  rcases List.mem_append.mp ht with ht | ht
  · exact tokensOf_lexeme_canonical _ s t ht
  · simp only [List.mem_singleton] at ht
    subst ht
    intro h
    simp [isFixedType, Token.new] at h

theorem intWrap_of_range (x : Int) (h1 : -2147483648 ≤ x) (h2 : x ≤ 2147483647) :
    intWrap x = x := by
  unfold intWrap
  omega

theorem intWrap_succ (x : Int) : intWrap (intWrap x + 1) = intWrap (x + 1) := by
  unfold intWrap
  omega

theorem locOf_snoc (pre : List Char) (c : Char) :
    locOf (pre ++ [c])
      = if c = '\n' then { line := (locOf pre).line + 1, column := 1 }
        else { line := (locOf pre).line, column := (locOf pre).column + 1 } := by
  unfold locOf
  by_cases hc : c = '\n'
  · subst hc
    simp [List.count_append, add_assoc]
  · have hcnt : List.count '\n' [c] = 0 := by
      rw [List.count_eq_zero]
      simpa using fun h : '\n' = c => hc h.symm
    simp [List.count_append, hc, hcnt, List.takeWhile_cons, add_assoc]

theorem locOf_snoc_wrap (pre : List Char) (c : Char) :
    (locOf (pre ++ [c])).wrap = (locOf pre).wrap.next c := by
  rw [locOf_snoc]
  unfold TokenLocation.next TokenLocation.wrap
  split
  · simp only [intWrap_succ]
    rfl
  · simp only [intWrap_succ]

theorem locOf_after (pre cs : List Char) :
    (locOf pre).wrap.after cs = (locOf (pre ++ cs)).wrap := by
  induction cs generalizing pre with
  | nil => simp
  | cons c cs ih =>
    rw [TokenLocation.after_cons, ← locOf_snoc_wrap, ih]
    simp

theorem after_eq_wrap_locOf (cs : List Char) :
    TokenLocation.after { line := 1, column := 1 } cs = (locOf cs).wrap := by
  have h := locOf_after [] cs
  rw [List.nil_append] at h
  rw [← h]
  rfl

theorem locOf_wrap (cs : List Char) (h1 : cs.count '\n' < 2147483647)
    (h2 : lastLineLength cs < 2147483647) : (locOf cs).wrap = locOf cs := by
  unfold lastLineLength at h2
  simp only [TokenLocation.wrap, locOf]
  rw [intWrap_of_range _ (by omega) (by omega), intWrap_of_range _ (by omega) (by omega)]

theorem lastLineLength_le (cs : List Char) : lastLineLength cs ≤ cs.length := by
  unfold lastLineLength
  have h := (List.takeWhile_sublist (fun c => c != '\n') (l := cs.reverse)).length_le
  simpa using h

theorem after_eq_locOf (cs : List Char) (h1 : cs.count '\n' < 2147483647)
    (h2 : lastLineLength cs < 2147483647) :
    TokenLocation.after { line := 1, column := 1 } cs = locOf cs := by
  rw [after_eq_wrap_locOf, locOf_wrap cs h1 h2]

theorem after_eq_locOf_of_length (cs : List Char) (h : cs.length < 2147483647) :
    TokenLocation.after { line := 1, column := 1 } cs = locOf cs :=
  after_eq_locOf cs (Nat.lt_of_le_of_lt (List.count_le_length _ _) h)
    (Nat.lt_of_le_of_lt (lastLineLength_le cs) h)

theorem scan_start_lexeme (c : Char) (cs : List Char)
    (h1 : (scan c cs).type ≠ TokenType.StringLiteral)
    (h2 : (scan c cs).type ≠ TokenType.CharLiteral) :
    (scan c cs).start = [] ∧ (scan c cs).lexeme <+: (scan c cs).used := by
  revert h1 h2
  refine scan_cases
    (fun sc => sc.type ≠ TokenType.StringLiteral → sc.type ≠ TokenType.CharLiteral →
      sc.start = [] ∧ sc.lexeme <+: sc.used)
    c cs ?_ ?_ ?_ ?_ ?_ ?_ ?_ ?_ ?_
  · intro ty lex h _ _
    have : ∀ x ∈ singleTable, x.2.2 = [x.1] := by decide
    have h3 := this _ h
    simp only at h3
    subst h3
    exact ⟨rfl, List.prefix_refl _⟩
  · intro next long short ll sl h _ _
    have : ∀ x ∈ pairTable, x.2.2.2.2.1 = [x.1, x.2.1] ∧ x.2.2.2.2.2 = [x.1] := by decide
    obtain ⟨h3, h4⟩ := this _ h
    simp only at h3 h4
    subst h3 h4
    unfold pairScan
    cases cs with
    | nil => simp
    | cons d ds =>
      by_cases hd : d = next
      · simp [hd]
      · simp [hd]
  · intro hc _ _
    subst hc
    unfold lessScan
    match cs with
    | [] => simp
    | [d] =>
      by_cases h1 : d = '='
      · simp [h1]
      · by_cases h2 : d = '-'
        · simp [h2]
        · simp [h1, h2]
    | d :: e :: ds =>
      by_cases h1 : d = '='
      · simp [h1]
      · by_cases h2 : d = '-'
        · by_cases h3 : e = '>'
          · simp [h2, h3]
          · simp [h2, h3]
        · simp [h1, h2]
  · intro hc _ _
    subst hc
    unfold questionScan
    cases cs with
    | nil => simp
    | cons d ds =>
      by_cases h1 : d = '+'
      · simp [h1]
      · by_cases h2 : d = '?'
        · simp [h2]
        · simp [h1, h2]
  · intro _ _ _
    unfold numberScan
    simp only
    split_ifs <;> exact ⟨rfl, List.prefix_refl _⟩
  · intro _ h; simp [quotedScan] at h
  · intro _ _ h; simp [quotedScan] at h
  · intro _ _ _
    exact ⟨rfl, List.prefix_refl _⟩
  · intro _ _ _ _ _ _ _
    exact ⟨rfl, List.prefix_refl _⟩

theorem scan_used_ne_nil (c : Char) (cs : List Char) : (scan c cs).used ≠ [] := by
  obtain ⟨u, h, _⟩ := scan_spec c cs
  rw [h]
  exact List.cons_ne_nil _ _

theorem trivia_space (c : Char) (cs : List Char) (h : isspace c = true) :
    trivia (c :: cs) = (c :: (trivia cs).1, (trivia cs).2) := by
  unfold trivia
  rw [triviaSplit]
  simp only [h, if_true]
  rw [triviaSplit_fuel ((c :: cs).length) (cs.length + 1) cs (by simp) (by simp)]

theorem tokensOf_skip (loc : TokenLocation) (u cs : List Char)
    (h : trivia (u ++ cs) = (u ++ (trivia cs).1, (trivia cs).2)) :
    tokensOf loc (u ++ cs) = tokensOf (loc.after u) cs := by
  cases hr : (trivia cs).2 with
  | nil =>
    rw [tokensOf_of_rest_nil loc (u ++ cs) (by rw [h, hr]), tokensOf_of_rest_nil _ cs hr]
  | cons c cs1 =>
    rw [tokensOf_of_rest_cons loc (u ++ cs) c cs1 (by rw [h, hr]),
      tokensOf_of_rest_cons _ cs c cs1 hr, h]
    simp only [TokenLocation.after_append]

theorem tokensOf_segments (R : Token → List Char × List Char → Prop)
    (hR : ∀ (c : Char) (cs gap : List Char) (loc : TokenLocation),
      R (Token.new (scan c cs).type (scan c cs).lexeme loc) (gap, (scan c cs).used))
    (pre cs : List Char) :
    ∃ segs tailGap, cs = segmentsText segs ++ tailGap
      ∧ TokensAt (TokenLocation.after { line := 1, column := 1 }) pre
          (tokensOf (TokenLocation.after { line := 1, column := 1 } pre) cs) segs
      ∧ List.Forall₂ R (tokensOf (TokenLocation.after { line := 1, column := 1 } pre) cs)
          segs := by
  refine tokensOf_induct
    (fun loc cs ts => ∀ pre, loc = TokenLocation.after { line := 1, column := 1 } pre →
      ∃ segs tailGap, cs = segmentsText segs ++ tailGap
        ∧ TokensAt (TokenLocation.after { line := 1, column := 1 }) pre ts segs
        ∧ List.Forall₂ R ts segs)
    ?_ ?_ _ cs pre rfl
  · intro _ cs _ pre _
    exact ⟨[], cs, rfl, trivial, List.Forall₂.nil⟩
  · intro loc cs c cs1 h ih pre hloc
    subst hloc
    have happ := trivia_append cs
    rw [h] at happ
    obtain ⟨segs, tailGap, e1, e2, e3⟩ := ih (pre ++ (trivia cs).1 ++ (scan c cs1).used)
      (by rw [TokenLocation.after_append, TokenLocation.after_append])
    refine ⟨((trivia cs).1, (scan c cs1).used) :: segs, tailGap, ?_, ⟨?_, ?_, e2⟩,
      List.Forall₂.cons (hR c cs1 _ _) e3⟩
    · simp only [segmentsText, List.append_assoc, ← e1, scan_used_append, happ]
    · exact scan_used_ne_nil c cs1
    · intro h1 h2
      obtain ⟨h3, h4⟩ := scan_start_lexeme c cs1 h1 h2
      refine ⟨?_, h4⟩
      simp only [Token.new, h3, TokenLocation.after_nil, TokenLocation.after_append]

theorem segmentsText_length_le (seg : List Char × List Char)
    (segs : List (List Char × List Char)) (pre : List Char) :
    (pre ++ seg.1).length ≤ (pre ++ segmentsText (seg :: segs)).length
      ∧ (pre ++ seg.1 ++ seg.2 ++ segmentsText segs).length
          = (pre ++ segmentsText (seg :: segs)).length := by
  simp only [segmentsText, List.length_append]
  omega

theorem TokensAt_congr (f g : List Char → TokenLocation) (ts : List Token) :
    ∀ (segs : List (List Char × List Char)) (pre : List Char),
      (∀ p : List Char, p.length ≤ (pre ++ segmentsText segs).length → f p = g p) →
      TokensAt f pre ts segs → TokensAt g pre ts segs := by
  induction ts with
  | nil =>
    intro segs pre _ h
    cases segs with
    | nil => trivial
    | cons seg segs => exact h
  | cons t ts ih =>
    intro segs pre hfg h
    cases segs with
    | nil => exact h
    | cons seg segs =>
      obtain ⟨h1, h2, h3⟩ := h
      have hlen := segmentsText_length_le seg segs pre
      refine ⟨h1, ?_, ih segs _ ?_ h3⟩
      · intro n1 n2
        rw [← hfg _ hlen.1]
        exact h2 n1 n2
      · intro p hp
        exact hfg p (by rw [← hlen.2]; exact hp)

theorem trivia_replicate (c : Char) (hc : isspace c = true) (n : Nat) (cs : List Char) :
    trivia (List.replicate n c ++ cs) = (List.replicate n c ++ (trivia cs).1, (trivia cs).2) := by
  induction n with
  | zero => rfl
  | succ n ih =>
    rw [List.replicate_succ, List.cons_append, trivia_space c _ hc, ih]
    rfl

theorem locOf_replicate (c : Char) (hc : c ≠ '\n') (n : Nat) :
    locOf (List.replicate n c) = { line := 1, column := 1 + (n : Int) } := by
  induction n with
  | zero => rfl
  | succ n ih =>
    rw [List.replicate_succ', locOf_snoc, ih, if_neg hc]
    simp only [Nat.cast_succ, add_assoc]

theorem locOf_replicate_newline (n : Nat) :
    locOf (List.replicate n '\n') = { line := 1 + (n : Int), column := 1 } := by
  induction n with
  | zero => rfl
  | succ n ih =>
    rw [List.replicate_succ', locOf_snoc, ih, if_pos rfl]
    simp only [Nat.cast_succ, add_assoc]

theorem tokensOf_x (loc : TokenLocation) :
    tokensOf loc ['x'] = [Token.new TokenType.Identifier ['x'] loc] := by
  have hs : scan 'x' []
      = { type := TokenType.Identifier, lexeme := ['x'], start := [], used := ['x'],
          rest := [] } := rfl
  rw [tokensOf_cons_of_startsToken loc 'x' [] (by decide), hs]
  simp only [TokenLocation.after_nil, tokensOf_nil]

theorem Tokenize_replicate_x (c : Char) (hc : isspace c = true) (n : Nat) :
    Tokenize (List.replicate n c ++ ['x'])
      = Except.ok [Token.new TokenType.Identifier ['x'] (locOf (List.replicate n c)).wrap,
          Token.new TokenType.EndOfFile [] ((locOf (List.replicate n c)).wrap.next 'x')] := by
  have ht := trivia_replicate c hc n ['x']
  rw [trivia_of_startsToken 'x' [] (by decide)] at ht
  rw [Tokenize_eq, tokensOf_skip _ _ _ (by rw [ht, trivia_of_startsToken 'x' [] (by decide)]),
    tokensOf_x, TokenLocation.after_append, after_eq_wrap_locOf]
  rfl

/-- C8, counterexample. On the source made of `2^31 - 1` blanks followed by `x`
the identifier is located at `1:-2147483648`, while the position of its first
character is line `1`, column `1 + (2^31 - 1)`: the column, an `int`, has
passed `INT_MAX`. -/
theorem token_locations_counterexample :
    ∃ t eof, Tokenize (List.replicate 2147483647 ' ' ++ ['x']) = Except.ok [t, eof]
      ∧ t.type_ = TokenType.Identifier
      ∧ t.location_ = { line := 1, column := -2147483648 }
      ∧ locOf (List.replicate 2147483647 ' ') = { line := 1, column := 2147483648 }
      ∧ t.location_ ≠ locOf (List.replicate 2147483647 ' ') := by
  have hloc := locOf_replicate ' ' (by decide) 2147483647
  have hw : (locOf (List.replicate 2147483647 ' ')).wrap
      = { line := 1, column := -2147483648 } := by
    rw [hloc]
    rfl
  refine ⟨_, _, Tokenize_replicate_x ' ' rfl 2147483647, rfl, hw, ?_, ?_⟩
  · rw [hloc]
    rfl
  · show (locOf (List.replicate 2147483647 ' ')).wrap ≠ _
    rw [hw, hloc]
    decide

/-- C8, amended. Location correctness, `line` and `column` being `int` members.
The location reached from `1:1` by the updates of `advance` over a text `pre`
is line `1 +` the number of newlines of `pre` and column `1 +` the number of
characters after its last newline (`locOf pre`), whenever each of these two
numbers is below `2^31 - 1`. For every source `s`, `Tokenize s` returns
`toks ++ [eof]` and `s` splits, token by token, into the characters skipped
before a token and the non-empty text consumed for it, followed by a final
skipped part: every token other than a string or character literal has a lexeme
that starts the text consumed for it and is located where the updates of
`advance` lead over the characters before that text, and `eof` where they lead
over `s`. When `s` has fewer than `2^31 - 1` characters, that is the position of
the first character of the text (`locOf` of the characters before it), and
`eof` is located at the end of `s`. -/
theorem token_locations (s : List Char) :
    (∀ pre : List Char, pre.count '\n' < 2147483647 → lastLineLength pre < 2147483647 →
        TokenLocation.after { line := 1, column := 1 } pre = locOf pre)
      ∧ ∃ toks eof segs tailGap, Tokenize s = Except.ok (toks ++ [eof])
          ∧ s = segmentsText segs ++ tailGap
          ∧ TokensAt (TokenLocation.after { line := 1, column := 1 }) [] toks segs
          ∧ eof.type_ = TokenType.EndOfFile
          ∧ eof.location_ = TokenLocation.after { line := 1, column := 1 } s
          ∧ (s.length < 2147483647 →
              TokensAt locOf [] toks segs ∧ eof.location_ = locOf s) := by
  refine ⟨after_eq_locOf, ?_⟩
  obtain ⟨segs, tailGap, h1, h2, _⟩ := tokensOf_segments (fun _ _ => True)
    (fun _ _ _ _ => trivial) [] s
  refine ⟨_, _, segs, tailGap, Tokenize_eq s, h1, h2, rfl, rfl, ?_⟩
  intro hs
  have hpre : ∀ pre : List Char, pre.length ≤ s.length →
      TokenLocation.after { line := 1, column := 1 } pre = locOf pre :=
    fun pre h => after_eq_locOf_of_length pre (Nat.lt_of_le_of_lt h hs)
  refine ⟨TokensAt_congr _ _ _ segs [] ?_ h2, hpre s (Nat.le_refl _)⟩
  intro p hp
  refine hpre p (Nat.le_trans hp ?_)
  rw [h1]
  simp

/-- Witness for C8 on a source of two lines. -/
theorem token_locations_witness :
    ∃ toks eof segs tailGap, Tokenize "ab +\n  c".toList = Except.ok (toks ++ [eof])
      ∧ "ab +\n  c".toList = segmentsText segs ++ tailGap
      ∧ TokensAt locOf [] toks segs
      ∧ eof.type_ = TokenType.EndOfFile ∧ eof.location_ = locOf "ab +\n  c".toList := by
  obtain ⟨toks, eof, segs, tailGap, h1, h2, _, h4, _, h6⟩ :=
    (token_locations "ab +\n  c".toList).2
  exact ⟨toks, eof, segs, tailGap, h1, h2, (h6 (by decide)).1, h4, (h6 (by decide)).2⟩

theorem isdigit_facts (c : Char) (hc : isdigit c = true) :
    c ∉ switchChars ∧ isspace c = false ∧ c ≠ '|' := by
  have key : ∀ x ∈ switchChars, isdigit x = false := by decide
  refine ⟨?_, ?_, ?_⟩
  · intro hm
    rw [key c hm] at hc
    cases hc
  · simp only [isdigit, isspace, Bool.or_eq_true, Bool.and_eq_true, decide_eq_true_eq,
      beq_iff_eq, Bool.or_eq_false_iff, Bool.and_eq_false_iff, decide_eq_false_iff_not,
      beq_eq_false_iff_ne] at *
    omega
  · rintro rfl
    exact absurd hc (by decide)

theorem scan_of_isdigit (c : Char) (cs : List Char) (hc : isdigit c = true) :
    scan c cs = numberScan c cs := by
  unfold scan
  rw [switchScan_eq_none c cs (isdigit_facts c hc).1]
  simp only [hc, if_true]

theorem takeWhile_append_of_all (p : Char → Bool) (d rest : List Char)
    (hd : ∀ x ∈ d, p x = true) (hrest : ∀ x, rest.head? = some x → p x = false) :
    (d ++ rest).takeWhile p = d ∧ (d ++ rest).dropWhile p = rest := by
  induction d with
  | nil =>
    cases rest with
    | nil => simp
    | cons x r => simp [hrest x rfl]
  | cons y d ih =>
    have hy := hd y (List.mem_cons_self _ _)
    have ih2 := ih (fun x hx => hd x (List.mem_cons_of_mem _ hx))
    simp [hy, ih2.1, ih2.2]

theorem numberScan_append (c : Char) (d rest : List Char)
    (hd : ∀ x ∈ d, isdigit x = true) (hrest : ∀ x, rest.head? = some x → isdigit x = false) :
    numberScan c (d ++ rest)
      = if !rest.isEmpty && look rest 0 = '.' then
          if look rest 1 != '.' then
            { type := TokenType.FloatLiteral,
              lexeme := c :: d ++ rest.take 1 ++ (rest.drop 1).takeWhile isdigit, start := [],
              used := c :: d ++ rest.take 1 ++ (rest.drop 1).takeWhile isdigit,
              rest := (rest.drop 1).dropWhile isdigit }
          else
            { type := TokenType.IntegerLiteral, lexeme := c :: d, start := [],
              used := c :: d, rest := rest }
        else
          { type := TokenType.IntegerLiteral, lexeme := c :: d, start := [],
            used := c :: d, rest := rest } := by
  obtain ⟨ht, hdr⟩ := takeWhile_append_of_all isdigit d rest hd hrest
  simp only [numberScan, ht, hdr]

/-- C9. Numeric literal classification: for a non-empty digit string `c :: d`
and a `rest` that does not start with a digit, the first token of
`Tokenize (c :: d ++ rest)` is a `FloatLiteral` with lexeme
`c :: d ++ "." ++ d2` when `rest` is `.` followed by an `r` that does not start
with `.`, where `d2` is the longest run of digits that starts `r`; otherwise it
is an `IntegerLiteral` with lexeme `c :: d`, and when `rest` starts with `..`
the next token is `Range` with lexeme `..`. -/
theorem numeric_literal_classification (c : Char) (d rest : List Char)
    (hc : isdigit c = true) (hd : ∀ x ∈ d, isdigit x = true)
    (hrest : ∀ x, rest.head? = some x → isdigit x = false) :
    (∃ first toks, Tokenize (c :: d ++ rest) = Except.ok (first :: toks)
      ∧ (∀ r, rest = '.' :: r → r.head? ≠ some '.' →
          first.type_ = TokenType.FloatLiteral
            ∧ first.lexeme_ = c :: d ++ '.' :: r.takeWhile isdigit)
      ∧ ((∀ r, rest = '.' :: r → r.head? = some '.') →
          first.type_ = TokenType.IntegerLiteral ∧ first.lexeme_ = c :: d
            ∧ ∀ r, rest = '.' :: '.' :: r →
                ∃ second toks2, toks = second :: toks2
                  ∧ second.type_ = TokenType.Range ∧ second.lexeme_ = "..".toList))
    ∧ (Tokenize "1.5 .. 2".toList).map (List.map Token.shape)
        = Except.ok [(TokenType.FloatLiteral, "1.5".toList), (TokenType.Range, "..".toList),
            (TokenType.IntegerLiteral, "2".toList), (TokenType.EndOfFile, [])]
    ∧ (Tokenize "1..2".toList).map (List.map Token.shape)
        = Except.ok [(TokenType.IntegerLiteral, "1".toList), (TokenType.Range, "..".toList),
            (TokenType.IntegerLiteral, "2".toList), (TokenType.EndOfFile, [])]
    ∧ (Tokenize "1. 1.x".toList).map (List.map Token.shape)
        = Except.ok [(TokenType.FloatLiteral, "1.".toList), (TokenType.FloatLiteral, "1.".toList),
            (TokenType.Identifier, "x".toList), (TokenType.EndOfFile, [])] := by
  refine ⟨?_, rfl, rfl, rfl⟩
  obtain ⟨_, h2, h3⟩ := isdigit_facts c hc
  have hT := Tokenize_cons_of_startsToken c (d ++ rest) (startsToken_of c _ h2 h3)
  rw [scan_of_isdigit c _ hc] at hT
  have hN := numberScan_append c d rest hd hrest
  refine ⟨_, _, hT, ?_, ?_⟩
  · intro r hr hne
    subst hr
    have hne2 : look r 0 ≠ '.' := by
      cases r with
      | nil => simp
      | cons y r => simpa using hne
    rw [hN]
    simp [Token.new, hne2]
  · intro hall
    have hint : numberScan c (d ++ rest)
        = { type := TokenType.IntegerLiteral, lexeme := c :: d, start := [],
            used := c :: d, rest := rest } := by
      rw [hN]
      match rest, hall with
      | [], _ => simp
      | [x], hall =>
        by_cases hx : x = '.'
        · subst hx
          have := hall [] rfl
          simp at this
        · simp [hx]
      | x :: y :: r, hall =>
        by_cases hx : x = '.'
        · subst hx
          have := hall (y :: r) rfl
          simp only [List.head?_cons, Option.some.injEq] at this
          subst this
          simp
        · simp [hx]
    refine ⟨by rw [hint]; rfl, by rw [hint]; rfl, ?_⟩
    intro r hr
    subst hr
    simp only [hint]
    rw [tokensOf_cons_of_startsToken _ '.' ('.' :: r) (by simp [startsToken, isspace])]
    refine ⟨_, _, rfl, ?_, ?_⟩ <;> simp [Token.new, scan, switchScan, pairScan]

/-- Witness for C9 on the digits `12` followed by `.5x`. -/
theorem numeric_literal_classification_witness :
    (∃ first toks, Tokenize ('1' :: "2".toList ++ ".5x".toList) = Except.ok (first :: toks)
      ∧ (∀ r, ".5x".toList = '.' :: r → r.head? ≠ some '.' →
          first.type_ = TokenType.FloatLiteral
            ∧ first.lexeme_ = '1' :: "2".toList ++ '.' :: r.takeWhile isdigit)
      ∧ ((∀ r, ".5x".toList = '.' :: r → r.head? = some '.') →
          first.type_ = TokenType.IntegerLiteral ∧ first.lexeme_ = '1' :: "2".toList
            ∧ ∀ r, ".5x".toList = '.' :: '.' :: r →
                ∃ second toks2, toks = second :: toks2
                  ∧ second.type_ = TokenType.Range ∧ second.lexeme_ = "..".toList))
    ∧ (Tokenize "1.5 .. 2".toList).map (List.map Token.shape)
        = Except.ok [(TokenType.FloatLiteral, "1.5".toList), (TokenType.Range, "..".toList),
            (TokenType.IntegerLiteral, "2".toList), (TokenType.EndOfFile, [])]
    ∧ (Tokenize "1..2".toList).map (List.map Token.shape)
        = Except.ok [(TokenType.IntegerLiteral, "1".toList), (TokenType.Range, "..".toList),
            (TokenType.IntegerLiteral, "2".toList), (TokenType.EndOfFile, [])]
    ∧ (Tokenize "1. 1.x".toList).map (List.map Token.shape)
        = Except.ok [(TokenType.FloatLiteral, "1.".toList), (TokenType.FloatLiteral, "1.".toList),
            (TokenType.Identifier, "x".toList), (TokenType.EndOfFile, [])] :=
  numeric_literal_classification '1' "2".toList ".5x".toList (by decide) (by decide) (by decide)

theorem quotedSplit_of_quotesEscaped (b rest : List Char) (hb : quotesEscaped b = true) :
    quotedSplit '"' (b ++ '"' :: rest) = (unescape b, b, '"' :: rest) := by
  generalize hn : b.length = n
  induction n using Nat.strong_induction_on generalizing b with
  | _ n ih =>
    match b, hb, hn with
    | [], _, _ =>
      simp [quotedSplit_close, unescape]
    | [c], hb, _ =>
      by_cases hc : c = '\\'
      · subst hc
        simp [quotesEscaped] at hb
      · by_cases hq : c = '"'
        · subst hq
          simp [quotesEscaped] at hb
        · simp [quotedSplit_other _ _ _ hq hc, quotedSplit_close, unescape, hc]
    | c :: e :: b, hb, hn =>
      by_cases hc : c = '\\'
      · subst hc
        have hb2 : quotesEscaped b = true := by simpa [quotesEscaped] using hb
        have := ih b.length (by simp at hn; omega) b hb2 rfl
        simp [quotedSplit_escape, this, unescape]
      · by_cases hq : c = '"'
        · subst hq
          simp [quotesEscaped] at hb
        · have hb2 : quotesEscaped (e :: b) = true := by
            rw [quotesEscaped] at hb
            simpa [hc, hq] using hb
          have := ih (e :: b).length (by simp at hn ⊢; omega) (e :: b) hb2 rfl
          rw [List.cons_append, quotedSplit_other _ _ _ hq hc, this]
          simp [unescape, hc]

theorem scan_quote (cs : List Char) :
    scan '"' cs = quotedScan TokenType.StringLiteral '"' '"' cs := by
  simp [scan, switchScan, isdigit]

/-- C10. String escape handling is "drop the backslash, copy the next
character": for every body `b` in which every `"` is preceded by an escaping
backslash and which does not end in an escaping backslash, and for every
`rest`, the first token of `Tokenize ('"' ++ b ++ '"' ++ rest)` is a
`StringLiteral` with lexeme `unescape b`, and the tokens after it have the
types and lexemes of `Tokenize rest`. The written body `a\nb` yields the lexeme
`anb`, and `\"` inside the body does not close the literal. -/
theorem string_escape_handling (b rest : List Char) (hb : quotesEscaped b = true) :
    (∃ first toks toksRest, Tokenize ('"' :: b ++ '"' :: rest) = Except.ok (first :: toks)
      ∧ first.type_ = TokenType.StringLiteral ∧ first.lexeme_ = unescape b
      ∧ Tokenize rest = Except.ok toksRest
      ∧ toks.map Token.shape = toksRest.map Token.shape)
    ∧ unescape ['a', '\\', 'n', 'b'] = ['a', 'n', 'b']
    ∧ unescape ['a', '\\'] = ['a']
    ∧ (Tokenize ['"', 'a', '\\', 'n', 'b', '"']).map (List.map Token.shape)
        = Except.ok [(TokenType.StringLiteral, ['a', 'n', 'b']), (TokenType.EndOfFile, [])]
    ∧ (Tokenize ['"', 'a', '\\', '"', 'b', '"', ' ', 'c']).map (List.map Token.shape)
        = Except.ok [(TokenType.StringLiteral, ['a', '"', 'b']),
            (TokenType.Identifier, ['c']), (TokenType.EndOfFile, [])] := by
  refine ⟨?_, rfl, rfl, rfl, rfl⟩
  obtain ⟨toks, toksRest, e1, e2, e3⟩ :=
    first_token '"' (b ++ '"' :: rest) (by simp [startsToken, isspace])
  have hs : scan '"' (b ++ '"' :: rest)
      = { type := TokenType.StringLiteral, lexeme := unescape b, start := ['"'],
          used := '"' :: b ++ ['"'], rest := rest } := by
    rw [scan_quote]
    simp only [quotedScan, quotedSplit_of_quotesEscaped b rest hb]
    simp
  rw [hs] at e1 e2
  exact ⟨_, toks, toksRest, e1, rfl, rfl, e2, e3⟩

/-- Witness for C10 on the body `a\"b` followed by ` c`. -/
theorem string_escape_handling_witness :
    (∃ first toks toksRest,
      Tokenize ('"' :: ['a', '\\', '"', 'b'] ++ '"' :: [' ', 'c']) = Except.ok (first :: toks)
      ∧ first.type_ = TokenType.StringLiteral ∧ first.lexeme_ = unescape ['a', '\\', '"', 'b']
      ∧ Tokenize [' ', 'c'] = Except.ok toksRest
      ∧ toks.map Token.shape = toksRest.map Token.shape)
    ∧ unescape ['a', '\\', 'n', 'b'] = ['a', 'n', 'b']
    ∧ unescape ['a', '\\'] = ['a']
    ∧ (Tokenize ['"', 'a', '\\', 'n', 'b', '"']).map (List.map Token.shape)
        = Except.ok [(TokenType.StringLiteral, ['a', 'n', 'b']), (TokenType.EndOfFile, [])]
    ∧ (Tokenize ['"', 'a', '\\', '"', 'b', '"', ' ', 'c']).map (List.map Token.shape)
        = Except.ok [(TokenType.StringLiteral, ['a', '"', 'b']),
            (TokenType.Identifier, ['c']), (TokenType.EndOfFile, [])] :=
  string_escape_handling ['a', '\\', '"', 'b'] [' ', 'c'] (by decide)

theorem triviaSplit_line (n : Nat) (cs : List Char) :
    triviaSplit (n + 1) ('|' :: '|' :: cs)
      = ('|' :: '|' :: cs.takeWhile (fun x => x != '\n')
            ++ (triviaSplit n (cs.dropWhile (fun x => x != '\n'))).1,
          (triviaSplit n (cs.dropWhile (fun x => x != '\n'))).2) := by
  simp [triviaSplit, isspace]

theorem triviaSplit_block (n : Nat) (cs : List Char) :
    triviaSplit (n + 1) ('|' :: '-' :: '-' :: cs)
      = ('|' :: '-' :: '-' :: (blockSplit cs).1 ++ (triviaSplit n (blockSplit cs).2).1,
          (triviaSplit n (blockSplit cs).2).2) := by
  simp [triviaSplit, isspace]

theorem trivia_line (cs : List Char) :
    trivia ('|' :: '|' :: cs)
      = ('|' :: '|' :: cs.takeWhile (fun x => x != '\n')
            ++ (trivia (cs.dropWhile (fun x => x != '\n'))).1,
          (trivia (cs.dropWhile (fun x => x != '\n'))).2) := by
  have hlen := length_dropWhile_le (fun x => x != '\n') cs
  unfold trivia
  rw [triviaSplit_line, triviaSplit_fuel _ ((cs.dropWhile (fun x => x != '\n')).length + 1) _
    (by simp only [List.length_cons]; omega) (by simp)]

theorem trivia_block (cs : List Char) :
    trivia ('|' :: '-' :: '-' :: cs)
      = ('|' :: '-' :: '-' :: (blockSplit cs).1 ++ (trivia (blockSplit cs).2).1,
          (trivia (blockSplit cs).2).2) := by
  have hlen := blockSplit_length_le cs
  unfold trivia
  rw [triviaSplit_block, triviaSplit_fuel _ ((blockSplit cs).2.length + 1) _
    (by simp only [List.length_cons]; omega) (by simp)]

theorem quotedSplit_plain (q : Char) (t : List Char) (hq : q ∉ t) (hb : '\\' ∉ t) :
    quotedSplit q t = (t, t, []) := by
  induction t with
  | nil => exact quotedSplit_nil q
  | cons c t ih =>
    have hc1 : c ≠ q := fun h => hq (by simp [h])
    have hc2 : c ≠ '\\' := fun h => hb (by simp [h])
    rw [quotedSplit_other q c t hc1 hc2,
      ih (fun h => hq (List.mem_cons_of_mem _ h)) (fun h => hb (List.mem_cons_of_mem _ h))]

/-- C11. Unterminated string literal: for every text `t` that contains neither
`"` nor a backslash, `Tokenize ('"' ++ t)` is a result with exactly two tokens,
a `StringLiteral` with lexeme `t` followed by `EndOfFile`; no `Unknown` token and
no fault is produced. In particular `"unterminated` gives
`StringLiteral unterminated`, `EndOfFile`. -/
theorem unterminated_string_literal (t : List Char) (hq : '"' ∉ t) (hb : '\\' ∉ t) :
    (∃ str eof, Tokenize ('"' :: t) = Except.ok [str, eof]
      ∧ str.type_ = TokenType.StringLiteral ∧ str.lexeme_ = t
      ∧ eof.type_ = TokenType.EndOfFile)
    ∧ (Tokenize ('"' :: "unterminated".toList)).map (List.map Token.shape)
        = Except.ok [(TokenType.StringLiteral, "unterminated".toList),
            (TokenType.EndOfFile, [])] := by
  refine ⟨?_, rfl⟩
  have hs : scan '"' t
      = { type := TokenType.StringLiteral, lexeme := t, start := ['"'],
          used := '"' :: t, rest := [] } := by
    rw [scan_quote]
    simp [quotedScan, quotedSplit_plain '"' t hq hb]
  have hT := Tokenize_cons_of_startsToken '"' t (by simp [startsToken, isspace])
  rw [hs] at hT
  simp only [tokensOf_nil, List.nil_append] at hT
  exact ⟨_, _, hT, rfl, rfl, rfl⟩

/-- Witness for C11 on the text `ab || c`, which holds a comment marker. -/
theorem unterminated_string_literal_witness :
    (∃ str eof, Tokenize ('"' :: "ab || c".toList) = Except.ok [str, eof]
      ∧ str.type_ = TokenType.StringLiteral ∧ str.lexeme_ = "ab || c".toList
      ∧ eof.type_ = TokenType.EndOfFile)
    ∧ (Tokenize ('"' :: "unterminated".toList)).map (List.map Token.shape)
        = Except.ok [(TokenType.StringLiteral, "unterminated".toList),
            (TokenType.EndOfFile, [])] :=
  unterminated_string_literal "ab || c".toList (by decide) (by decide)

theorem scan_start_cases (c : Char) (cs : List Char) :
    (scan c cs).start = [] ∨ (scan c cs).start = [c] := by
  refine scan_cases (fun sc => sc.start = [] ∨ sc.start = [c]) c cs ?_ ?_ ?_ ?_ ?_ ?_ ?_ ?_ ?_
  · intro _ _ _
    exact Or.inl rfl
  · intro next long short ll sl _
    unfold pairScan
    split <;> exact Or.inl rfl
  · intro _
    unfold lessScan
    split_ifs <;> exact Or.inl rfl
  · intro _
    unfold questionScan
    split_ifs <;> exact Or.inl rfl
  · intro _
    unfold numberScan
    simp only
    split_ifs <;> exact Or.inl rfl
  · intro _; exact Or.inr rfl
  · intro _; exact Or.inr rfl
  · intro _; exact Or.inl rfl
  · intro _ _ _ _ _; exact Or.inl rfl

theorem TokenLocation.next_lineBelow (loc : TokenLocation) (c : Char) :
    loc.lineBelow.next c = (loc.next c).lineBelow := by
  unfold TokenLocation.next TokenLocation.lineBelow
  split <;> rfl

theorem TokenLocation.after_lineBelow (loc : TokenLocation) (cs : List Char) :
    loc.lineBelow.after cs = (loc.after cs).lineBelow := by
  induction cs generalizing loc with
  | nil => rfl
  | cons c cs ih =>
    rw [TokenLocation.after_cons, TokenLocation.after_cons, TokenLocation.next_lineBelow, ih]

theorem tokensOf_lineBelow (loc : TokenLocation) (cs : List Char) :
    tokensOf loc.lineBelow cs = (tokensOf loc cs).map Token.lineBelow := by
  refine tokensOf_induct
    (fun loc cs ts => tokensOf loc.lineBelow cs = ts.map Token.lineBelow) ?_ ?_ loc cs
  · intro loc cs h
    rw [tokensOf_of_rest_nil _ cs h]
    rfl
  · intro loc cs c cs1 h ih
    rw [tokensOf_of_rest_cons _ cs c cs1 h]
    simp only [TokenLocation.after_lineBelow, ih, List.map_cons]
    rfl

theorem after_no_newline (loc : TokenLocation) (t : List Char) (ht : '\n' ∉ t) :
    (loc.after t).line = loc.line := by
  induction t generalizing loc with
  | nil => rfl
  | cons c t ih =>
    have hc : c ≠ '\n' := fun h => ht (by simp [h])
    rw [TokenLocation.after_cons, ih _ (fun h => ht (List.mem_cons_of_mem _ h))]
    simp [TokenLocation.next, hc]

theorem after_line_comment (t : List Char) (ht : '\n' ∉ t) :
    TokenLocation.after { line := 1, column := 1 } ('|' :: '|' :: t ++ ['\n'])
      = TokenLocation.lineBelow { line := 1, column := 1 } := by
  have h2 : '\n' ∉ '|' :: '|' :: t := by
    simp only [List.mem_cons, not_or]
    exact ⟨by decide, by decide, ht⟩
  have h3 := after_no_newline { line := 1, column := 1 } _ h2
  rw [TokenLocation.after_append]
  show (TokenLocation.after { line := 1, column := 1 } ('|' :: '|' :: t)).next '\n' = _
  unfold TokenLocation.next TokenLocation.lineBelow
  rw [if_pos rfl, h3]

theorem takeWhile_line (t rest : List Char) (ht : '\n' ∉ t) :
    (t ++ '\n' :: rest).takeWhile (fun x => x != '\n') = t
      ∧ (t ++ '\n' :: rest).dropWhile (fun x => x != '\n') = '\n' :: rest := by
  refine takeWhile_append_of_all _ t _ ?_ ?_
  · intro x hx
    have : x ≠ '\n' := fun h => ht (h ▸ hx)
    simpa using this
  · intro x hx
    simp only [List.head?_cons, Option.some.injEq] at hx
    subst hx
    rfl

theorem line_comment_tokens (t rest : List Char) (ht : '\n' ∉ t) :
    Tokenize ('|' :: '|' :: t ++ '\n' :: rest)
      = Except.ok ((tokensOf { line := 1, column := 1 } rest
          ++ [Token.new TokenType.EndOfFile []
                (TokenLocation.after { line := 1, column := 1 } rest)]).map
          Token.lineBelow) := by
  obtain ⟨h1, h2⟩ := takeWhile_line t rest ht
  have htr : trivia (('|' :: '|' :: t ++ ['\n']) ++ rest)
      = (('|' :: '|' :: t ++ ['\n']) ++ (trivia rest).1, (trivia rest).2) := by
    have e : ('|' :: '|' :: t ++ ['\n']) ++ rest = '|' :: '|' :: (t ++ '\n' :: rest) := by
      simp
    rw [e, trivia_line, h1, h2, trivia_space '\n' rest (by decide)]
    simp
  have hloc : ∀ x, TokenLocation.after { line := 1, column := 1 }
      (('|' :: '|' :: t ++ ['\n']) ++ x)
        = (TokenLocation.lineBelow { line := 1, column := 1 }).after x := by
    intro x
    rw [TokenLocation.after_append _ ('|' :: '|' :: t ++ ['\n']) x, after_line_comment t ht]
  have e2 : '|' :: '|' :: t ++ '\n' :: rest = ('|' :: '|' :: t ++ ['\n']) ++ rest := by simp
  rw [e2, Tokenize_eq, tokensOf_skip _ _ _ htr, hloc rest, after_line_comment t ht,
    tokensOf_lineBelow, TokenLocation.after_lineBelow]
  simp [Token.lineBelow, Token.new]

theorem tokensOf_located (loc : TokenLocation) (cs : List Char) :
    ∀ t ∈ tokensOf loc cs, ∃ p, p <+: cs ∧ t.location_ = loc.after p := by
  refine tokensOf_induct
    (fun loc cs ts => ∀ t ∈ ts, ∃ p, p <+: cs ∧ t.location_ = loc.after p) ?_ ?_ loc cs
  · intro _ _ _ t ht
    simp at ht
  · intro loc cs c cs1 h ih t ht
    have happ := trivia_append cs
    rw [h] at happ
    have hused := scan_used_append c cs1
    rcases List.mem_cons.mp ht with rfl | ht
    · obtain ⟨u, hu, _⟩ := scan_spec c cs1
      rcases scan_start_cases c cs1 with hs | hs
      · refine ⟨(trivia cs).1, ⟨c :: cs1, happ⟩, ?_⟩
        simp only [Token.new, hs, TokenLocation.after_nil]
      · refine ⟨(trivia cs).1 ++ [c], ⟨cs1, by rw [List.append_assoc]; exact happ⟩, ?_⟩
        simp only [Token.new, hs, TokenLocation.after_append]
    · obtain ⟨p, ⟨r, hp⟩, hloc⟩ := ih t ht
      refine ⟨(trivia cs).1 ++ (scan c cs1).used ++ p, ⟨r, ?_⟩, ?_⟩
      · rw [List.append_assoc, List.append_assoc, hp, hused, happ]
      · rw [hloc, TokenLocation.after_append, TokenLocation.after_append]

theorem tokens_line_le (cs : List Char) (h : cs.count '\n' < 2147483647) :
    ∀ t ∈ tokensOf { line := 1, column := 1 } cs
        ++ [Token.new TokenType.EndOfFile [] (TokenLocation.after { line := 1, column := 1 } cs)],
      1 ≤ t.location_.line ∧ t.location_.line ≤ 1 + (cs.count '\n' : Int) := by
  have key : ∀ p : List Char, p <+: cs →
      1 ≤ (TokenLocation.after { line := 1, column := 1 } p).line
        ∧ (TokenLocation.after { line := 1, column := 1 } p).line ≤ 1 + (cs.count '\n' : Int) := by
    intro p hp
    have hle : p.count '\n' ≤ cs.count '\n' := hp.sublist.count_le _
    rw [after_eq_wrap_locOf]
    show 1 ≤ intWrap (1 + (p.count '\n' : Int)) ∧ intWrap (1 + (p.count '\n' : Int)) ≤ _
    rw [intWrap_of_range _ (by omega) (by omega)]
    omega
  intro t ht
  rcases List.mem_append.mp ht with ht | ht
  · obtain ⟨p, hp, hloc⟩ := tokensOf_located _ cs t ht
    rw [hloc]
    exact key p hp
  · simp only [List.mem_singleton] at ht
    subst ht
    exact key cs (List.prefix_refl _)

/-- C12, counterexample. With an empty comment text and `rest` made of
`2^31 - 2` newlines followed by `x`, the identifier and `EndOfFile` are on line
`2147483647` in `Tokenize rest` and on line `-2147483648` in the commented
source, not on line `2147483648`: the line, an `int`, has passed `INT_MAX`. -/
theorem line_comment_elision_counterexample :
    '\n' ∉ ([] : List Char)
      ∧ ∃ toks toksRest,
        Tokenize ('|' :: '|' :: [] ++ '\n' :: (List.replicate 2147483646 '\n' ++ ['x']))
            = Except.ok toks
          ∧ Tokenize (List.replicate 2147483646 '\n' ++ ['x']) = Except.ok toksRest
          ∧ toksRest.map Token.getLocation
              = [{ line := 2147483647, column := 1 }, { line := 2147483647, column := 2 }]
          ∧ toks.map Token.getLocation
              = [{ line := -2147483648, column := 1 }, { line := -2147483648, column := 2 }]
          ∧ toks.map Token.getLocation
              ≠ toksRest.map (fun x => { line := x.location_.line + 1,
                                         column := x.location_.column }) := by
  have hloc := locOf_replicate_newline 2147483646
  have hrest := Tokenize_replicate_x '\n' rfl 2147483646
  rw [hloc] at hrest
  have hc := line_comment_tokens [] (List.replicate 2147483646 '\n' ++ ['x']) (by simp)
  have hinj := (Tokenize_eq (List.replicate 2147483646 '\n' ++ ['x'])).symm.trans hrest
  rw [Except.ok.injEq] at hinj
  rw [hinj] at hc
  refine ⟨by simp, _, _, hc, hrest, rfl, rfl, ?_⟩
  decide

/-- C12, amended. Line comment elision: for every text `t` without a newline and
every `rest` with fewer than `2^31 - 2` newlines,
`Tokenize ("||" ++ t ++ "\n" ++ rest)` has as many tokens as `Tokenize rest`,
with the same types and lexemes in the same order, and the location of each
token has the same column and a line number larger by one; and
`Tokenize ("||" ++ t)` is the single token `EndOfFile`. The tokens do not depend
on `t`. -/
theorem line_comment_elision (t rest : List Char) (ht : '\n' ∉ t)
    (hr : rest.count '\n' < 2147483646) :
    (∃ toks toksRest, Tokenize ('|' :: '|' :: t ++ '\n' :: rest) = Except.ok toks
      ∧ Tokenize rest = Except.ok toksRest
      ∧ toks.length = toksRest.length
      ∧ toks.map Token.shape = toksRest.map Token.shape
      ∧ toks.map Token.getLocation
          = toksRest.map (fun x => { line := x.location_.line + 1,
                                     column := x.location_.column }))
    ∧ (∃ eof, Tokenize ('|' :: '|' :: t) = Except.ok [eof]
        ∧ eof.type_ = TokenType.EndOfFile ∧ eof.lexeme_ = []) := by
  constructor
  · refine ⟨_, _, line_comment_tokens t rest ht, Tokenize_eq rest, by simp, ?_, ?_⟩
    · simp only [List.map_map]
      rfl
    · rw [List.map_map]
      refine List.map_congr_left ?_
      intro x hx
      have hl := tokens_line_le rest (by omega) x hx
      show ({ line := intWrap (x.location_.line + 1), column := x.location_.column }
        : TokenLocation) = _
      rw [intWrap_of_range _ (by omega) (by omega)]
  · have h2 : (t.dropWhile (fun x => x != '\n')) = [] := by
      rw [List.dropWhile_eq_nil_iff]
      intro x hx
      have : x ≠ '\n' := fun h => ht (h ▸ hx)
      simpa using this
    have htr : (trivia ('|' :: '|' :: t)).2 = [] := by
      rw [trivia_line, h2, trivia_nil]
    have hT : Tokenize ('|' :: '|' :: t)
        = Except.ok [Token.new TokenType.EndOfFile []
            (TokenLocation.after { line := 1, column := 1 } ('|' :: '|' :: t))] := by
      rw [Tokenize_eq, tokensOf_of_rest_nil _ _ htr]
      rfl
    exact ⟨_, hT, rfl, rfl⟩

/-- Witness for C12 on the comment text ` note` followed by `x = 1`. -/
theorem line_comment_elision_witness :
    (∃ toks toksRest,
      Tokenize ('|' :: '|' :: " note".toList ++ '\n' :: "x = 1".toList) = Except.ok toks
      ∧ Tokenize "x = 1".toList = Except.ok toksRest
      ∧ toks.length = toksRest.length
      ∧ toks.map Token.shape = toksRest.map Token.shape
      ∧ toks.map Token.getLocation
          = toksRest.map (fun x => { line := x.location_.line + 1,
                                     column := x.location_.column }))
    ∧ (∃ eof, Tokenize ('|' :: '|' :: " note".toList) = Except.ok [eof]
        ∧ eof.type_ = TokenType.EndOfFile ∧ eof.lexeme_ = []) :=
  line_comment_elision " note".toList "x = 1".toList (by decide) (by decide)

theorem blockSplit_cons_of_not (c : Char) (cs : List Char)
    (h : ¬ (c = '-' ∧ look cs 0 = '-' ∧ look cs 1 = '|')) :
    blockSplit (c :: cs) = (c :: (blockSplit cs).1, (blockSplit cs).2) := by
  rw [blockSplit]
  have h2 : ¬ ((decide (c = '-') && decide (look cs 0 = '-') && decide (look cs 1 = '|'))
      = true) := by
    simpa [and_assoc] using h
  simp only [h2, Bool.false_eq_true, if_false]

theorem not_infix_tail (c : Char) (b : List Char) (h : ¬ ("--|".toList <:+: c :: b)) :
    ¬ ("--|".toList <:+: b) :=
  fun hb => h (List.infix_cons hb)

theorem blockSplit_closed (body rest : List Char) (h : ¬ ("--|".toList <:+: body)) :
    blockSplit (body ++ '-' :: '-' :: '|' :: rest) = (body ++ ['-', '-', '|'], rest) := by
  induction body with
  | nil => simp [blockSplit]
  | cons c b ih =>
    have hno : ¬ (c = '-' ∧ look (b ++ '-' :: '-' :: '|' :: rest) 0 = '-'
        ∧ look (b ++ '-' :: '-' :: '|' :: rest) 1 = '|') := by
      match b, h with
      | [], _ => simp
      | [d], _ => simp
      | d :: e :: b2, h =>
        rintro ⟨h1, h2, h3⟩
        simp only [List.cons_append, look_cons_zero, look_cons_succ] at h2 h3
        subst h1 h2 h3
        exact h (List.IsPrefix.isInfix ⟨b2, rfl⟩)
    rw [List.cons_append, blockSplit_cons_of_not _ _ hno, ih (not_infix_tail c b h)]
    rfl

theorem blockSplit_open (body : List Char) (h : ¬ ("--|".toList <:+: body)) :
    blockSplit body = (body, []) := by
  induction body with
  | nil => rfl
  | cons c b ih =>
    have hno : ¬ (c = '-' ∧ look b 0 = '-' ∧ look b 1 = '|') := by
      match b, h with
      | [], _ => simp
      | [d], _ => simp
      | d :: e :: b2, h =>
        rintro ⟨h1, h2, h3⟩
        simp only [look_cons_zero, look_cons_succ] at h2 h3
        subst h1 h2 h3
        exact h (List.IsPrefix.isInfix ⟨b2, rfl⟩)
    rw [blockSplit_cons_of_not _ _ hno, ih (not_infix_tail c b h)]

/-- C13. Block comment elision: for every `body` that does not contain `--|`
and every `rest`, `Tokenize ("|--" ++ body ++ "--|" ++ rest)` has the same token
types and lexemes, in the same order, as `Tokenize rest`; `skipBlockComment`,
started after the opener, stops exactly behind the first `--|`, at offset
`3 + length body + 3`, also when `body` is empty or ends in `-`. -/
theorem block_comment_elision (body rest : List Char) (h : ¬ ("--|".toList <:+: body)) :
    (∃ toks toksRest,
      Tokenize ('|' :: '-' :: '-' :: (body ++ '-' :: '-' :: '|' :: rest)) = Except.ok toks
      ∧ Tokenize rest = Except.ok toksRest
      ∧ toks.map Token.shape = toksRest.map Token.shape)
    ∧ (∀ loc : TokenLocation, ∃ l,
        Lexer.skipBlockComment
            { source_ := ['|', '-', '-'] ++ (body ++ '-' :: '-' :: '|' :: rest),
              position_ := 3, location_ := loc }
          = Except.ok l
        ∧ l.position_ = 3 + body.length + 3)
    ∧ (Tokenize "|----| x".toList).map (List.map Token.shape)
        = Except.ok [(TokenType.Identifier, "x".toList), (TokenType.EndOfFile, [])]
    ∧ (Tokenize "|-- a---| x".toList).map (List.map Token.shape)
        = Except.ok [(TokenType.Identifier, "x".toList), (TokenType.EndOfFile, [])] := by
  have hb := blockSplit_closed body rest h
  refine ⟨?_, ?_, rfl, rfl⟩
  · have htr : trivia (('|' :: '-' :: '-' :: body ++ ['-', '-', '|']) ++ rest)
        = (('|' :: '-' :: '-' :: body ++ ['-', '-', '|']) ++ (trivia rest).1,
            (trivia rest).2) := by
      have e : ('|' :: '-' :: '-' :: body ++ ['-', '-', '|']) ++ rest
          = '|' :: '-' :: '-' :: (body ++ '-' :: '-' :: '|' :: rest) := by simp
      rw [e, trivia_block, hb]
      simp
    have e2 : '|' :: '-' :: '-' :: (body ++ '-' :: '-' :: '|' :: rest)
        = ('|' :: '-' :: '-' :: body ++ ['-', '-', '|']) ++ rest := by simp
    rw [e2]
    obtain ⟨toksRest, h1, h2⟩ := Tokenize_shape_rest
      (TokenLocation.after { line := 1, column := 1 } ('|' :: '-' :: '-' :: body ++ ['-', '-', '|']))
      (TokenLocation.after { line := 1, column := 1 }
        (('|' :: '-' :: '-' :: body ++ ['-', '-', '|']) ++ rest)) rest
    refine ⟨_, toksRest, ?_, h1, h2⟩
    rw [Tokenize_eq, tokensOf_skip _ _ _ htr]
  · intro loc
    have hl := Lexer.skipBlockComment_atSplit ['|', '-', '-']
      (body ++ '-' :: '-' :: '|' :: rest) loc
    rw [hb] at hl
    refine ⟨_, hl, ?_⟩
    simp only [Lexer.atSplit_position, List.length_append, List.length_cons, List.length_nil]
    omega

/-- Witness for C13 on the body ` a-` followed by ` x`. -/
theorem block_comment_elision_witness :
    (∃ toks toksRest,
      Tokenize ('|' :: '-' :: '-' :: (" a-".toList ++ '-' :: '-' :: '|' :: " x".toList))
        = Except.ok toks
      ∧ Tokenize " x".toList = Except.ok toksRest
      ∧ toks.map Token.shape = toksRest.map Token.shape)
    ∧ (∀ loc : TokenLocation, ∃ l,
        Lexer.skipBlockComment
            { source_ := ['|', '-', '-'] ++ (" a-".toList ++ '-' :: '-' :: '|' :: " x".toList),
              position_ := 3, location_ := loc }
          = Except.ok l
        ∧ l.position_ = 3 + " a-".toList.length + 3)
    ∧ (Tokenize "|----| x".toList).map (List.map Token.shape)
        = Except.ok [(TokenType.Identifier, "x".toList), (TokenType.EndOfFile, [])]
    ∧ (Tokenize "|-- a---| x".toList).map (List.map Token.shape)
        = Except.ok [(TokenType.Identifier, "x".toList), (TokenType.EndOfFile, [])] :=
  block_comment_elision " a-".toList " x".toList (by decide)

/-- C14. Unterminated block comment: for every `body` that does not contain
`--|`, `Tokenize ("|--" ++ body)` is the single token `EndOfFile`: the comment
consumes the rest of the input and no other token, in particular no `Unknown`
token, is produced. The `|` of the opener is not reused in a closing marker:
`Tokenize "|--|"` is the single token `EndOfFile` too. -/
theorem unterminated_block_comment (body : List Char) (h : ¬ ("--|".toList <:+: body)) :
    (∃ eof, Tokenize ('|' :: '-' :: '-' :: body) = Except.ok [eof]
      ∧ eof.type_ = TokenType.EndOfFile ∧ eof.lexeme_ = [])
    ∧ (Tokenize "|--|".toList).map (List.map Token.shape)
        = Except.ok [(TokenType.EndOfFile, [])]
    ∧ (Tokenize "|-- x y -- |".toList).map (List.map Token.shape)
        = Except.ok [(TokenType.EndOfFile, [])] := by
  refine ⟨?_, rfl, rfl⟩
  have htr : (trivia ('|' :: '-' :: '-' :: body)).2 = [] := by
    rw [trivia_block, blockSplit_open body h, trivia_nil]
  have hT : Tokenize ('|' :: '-' :: '-' :: body)
      = Except.ok [Token.new TokenType.EndOfFile []
          (TokenLocation.after { line := 1, column := 1 } ('|' :: '-' :: '-' :: body))] := by
    rw [Tokenize_eq, tokensOf_of_rest_nil _ _ htr]
    rfl
  exact ⟨_, hT, rfl, rfl⟩

/-- Witness for C14 on the body ` x "y" -- |`. -/
theorem unterminated_block_comment_witness :
    (∃ eof, Tokenize ('|' :: '-' :: '-' :: [' ', 'x', ' ', '"', 'y', '"', ' ', '-', '-', ' ', '|'])
        = Except.ok [eof]
      ∧ eof.type_ = TokenType.EndOfFile ∧ eof.lexeme_ = [])
    ∧ (Tokenize "|--|".toList).map (List.map Token.shape)
        = Except.ok [(TokenType.EndOfFile, [])]
    ∧ (Tokenize "|-- x y -- |".toList).map (List.map Token.shape)
        = Except.ok [(TokenType.EndOfFile, [])] :=
  unterminated_block_comment [' ', 'x', ' ', '"', 'y', '"', ' ', '-', '-', ' ', '|'] (by decide)

theorem scan_unknown (c : Char) (rest : List Char) (h2 : isdigit c = false)
    (h3 : isalpha c = false) (h4 : c ≠ '_') (h5 : c ≠ '"') (h6 : c ≠ '\'')
    (h7 : c ∉ switchChars) :
    scan c rest
      = { type := TokenType.Unknown, lexeme := [c], start := [], used := [c], rest := rest } := by
  have ha : c ≠ '@' := fun h => h7 (by rw [h]; decide)
  have hh : c ≠ '#' := fun h => h7 (by rw [h]; decide)
  unfold scan
  rw [switchScan_eq_none c rest h7]
  simp [h2, h3, h4, h5, h6, ha, hh]

/-- C15. Unknown character: for every character `c` that is not ASCII
whitespace, not an ASCII digit or letter, not `_`, `"` or `'`, and not one of
the 24 operator and punctuation characters, `Tokenize` of the one-character
source `c` is `Unknown` with lexeme `c` at `1:1` followed by `EndOfFile` at
`1:2`; after an `Unknown` token scanning goes on with the rest as usual; and a
`?` that is followed neither by `+` nor by `?` yields `Unknown` with lexeme
`?`. Examples are `$`, `~`, `^`, the backquote and the backslash. -/
theorem unknown_character (c : Char) (h1 : isspace c = false) (h2 : isdigit c = false)
    (h3 : isalpha c = false) (h4 : c ≠ '_') (h5 : c ≠ '"') (h6 : c ≠ '\'')
    (h7 : c ∉ ['+', '-', '*', '/', '%', '=', '!', '<', '>', '?', '&', '|', ':', '.', '(', ')',
      '\x7b', '\x7d', '[', ']', ',', ';', '@', '#']) :
    Tokenize [c]
        = Except.ok [Token.new TokenType.Unknown [c] { line := 1, column := 1 },
            Token.new TokenType.EndOfFile [] { line := 1, column := 2 }]
    ∧ (∀ rest, ∃ toks toksRest,
        Tokenize (c :: rest)
          = Except.ok (Token.new TokenType.Unknown [c] { line := 1, column := 1 } :: toks)
        ∧ Tokenize rest = Except.ok toksRest
        ∧ toks.map Token.shape = toksRest.map Token.shape)
    ∧ (∀ rest, (∀ d, rest.head? = some d → d ≠ '+' ∧ d ≠ '?') → ∃ toks toksRest,
        Tokenize ('?' :: rest)
          = Except.ok (Token.new TokenType.Unknown ['?'] { line := 1, column := 1 } :: toks)
        ∧ Tokenize rest = Except.ok toksRest
        ∧ toks.map Token.shape = toksRest.map Token.shape)
    ∧ ['$', '~', '^', '\x60', '\\'].map (fun x => Tokenize [x])
        = ['$', '~', '^', '\x60', '\\'].map (fun x =>
            Except.ok [Token.new TokenType.Unknown [x] { line := 1, column := 1 },
              Token.new TokenType.EndOfFile [] { line := 1, column := 2 }]) := by
  have h7s : c ∉ switchChars := h7
  have hbar : c ≠ '|' := fun h => h7s (by rw [h]; decide)
  have hnl : c ≠ '\n' := by
    rintro rfl
    exact absurd h1 (by decide)
  have hst : ∀ rest, startsToken c rest = true := fun rest => startsToken_of c rest h1 hbar
  have hsc := fun rest => scan_unknown c rest h2 h3 h4 h5 h6 h7s
  refine ⟨?_, ?_, ?_, rfl⟩
  · rw [Tokenize_cons_of_startsToken c [] (hst []), hsc []]
    simp [tokensOf_nil, TokenLocation.next, hnl]
    rfl
  · intro rest
    obtain ⟨toks, toksRest, e1, e2, e3⟩ := first_token c rest (hst rest)
    rw [hsc rest] at e1 e2
    exact ⟨toks, toksRest, e1, e2, e3⟩
  · intro rest hrest
    obtain ⟨toks, toksRest, e1, e2, e3⟩ :=
      first_token '?' rest (by simp [startsToken, isspace])
    have hq : scan '?' rest
        = { type := TokenType.Unknown, lexeme := ['?'], start := [], used := ['?'],
            rest := rest } := by
      cases rest with
      | nil => simp [scan, switchScan, questionScan]
      | cons d ds =>
        obtain ⟨hd1, hd2⟩ := hrest d rfl
        simp [scan, switchScan, questionScan, hd1, hd2]
    rw [hq] at e1 e2
    exact ⟨toks, toksRest, e1, e2, e3⟩

/-- Witness for C15 on the character `$`. -/
theorem unknown_character_witness :
    Tokenize ['$']
        = Except.ok [Token.new TokenType.Unknown ['$'] { line := 1, column := 1 },
            Token.new TokenType.EndOfFile [] { line := 1, column := 2 }]
    ∧ (∀ rest, ∃ toks toksRest,
        Tokenize ('$' :: rest)
          = Except.ok (Token.new TokenType.Unknown ['$'] { line := 1, column := 1 } :: toks)
        ∧ Tokenize rest = Except.ok toksRest
        ∧ toks.map Token.shape = toksRest.map Token.shape)
    ∧ (∀ rest, (∀ d, rest.head? = some d → d ≠ '+' ∧ d ≠ '?') → ∃ toks toksRest,
        Tokenize ('?' :: rest)
          = Except.ok (Token.new TokenType.Unknown ['?'] { line := 1, column := 1 } :: toks)
        ∧ Tokenize rest = Except.ok toksRest
        ∧ toks.map Token.shape = toksRest.map Token.shape)
    ∧ ['$', '~', '^', '\x60', '\\'].map (fun x => Tokenize [x])
        = ['$', '~', '^', '\x60', '\\'].map (fun x =>
            Except.ok [Token.new TokenType.Unknown [x] { line := 1, column := 1 },
              Token.new TokenType.EndOfFile [] { line := 1, column := 2 }]) :=
  unknown_character '$' (by decide) (by decide) (by decide) (by decide) (by decide)
    (by decide) (by decide)

/-- C16. Fixed single-character tokens: for each of the ten characters
`( ) { } [ ] , ; @ #` with its token type and for every `rest`, the first token
of `Tokenize (c :: rest)` has that type, the lexeme `c` and the location `1:1`,
`scanToken` leaves the cursor at offset `1`, and the tokens after the first have
the types and lexemes of `Tokenize rest`. -/
theorem fixed_single_character_tokens (c : Char) (type : TokenType) (rest : List Char)
    (h : (c, type) ∈ [('(', TokenType.LeftParen), (')', TokenType.RightParen),
      ('\x7b', TokenType.LeftBrace), ('\x7d', TokenType.RightBrace),
      ('[', TokenType.LeftBracket), (']', TokenType.RightBracket), (',', TokenType.Comma),
      (';', TokenType.Semicolon), ('@', TokenType.At), ('#', TokenType.Hash)]) :
    ∃ toks toksRest after,
      Tokenize (c :: rest)
        = Except.ok (Token.new type [c] { line := 1, column := 1 } :: toks)
      ∧ (Lexer.new (c :: rest)).scanToken
          = Except.ok (Token.new type [c] { line := 1, column := 1 }, after)
      ∧ after.position_ = 1
      ∧ Tokenize rest = Except.ok toksRest
      ∧ toks.map Token.shape = toksRest.map Token.shape := by
  have key : ∀ (x : Char) (ty : TokenType), startsToken x rest = true →
      scan x rest = singleScan x ty [x] rest →
      ∃ toks toksRest after,
        Tokenize (x :: rest)
          = Except.ok (Token.new ty [x] { line := 1, column := 1 } :: toks)
        ∧ (Lexer.new (x :: rest)).scanToken
            = Except.ok (Token.new ty [x] { line := 1, column := 1 }, after)
        ∧ after.position_ = 1
        ∧ Tokenize rest = Except.ok toksRest
        ∧ toks.map Token.shape = toksRest.map Token.shape := by
    intro x ty hs hsc
    obtain ⟨toks, toksRest, e1, e2, e3⟩ := first_token x rest hs
    have e4 := scanToken_new x rest hs
    rw [hsc] at e1 e2 e4
    exact ⟨toks, toksRest, _, e1, e4, rfl, e2, e3⟩
  simp only [List.mem_cons, Prod.mk.injEq, List.mem_singleton, List.not_mem_nil, or_false] at h
  rcases h with h | h | h | h | h | h | h | h | h | h
  all_goals
    obtain ⟨hc, hty⟩ := h
    subst hc hty
    exact key _ _ (by simp [startsToken, isspace]) (by simp [scan, switchScan, singleScan])

/-- Witness for C16 on `@` followed by `abc`. -/
theorem fixed_single_character_tokens_witness :
    ∃ toks toksRest after,
      Tokenize ('@' :: "abc".toList)
        = Except.ok (Token.new TokenType.At ['@'] { line := 1, column := 1 } :: toks)
      ∧ (Lexer.new ('@' :: "abc".toList)).scanToken
          = Except.ok (Token.new TokenType.At ['@'] { line := 1, column := 1 }, after)
      ∧ after.position_ = 1
      ∧ Tokenize "abc".toList = Except.ok toksRest
      ∧ toks.map Token.shape = toksRest.map Token.shape :=
  fixed_single_character_tokens '@' TokenType.At "abc".toList (by decide)

/-- C17 (the code at the failing inputs). A leading `@` or `#` never reaches
the identifier branch of `scanToken`: the `switch` has a case for each of them
and returns the one-character token `At` or `Hash`. So `@abc` gives `At @`,
`Identifier abc`, `EndOfFile`, and `#x1` gives `Hash #`, `Identifier x1`,
`EndOfFile`, not one `Identifier` token with the whole text. -/
theorem at_and_hash_never_open_an_identifier :
    (∀ (tokenStart : TokenLocation) (l : Lexer),
        Lexer.scanSwitch '@' tokenStart l
          = some (Except.ok (Token.new TokenType.At ['@'] tokenStart, l))
        ∧ Lexer.scanSwitch '#' tokenStart l
          = some (Except.ok (Token.new TokenType.Hash ['#'] tokenStart, l)))
    ∧ (Tokenize "@abc".toList).map (List.map Token.shape)
        = Except.ok [(TokenType.At, "@".toList), (TokenType.Identifier, "abc".toList),
            (TokenType.EndOfFile, [])]
    ∧ (Tokenize "#x1".toList).map (List.map Token.shape)
        = Except.ok [(TokenType.Hash, "#".toList), (TokenType.Identifier, "x1".toList),
            (TokenType.EndOfFile, [])] :=
  ⟨fun _ _ => ⟨rfl, rfl⟩, rfl, rfl⟩

/-- C18 (the code at the failing inputs). The location of a string or
character literal token is read in `stringLiteral` / `charLiteral`, after the
opening quote was consumed: the first token of `"ab"` is located at `1:2`, not
at `1:1` where the `"` stands, and after two blanks the token of `'x'` is
located at `1:4` while its `'` stands at `1:3`. -/
theorem literal_location_is_after_the_quote :
    (Tokenize ['"', 'a', 'b', '"']).map (List.map (fun t => (t.type_, t.location_)))
        = Except.ok [(TokenType.StringLiteral, { line := 1, column := 2 }),
            (TokenType.EndOfFile, { line := 1, column := 5 })]
    ∧ (Tokenize [' ', ' ', '\'', 'x', '\'']).map (List.map (fun t => (t.type_, t.location_)))
        = Except.ok [(TokenType.CharLiteral, { line := 1, column := 4 }),
            (TokenType.EndOfFile, { line := 1, column := 6 })]
    ∧ locOf [' ', ' '] = { line := 1, column := 3 } :=
  ⟨rfl, rfl, rfl⟩

theorem lastLineLength_of_no_newline (s : List Char) (hs : '\n' ∉ s) :
    lastLineLength s = s.length := by
  unfold lastLineLength
  have h : s.reverse.takeWhile (fun c => c != '\n') = s.reverse := by
    rw [List.takeWhile_eq_self_iff]
    intro x hx
    have : x ≠ '\n' := fun e => hs (e ▸ List.mem_reverse.mp hx)
    simpa using this
  rw [h, List.length_reverse]

theorem Tokenize_replicate (c : Char) (hc : isspace c = true) (n : Nat) :
    Tokenize (List.replicate n c)
      = Except.ok [Token.new TokenType.EndOfFile [] (locOf (List.replicate n c)).wrap] := by
  have ht := trivia_replicate c hc n []
  rw [trivia_nil, List.append_nil] at ht
  rw [Tokenize_eq, tokensOf_of_rest_nil _ _ (by rw [ht]), after_eq_wrap_locOf]
  rfl

/-- C19, counterexample. On the source made of `2^31 - 1` blanks the single
token `EndOfFile` is located at `1:-2147483648`, while `1 +` the number of
characters of the source is `2147483648`: the column, an `int`, has passed
`INT_MAX`. -/
theorem endOfFile_location_counterexample :
    ∃ eof, Tokenize (List.replicate 2147483647 ' ') = Except.ok [eof]
      ∧ eof.type_ = TokenType.EndOfFile
      ∧ eof.location_ = { line := 1, column := -2147483648 }
      ∧ (1 : Int) + lastLineLength (List.replicate 2147483647 ' ') = 2147483648
      ∧ eof.location_.column ≠ 1 + lastLineLength (List.replicate 2147483647 ' ') := by
  have hloc := locOf_replicate ' ' (by decide) 2147483647
  have hcol : (1 : Int) + lastLineLength (List.replicate 2147483647 ' ') = 2147483648 := by
    show (locOf (List.replicate 2147483647 ' ')).column = 2147483648
    rw [hloc]
    rfl
  have hT := Tokenize_replicate ' ' rfl 2147483647
  rw [hloc] at hT
  refine ⟨_, hT, rfl, rfl, hcol, ?_⟩
  rw [hcol]
  decide

/-- C19, amended. The end-of-input token is located at the end of the source:
for every source `s` with fewer than `2^31 - 1` newlines and fewer than
`2^31 - 1` characters after its last newline, the last token of `Tokenize s` is
`EndOfFile`, its line is `1 +` the number of newlines of `s` and its column is
`1 +` the number of characters of `s` after its last newline, which is the
length of `s` when `s` has no newline. `Tokenize ""` is the single token
`EndOfFile` at `1:1`; the same rule gives the location after trailing
whitespace, a comment or an unterminated literal. -/
theorem endOfFile_location (s : List Char) (h1 : s.count '\n' < 2147483647)
    (h2 : lastLineLength s < 2147483647) :
    (∃ toks eof, Tokenize s = Except.ok (toks ++ [eof])
      ∧ eof.type_ = TokenType.EndOfFile
      ∧ eof.location_.line = 1 + s.count '\n'
      ∧ eof.location_.column = 1 + lastLineLength s
      ∧ ('\n' ∉ s → eof.location_.column = 1 + s.length))
    ∧ Tokenize [] = Except.ok [Token.new TokenType.EndOfFile [] { line := 1, column := 1 }]
    ∧ ["a \n ".toList, "x || c".toList, "|-- c".toList, ['"', 'a', 'b'], "a\n\nb".toList].map
          (fun src => (Tokenize src).map (fun toks => toks.getLast?.map Token.getLocation))
        = [Except.ok (some { line := 2, column := 2 }),
            Except.ok (some { line := 1, column := 7 }),
            Except.ok (some { line := 1, column := 6 }),
            Except.ok (some { line := 1, column := 4 }),
            Except.ok (some { line := 3, column := 2 })] := by
  have hloc := after_eq_locOf s h1 h2
  refine ⟨⟨_, _, Tokenize_eq s, rfl, ?_, ?_, ?_⟩, rfl, rfl⟩
  · show (TokenLocation.after { line := 1, column := 1 } s).line = _
    rw [hloc]
    rfl
  · show (TokenLocation.after { line := 1, column := 1 } s).column = _
    rw [hloc]
    rfl
  · intro hs
    show (TokenLocation.after { line := 1, column := 1 } s).column = _
    rw [hloc, ← lastLineLength_of_no_newline s hs]
    rfl

/-- Witness for C19 on a source of three lines. -/
theorem endOfFile_location_witness :
    (∃ toks eof, Tokenize "a\n\nb ".toList = Except.ok (toks ++ [eof])
      ∧ eof.type_ = TokenType.EndOfFile
      ∧ eof.location_.line = 1 + "a\n\nb ".toList.count '\n'
      ∧ eof.location_.column = 1 + lastLineLength "a\n\nb ".toList
      ∧ ('\n' ∉ "a\n\nb ".toList → eof.location_.column = 1 + "a\n\nb ".toList.length))
    ∧ Tokenize [] = Except.ok [Token.new TokenType.EndOfFile [] { line := 1, column := 1 }]
    ∧ ["a \n ".toList, "x || c".toList, "|-- c".toList, ['"', 'a', 'b'], "a\n\nb".toList].map
          (fun src => (Tokenize src).map (fun toks => toks.getLast?.map Token.getLocation))
        = [Except.ok (some { line := 2, column := 2 }),
            Except.ok (some { line := 1, column := 7 }),
            Except.ok (some { line := 1, column := 6 }),
            Except.ok (some { line := 1, column := 4 }),
            Except.ok (some { line := 3, column := 2 })] :=
  endOfFile_location "a\n\nb ".toList (by decide) (by decide)

/-- C20. Literal extraction is type-checked and total: a token built by the
four-argument constructor with a literal of one of the variants `int`,
`double`, `char`, `string` has `hasLiteral` true, `getLiteral` at that variant
returns the stored value and `getLiteral` at each other variant returns
nothing; a token built by the three-argument constructor has `hasLiteral` false
and `getLiteral` returns nothing at all four variants. `getType`, `getLexeme`
and `getLocation` return the constructor arguments. -/
theorem literal_extraction (type : TokenType) (lexeme : List Char) (location : TokenLocation) :
    (∀ v : Int,
      (Token.newWithLiteral type lexeme location (TokenLiteral.int v)).hasLiteral = true
      ∧ (Token.newWithLiteral type lexeme location (TokenLiteral.int v)).getLiteralInt = some v
      ∧ (Token.newWithLiteral type lexeme location (TokenLiteral.int v)).getLiteralDouble = none
      ∧ (Token.newWithLiteral type lexeme location (TokenLiteral.int v)).getLiteralChar = none
      ∧ (Token.newWithLiteral type lexeme location (TokenLiteral.int v)).getLiteralString
          = none)
    ∧ (∀ bits : Nat,
      (Token.newWithLiteral type lexeme location (TokenLiteral.double bits)).hasLiteral = true
      ∧ (Token.newWithLiteral type lexeme location (TokenLiteral.double bits)).getLiteralInt
          = none
      ∧ (Token.newWithLiteral type lexeme location (TokenLiteral.double bits)).getLiteralDouble
          = some bits
      ∧ (Token.newWithLiteral type lexeme location (TokenLiteral.double bits)).getLiteralChar
          = none
      ∧ (Token.newWithLiteral type lexeme location (TokenLiteral.double bits)).getLiteralString
          = none)
    ∧ (∀ c : Char,
      (Token.newWithLiteral type lexeme location (TokenLiteral.char c)).hasLiteral = true
      ∧ (Token.newWithLiteral type lexeme location (TokenLiteral.char c)).getLiteralInt = none
      ∧ (Token.newWithLiteral type lexeme location (TokenLiteral.char c)).getLiteralDouble = none
      ∧ (Token.newWithLiteral type lexeme location (TokenLiteral.char c)).getLiteralChar = some c
      ∧ (Token.newWithLiteral type lexeme location (TokenLiteral.char c)).getLiteralString
          = none)
    ∧ (∀ str : List Char,
      (Token.newWithLiteral type lexeme location (TokenLiteral.string str)).hasLiteral = true
      ∧ (Token.newWithLiteral type lexeme location (TokenLiteral.string str)).getLiteralInt
          = none
      ∧ (Token.newWithLiteral type lexeme location (TokenLiteral.string str)).getLiteralDouble
          = none
      ∧ (Token.newWithLiteral type lexeme location (TokenLiteral.string str)).getLiteralChar
          = none
      ∧ (Token.newWithLiteral type lexeme location (TokenLiteral.string str)).getLiteralString
          = some str)
    ∧ ((Token.new type lexeme location).hasLiteral = false
      ∧ (Token.new type lexeme location).getLiteralInt = none
      ∧ (Token.new type lexeme location).getLiteralDouble = none
      ∧ (Token.new type lexeme location).getLiteralChar = none
      ∧ (Token.new type lexeme location).getLiteralString = none)
    ∧ ((Token.new type lexeme location).getType = type
      ∧ (Token.new type lexeme location).getLexeme = lexeme
      ∧ (Token.new type lexeme location).getLocation = location)
    ∧ (∀ literal : TokenLiteral,
      (Token.newWithLiteral type lexeme location literal).getType = type
      ∧ (Token.newWithLiteral type lexeme location literal).getLexeme = lexeme
      ∧ (Token.newWithLiteral type lexeme location literal).getLocation = location) :=
  ⟨fun _ => ⟨rfl, rfl, rfl, rfl, rfl⟩, fun _ => ⟨rfl, rfl, rfl, rfl, rfl⟩,
    fun _ => ⟨rfl, rfl, rfl, rfl, rfl⟩, fun _ => ⟨rfl, rfl, rfl, rfl, rfl⟩,
    ⟨rfl, rfl, rfl, rfl, rfl⟩, ⟨rfl, rfl, rfl⟩, fun _ => ⟨rfl, rfl, rfl⟩⟩

theorem get?_split_zero (pre : List Token) (t : Token) (suf : List Token) :
    (pre ++ t :: suf).get? pre.length = some t := by
  simp [List.get?_eq_getElem?, List.getElem?_append_right (Nat.le_refl _)]

theorem get?_split_one (pre : List Token) (t u : Token) (suf : List Token) :
    (pre ++ t :: u :: suf).get? (pre.length + 1) = some u := by
  simp [List.get?_eq_getElem?, List.getElem?_append_right (Nat.le_add_right _ _)]

theorem TokenToASMLoop_split (n : Nat) (pre suf : List Token) (out : List Char)
    (h : suf.length < n) :
    TokenToASMLoop n (pre ++ suf) pre.length out = Except.ok (out ++ asmFrom suf) := by
  induction n generalizing pre suf out with
  | zero => omega
  | succ n ih =>
    match suf, h with
    | [], _ => simp [TokenToASMLoop, asmFrom]
    | [t], h =>
      have e := ih (pre ++ [t]) [] out (by simp at h ⊢; omega)
      simp only [List.append_nil, List.length_append, List.length_singleton] at e
      rw [TokenToASMLoop]
      simp only [get?_split_zero, List.length_append, List.length_singleton,
        Nat.lt_add_one, if_true, Nat.lt_irrefl, if_false, e, asmFrom, List.append_nil,
        ite_self]
    | t :: u :: rest, h =>
      have e1 := ih (pre ++ [t]) (u :: rest) out (by simp at h ⊢; omega)
      have e2 := fun o => ih (pre ++ [t, u]) rest o (by simp at h ⊢; omega)
      simp only [List.append_assoc, List.singleton_append, List.cons_append, List.nil_append,
        List.length_append, List.length_singleton, List.length_cons, List.length_nil] at e1 e2
      rw [TokenToASMLoop]
      have hlt : pre.length < (pre ++ t :: u :: rest).length := by simp
      have hlt2 : pre.length + 1 < (pre ++ t :: u :: rest).length := by simp
      simp only [hlt, hlt2, if_true, get?_split_zero, get?_split_one, Token.getType,
        Token.getLexeme, e1, e2, asmFrom]
      split_ifs <;> simp

theorem isExitPair_succ (t : Token) (ts : List Token) (i : Nat) :
    isExitPair (t :: ts) (i + 1) = isExitPair ts i := by
  simp [isExitPair]

theorem exitPairLines_succ (t : Token) (ts : List Token) (i : Nat) :
    exitPairLines (t :: ts) (i + 1) = exitPairLines ts i := by
  simp [exitPairLines]

theorem exitPairs_cons (t : Token) (ts : List Token) :
    (((List.range (t :: ts).length).filter (isExitPair (t :: ts))).map
        (exitPairLines (t :: ts))).flatten
      = (if isExitPair (t :: ts) 0 then exitPairLines (t :: ts) 0 else [])
        ++ (((List.range ts.length).filter (isExitPair ts)).map (exitPairLines ts)).flatten := by
  have h1 : (isExitPair (t :: ts) ∘ Nat.succ) = isExitPair ts := by
    funext i
    exact isExitPair_succ t ts i
  have h2 : (exitPairLines (t :: ts) ∘ Nat.succ) = exitPairLines ts := by
    funext i
    exact exitPairLines_succ t ts i
  rw [List.length_cons, List.range_succ_eq_map, List.filter_cons, List.filter_map, h1]
  split
  · simp only [List.map_cons, List.map_map, h2, List.flatten_cons]
  · simp only [List.map_map, h2, List.nil_append]

theorem asmFrom_cons (t : Token) (ts : List Token) :
    asmFrom (t :: ts)
      = (if isExitPair (t :: ts) 0 then exitPairLines (t :: ts) 0 else []) ++ asmFrom ts := by
  match ts with
  | [] => simp [asmFrom, isExitPair]
  | u :: rest =>
    by_cases ht : t.type_ = TokenType.ExitProgram
    · by_cases hu : u.type_ = TokenType.IntegerLiteral
      · have hu2 : ¬ u.type_ = TokenType.ExitProgram := by rw [hu]; decide
        have hskip : asmFrom (u :: rest) = asmFrom rest := by
          cases rest with
          | nil => simp [asmFrom]
          | cons v r => simp [asmFrom, hu2]
        simp [asmFrom, isExitPair, exitPairLines, ht, hu, hskip]
      · simp [asmFrom, isExitPair, ht, hu]
    · simp [asmFrom, isExitPair, ht]

theorem exitPairs_eq_asmFrom (ts : List Token) :
    (((List.range ts.length).filter (isExitPair ts)).map (exitPairLines ts)).flatten
      = asmFrom ts := by
  induction ts with
  | nil => simp [asmFrom]
  | cons t ts ih => rw [exitPairs_cons, asmFrom_cons, ih]

/-- C21. Code-generator contract: for every token sequence `ts`, `TokenToASM ts`
returns the fixed header, followed, for each index `i` in increasing order such
that `ts[i]` has type `ExitProgram` and `ts[i+1]` exists and has type
`IntegerLiteral`, by the lines `    sub rsp, 40` and `    mov rcx, ` with the
lexeme of `ts[i+1]`, followed by one line `    call ExitProcess`. The index
skip misses no pair (`exitProgram exitProgram 7` emits the pair of `7`), and an
`ExitProgram` that is not followed at once by an `IntegerLiteral` emits
nothing. -/
theorem tokenToASM_contract (ts : List Token) :
    TokenToASM ts = Except.ok (expectedASM ts)
    ∧ (TokenToASM [Token.new TokenType.ExitProgram "exitProgram".toList {},
          Token.new TokenType.ExitProgram "exitProgram".toList {},
          Token.new TokenType.IntegerLiteral "7".toList {},
          Token.new TokenType.ExitProgram "exitProgram".toList {},
          Token.new TokenType.IntegerLiteral "5".toList {}]).map String.mk
        = Except.ok ("section .text\nglobal main\nextern ExitProcess\n\nmain:\n"
            ++ "    sub rsp, 40\n    mov rcx, 7\n"
            ++ "    sub rsp, 40\n    mov rcx, 5\n"
            ++ "    call ExitProcess\n")
    ∧ (TokenToASM [Token.new TokenType.ExitProgram "exitProgram".toList {},
          Token.new TokenType.Semicolon ";".toList {},
          Token.new TokenType.IntegerLiteral "5".toList {},
          Token.new TokenType.ExitProgram "exitProgram".toList {}]).map String.mk
        = Except.ok ("section .text\nglobal main\nextern ExitProcess\n\nmain:\n"
            ++ "    call ExitProcess\n") := by
  refine ⟨?_, rfl, rfl⟩
  unfold TokenToASM expectedASM
  have h := TokenToASMLoop_split (ts.length + 1) [] ts asmHeader (Nat.lt_succ_self _)
  simp only [List.nil_append, List.length_nil] at h
  rw [h, exitPairs_eq_asmFrom]

theorem quotedSplit_body (q : Char) (hbq : '\\' ≠ q) (b rest : List Char) (hq : q ∉ b)
    (he : endsInEscape b = false) :
    quotedSplit q (b ++ q :: rest) = (unescape b, b, q :: rest) := by
  generalize hn : b.length = n
  induction n using Nat.strong_induction_on generalizing b with
  | _ n ih =>
    match b, hq, he, hn with
    | [], _, _, _ =>
      simp [quotedSplit_close, unescape]
    | [c], hq, he, _ =>
      have hcq : c ≠ q := fun h => hq (by simp [h])
      by_cases hc : c = '\\'
      · subst hc
        simp [endsInEscape] at he
      · simp [quotedSplit_other _ _ _ hcq hc, quotedSplit_close, unescape, hc]
    | c :: e :: b, hq, he, hn =>
      have hcq : c ≠ q := fun h => hq (by simp [h])
      by_cases hc : c = '\\'
      · subst hc
        have he2 : endsInEscape b = false := by simpa [endsInEscape] using he
        have hq2 : q ∉ b := fun h => hq (by simp [h])
        have := ih b.length (by simp at hn; omega) b hq2 he2 rfl
        simp [quotedSplit_escape _ _ _ hbq, this, unescape]
      · have he2 : endsInEscape (e :: b) = false := by
          rw [endsInEscape] at he
          simpa [hc] using he
        have hq2 : q ∉ e :: b := fun h => hq (List.mem_cons_of_mem _ h)
        have := ih (e :: b).length (by simp at hn ⊢; omega) (e :: b) hq2 he2 rfl
        rw [List.cons_append, quotedSplit_other _ _ _ hcq hc, this]
        simp [unescape, hc]

theorem quotedSplit_open (q : Char) (hbq : '\\' ≠ q) (b : List Char) (hq : q ∉ b) :
    quotedSplit q b = (unescape b, b, []) := by
  generalize hn : b.length = n
  induction n using Nat.strong_induction_on generalizing b with
  | _ n ih =>
    match b, hq, hn with
    | [], _, _ =>
      simp [quotedSplit_nil, unescape]
    | [c], hq, _ =>
      have hcq : c ≠ q := fun h => hq (by simp [h])
      by_cases hc : c = '\\'
      · subst hc
        simp [quotedSplit_escape_end _ hbq, unescape]
      · simp [quotedSplit_other _ _ _ hcq hc, quotedSplit_nil, unescape, hc]
    | c :: e :: b, hq, hn =>
      have hcq : c ≠ q := fun h => hq (by simp [h])
      by_cases hc : c = '\\'
      · subst hc
        have hq2 : q ∉ b := fun h => hq (by simp [h])
        have := ih b.length (by simp at hn; omega) b hq2 rfl
        simp [quotedSplit_escape _ _ _ hbq, this, unescape]
      · have hq2 : q ∉ e :: b := fun h => hq (List.mem_cons_of_mem _ h)
        have := ih (e :: b).length (by simp at hn ⊢; omega) (e :: b) hq2 rfl
        rw [quotedSplit_other _ _ _ hcq hc, this]
        simp [unescape, hc]

theorem scan_apostrophe (cs : List Char) :
    scan '\'' cs = quotedScan TokenType.CharLiteral '\'' '\'' cs := by
  simp [scan, switchScan, isdigit]

theorem next_quote (loc : TokenLocation) : loc.next '\'' = loc.next '"' := by
  simp [TokenLocation.next]

theorem after_quoted (loc : TokenLocation) (b rest : List Char) :
    loc.after ('\'' :: b ++ '\'' :: rest) = loc.after ('"' :: b ++ '"' :: rest) := by
  simp only [List.cons_append, TokenLocation.after_cons, TokenLocation.after_append, next_quote]

theorem Tokenize_quoted (q : Char) (type : TokenType) (b rest : List Char)
    (hsc : ∀ cs, scan q cs = quotedScan type q q cs)
    (hst : ∀ cs, startsToken q cs = true)
    (hsp : quotedSplit q (b ++ q :: rest) = (unescape b, b, q :: rest)) :
    Tokenize (q :: b ++ q :: rest)
      = Except.ok (Token.new type (unescape b)
            (TokenLocation.after { line := 1, column := 1 } [q])
          :: (tokensOf (TokenLocation.after { line := 1, column := 1 } (q :: b ++ [q])) rest
            ++ [Token.new TokenType.EndOfFile []
                (TokenLocation.after { line := 1, column := 1 } (q :: b ++ q :: rest))])) := by
  rw [Tokenize_eq, List.cons_append, tokensOf_cons_of_startsToken _ q _ (hst _), hsc]
  simp only [quotedScan, hsp, List.take_succ_cons, List.take_zero, List.drop_succ_cons,
    List.drop_zero, List.cons_append]

theorem Tokenize_open_quoted (q : Char) (type : TokenType) (b : List Char)
    (hsc : ∀ cs, scan q cs = quotedScan type q q cs)
    (hst : ∀ cs, startsToken q cs = true)
    (hsp : quotedSplit q b = (unescape b, b, [])) :
    Tokenize (q :: b)
      = Except.ok [Token.new type (unescape b)
            (TokenLocation.after { line := 1, column := 1 } [q]),
          Token.new TokenType.EndOfFile []
            (TokenLocation.after { line := 1, column := 1 } (q :: b))] := by
  rw [Tokenize_eq, tokensOf_cons_of_startsToken _ q _ (hst _), hsc]
  simp only [quotedScan, hsp, List.take_nil, List.drop_nil, List.append_nil, tokensOf_nil,
    List.cons_append, List.nil_append]

/-- C24, counterexample. The body made of one backslash contains neither `"`
nor `'`, yet the string form `"\"` and the character form `'\'` do not give the
same lexemes: the backslash takes the closing quote as the escaped character,
so the first lexeme is `"` in the one and `'` in the other. -/
theorem char_literal_policy_counterexample :
    '"' ∉ ['\\'] ∧ '\'' ∉ ['\\']
      ∧ ∃ ts tc, Tokenize ('"' :: ['\\'] ++ '"' :: []) = Except.ok ts
          ∧ Tokenize ('\'' :: ['\\'] ++ '\'' :: []) = Except.ok tc
          ∧ ts.map Token.getLexeme = [['"'], []]
          ∧ tc.map Token.getLexeme = [['\''], []]
          ∧ ts.map Token.getLexeme ≠ tc.map Token.getLexeme := by
  have h1 : Tokenize ('"' :: ['\\'] ++ '"' :: [])
      = Except.ok [Token.new TokenType.StringLiteral ['"'] { line := 1, column := 2 },
          Token.new TokenType.EndOfFile [] { line := 1, column := 4 }] := rfl
  have h2 : Tokenize ('\'' :: ['\\'] ++ '\'' :: [])
      = Except.ok [Token.new TokenType.CharLiteral ['\''] { line := 1, column := 2 },
          Token.new TokenType.EndOfFile [] { line := 1, column := 4 }] := rfl
  exact ⟨by decide, by decide, _, _, h1, h2, rfl, rfl, by decide⟩

/-- C24, amended. Character literals follow the same consumption policy as
string literals: for every body `b` that contains neither `"` nor `'`
(backslashes allowed) and every `rest`, if `b` does not end in an escaping
backslash then `Tokenize ("'" ++ b ++ "'" ++ rest)` equals
`Tokenize ('"' ++ b ++ '"' ++ rest)` token for token (same lexemes, same
locations, same following tokens) except that the first token has type
`CharLiteral` instead of `StringLiteral`; the same holds for the unterminated
forms `"'" ++ b` and `'"' ++ b`, for every such `b`. A character literal is not
restricted to one character: `'abc'` is one `CharLiteral` with lexeme `abc`. -/
theorem char_literal_follows_string_policy (b rest : List Char)
    (hd : '"' ∉ b) (hs : '\'' ∉ b) :
    (endsInEscape b = false →
      ∃ loc others,
        Tokenize ('"' :: b ++ '"' :: rest)
          = Except.ok (Token.new TokenType.StringLiteral (unescape b) loc :: others)
        ∧ Tokenize ('\'' :: b ++ '\'' :: rest)
          = Except.ok (Token.new TokenType.CharLiteral (unescape b) loc :: others))
    ∧ (∃ loc others,
        Tokenize ('"' :: b)
          = Except.ok (Token.new TokenType.StringLiteral (unescape b) loc :: others)
        ∧ Tokenize ('\'' :: b)
          = Except.ok (Token.new TokenType.CharLiteral (unescape b) loc :: others))
    ∧ (Tokenize ['\'', 'a', 'b', 'c', '\'']).map (List.map Token.shape)
        = Except.ok [(TokenType.CharLiteral, "abc".toList), (TokenType.EndOfFile, [])] := by
  have hst1 : ∀ cs, startsToken '"' cs = true := fun cs => by simp [startsToken, isspace]
  have hst2 : ∀ cs, startsToken '\'' cs = true := fun cs => by simp [startsToken, isspace]
  have e4 : TokenLocation.after { line := 1, column := 1 } ['\'']
      = TokenLocation.after { line := 1, column := 1 } ['"'] := rfl
  refine ⟨fun he => ?_, ?_, rfl⟩
  · have hS := Tokenize_quoted '"' _ b rest scan_quote hst1
      (quotedSplit_body '"' (by decide) b rest hd he)
    have hC := Tokenize_quoted '\'' _ b rest scan_apostrophe hst2
      (quotedSplit_body '\'' (by decide) b rest hs he)
    have e1 := after_quoted { line := 1, column := 1 } b rest
    have e2 := after_quoted { line := 1, column := 1 } b []
    simp only [List.cons_append] at e1 e2
    simp only [List.cons_append, e1, e2, e4] at hC
    exact ⟨_, _, hS, hC⟩
  · have hS := Tokenize_open_quoted '"' _ b scan_quote hst1
      (quotedSplit_open '"' (by decide) b hd)
    have hC := Tokenize_open_quoted '\'' _ b scan_apostrophe hst2
      (quotedSplit_open '\'' (by decide) b hs)
    have e5 : TokenLocation.after { line := 1, column := 1 } ('\'' :: b)
        = TokenLocation.after { line := 1, column := 1 } ('"' :: b) := by
      simp only [TokenLocation.after_cons, next_quote]
    rw [e4, e5] at hC
    exact ⟨_, _, hS, hC⟩

/-- Witness for C24 on the body `a\nb` followed by ` c`. -/
theorem char_literal_follows_string_policy_witness :
    ('"' ∉ ['a', '\\', 'n', 'b'] ∧ '\'' ∉ ['a', '\\', 'n', 'b']
      ∧ endsInEscape ['a', '\\', 'n', 'b'] = false)
    ∧ (∃ loc others,
        Tokenize ('"' :: ['a', '\\', 'n', 'b'] ++ '"' :: [' ', 'c'])
          = Except.ok (Token.new TokenType.StringLiteral (unescape ['a', '\\', 'n', 'b']) loc
              :: others)
        ∧ Tokenize ('\'' :: ['a', '\\', 'n', 'b'] ++ '\'' :: [' ', 'c'])
          = Except.ok (Token.new TokenType.CharLiteral (unescape ['a', '\\', 'n', 'b']) loc
              :: others))
    ∧ (∃ loc others,
        Tokenize ('"' :: ['a', '\\', 'n', 'b'])
          = Except.ok (Token.new TokenType.StringLiteral (unescape ['a', '\\', 'n', 'b']) loc
              :: others)
        ∧ Tokenize ('\'' :: ['a', '\\', 'n', 'b'])
          = Except.ok (Token.new TokenType.CharLiteral (unescape ['a', '\\', 'n', 'b']) loc
              :: others)) :=
  ⟨⟨by decide, by decide, by decide⟩,
    (char_literal_follows_string_policy ['a', '\\', 'n', 'b'] [' ', 'c']
      (by decide) (by decide)).1 (by decide),
    (char_literal_follows_string_policy ['a', '\\', 'n', 'b'] [' ', 'c']
      (by decide) (by decide)).2.1⟩

theorem TokenLocation.before_iff (a b : TokenLocation) :
    a.before b = true ↔ a.line < b.line ∨ (a.line = b.line ∧ a.column < b.column) := by
  simp [TokenLocation.before]

theorem TokenLocation.notAfter_iff (a b : TokenLocation) :
    a.notAfter b = true ↔ a.line < b.line ∨ (a.line = b.line ∧ a.column ≤ b.column) := by
  simp [TokenLocation.notAfter]

theorem locOf_before_snoc (pre : List Char) (c : Char) :
    (locOf pre).before (locOf (pre ++ [c])) = true := by
  rw [TokenLocation.before_iff, locOf_snoc]
  split
  · left
    exact Int.lt_succ _
  · right
    exact ⟨rfl, Int.lt_succ _⟩

theorem locOf_notAfter (pre x : List Char) :
    (locOf pre).notAfter (locOf (pre ++ x)) = true := by
  induction x generalizing pre with
  | nil =>
    rw [List.append_nil, TokenLocation.notAfter_iff]
    exact Or.inr ⟨rfl, Int.le_refl _⟩
  | cons c x ih =>
    have h1 := (TokenLocation.before_iff _ _).mp (locOf_before_snoc pre c)
    have h2 := (TokenLocation.notAfter_iff _ _).mp (ih (pre ++ [c]))
    rw [List.append_assoc, List.singleton_append] at h2
    rw [TokenLocation.notAfter_iff]
    omega

theorem locOf_before (pre : List Char) (c : Char) (u : List Char) :
    (locOf pre).before (locOf (pre ++ c :: u)) = true := by
  have h1 := (TokenLocation.before_iff _ _).mp (locOf_before_snoc pre c)
  have h2 := (TokenLocation.notAfter_iff _ _).mp (locOf_notAfter (pre ++ [c]) u)
  rw [List.append_assoc, List.singleton_append] at h2
  rw [TokenLocation.before_iff]
  omega

theorem after_notAfter (pre x : List Char) (h : (pre ++ x).length < 2147483647) :
    (TokenLocation.after { line := 1, column := 1 } pre).notAfter
      (TokenLocation.after { line := 1, column := 1 } (pre ++ x)) = true := by
  rw [after_eq_locOf_of_length _ h,
    after_eq_locOf_of_length pre (by rw [List.length_append] at h; omega)]
  exact locOf_notAfter pre x

theorem after_before (pre : List Char) (c : Char) (u : List Char)
    (h : (pre ++ c :: u).length < 2147483647) :
    (TokenLocation.after { line := 1, column := 1 } pre).before
      (TokenLocation.after { line := 1, column := 1 } (pre ++ c :: u)) = true := by
  rw [after_eq_locOf_of_length _ h,
    after_eq_locOf_of_length pre (by rw [List.length_append] at h; omega)]
  exact locOf_before pre c u

theorem tokensOf_precedes (pre cs : List Char) (hlen : (pre ++ cs).length < 2147483647) :
    List.Chain' Token.precedes
        (tokensOf (TokenLocation.after { line := 1, column := 1 } pre) cs
          ++ [Token.new TokenType.EndOfFile []
                (TokenLocation.after { line := 1, column := 1 } (pre ++ cs))])
      ∧ ∀ t, (tokensOf (TokenLocation.after { line := 1, column := 1 } pre) cs
          ++ [Token.new TokenType.EndOfFile []
                (TokenLocation.after { line := 1, column := 1 } (pre ++ cs))]).head? = some t →
          (TokenLocation.after { line := 1, column := 1 } pre).notAfter t.location_ = true := by
  refine tokensOf_induct
    (fun loc cs ts => ∀ pre, loc = TokenLocation.after { line := 1, column := 1 } pre →
      (pre ++ cs).length < 2147483647 →
      List.Chain' Token.precedes
          (ts ++ [Token.new TokenType.EndOfFile []
                    (TokenLocation.after { line := 1, column := 1 } (pre ++ cs))])
        ∧ ∀ t, (ts ++ [Token.new TokenType.EndOfFile []
                    (TokenLocation.after { line := 1, column := 1 } (pre ++ cs))]).head?
              = some t →
            (TokenLocation.after { line := 1, column := 1 } pre).notAfter t.location_ = true)
    ?_ ?_ _ cs pre rfl hlen
  · intro loc cs _ pre _ hlen
    refine ⟨List.chain'_singleton _, ?_⟩
    intro t ht
    simp only [List.nil_append, List.head?_cons, Option.some.injEq] at ht
    subst ht
    exact after_notAfter pre cs hlen
  · intro loc cs c cs1 h ih pre hloc hlen
    subst hloc
    have happ := trivia_append cs
    rw [h] at happ
    have hused := scan_used_append c cs1
    obtain ⟨u, hu, _⟩ := scan_spec c cs1
    have hsplit : pre ++ cs
        = (pre ++ (trivia cs).1 ++ (scan c cs1).used) ++ (scan c cs1).rest := by
      rw [List.append_assoc, List.append_assoc, hused, happ]
    have hlen2 : (pre ++ (trivia cs).1 ++ (scan c cs1).used).length < 2147483647 := by
      have := congrArg List.length hsplit
      simp only [List.length_append] at this hlen ⊢
      omega
    obtain ⟨ih1, ih2⟩ := ih (pre ++ (trivia cs).1 ++ (scan c cs1).used)
      (by rw [TokenLocation.after_append, TokenLocation.after_append])
      (by rw [← hsplit]; exact hlen)
    rw [← hsplit] at ih1 ih2
    have hstart : (TokenLocation.after { line := 1, column := 1 } pre).after (trivia cs).1
        = TokenLocation.after { line := 1, column := 1 } (pre ++ (trivia cs).1) := by
      rw [TokenLocation.after_append]
    refine ⟨?_, ?_⟩
    · rw [List.cons_append, List.chain'_cons']
      refine ⟨?_, ih1⟩
      intro y hy
      have hy2 := (TokenLocation.notAfter_iff _ _).mp (ih2 y hy)
      rw [hu] at hy2 hlen2
      have hstrict := (TokenLocation.before_iff _ _).mp
        (after_before (pre ++ (trivia cs).1) c u (by rw [List.append_assoc] at hlen2 ⊢; exact hlen2))
      rw [List.append_assoc] at hstrict
      rw [List.append_assoc] at hy2
      have hweak : (((TokenLocation.after { line := 1, column := 1 } pre).after
          (trivia cs).1).after (scan c cs1).start).notAfter y.location_ = true := by
        rw [TokenLocation.notAfter_iff, hstart]
        rcases scan_start_cases c cs1 with hs | hs
        · rw [hs, TokenLocation.after_nil]
          omega
        · have h3 := (TokenLocation.notAfter_iff _ _).mp
            (after_notAfter (pre ++ (trivia cs).1 ++ [c]) u
              (by simpa [List.append_assoc] using hlen2))
          have e : pre ++ (trivia cs).1 ++ [c] ++ u = pre ++ ((trivia cs).1 ++ c :: u) := by
            simp
          rw [e] at h3
          rw [hs, ← TokenLocation.after_append]
          omega
      refine ⟨hweak, ?_, ?_⟩
      · have := (TokenLocation.notAfter_iff _ _).mp hweak
        simp only [Token.new] at this ⊢
        omega
      · intro n1 n2
        have hs := (scan_start_lexeme c cs1 n1 n2).1
        simp only [Token.new, hs, TokenLocation.after_nil, hstart]
        rw [TokenLocation.before_iff]
        omega
    · intro t ht
      simp only [List.cons_append, List.head?_cons, Option.some.injEq] at ht
      subst ht
      simp only [Token.new]
      rw [← TokenLocation.after_append, ← TokenLocation.after_append]
      have hle : (pre ++ ((trivia cs).1 ++ (scan c cs1).start)).length < 2147483647 := by
        rcases scan_start_cases c cs1 with hs | hs
        · rw [hs, hu] at *
          simp only [List.length_append, List.length_cons, List.length_nil] at hlen2 ⊢
          omega
        · rw [hs, hu] at *
          simp only [List.length_append, List.length_cons, List.length_nil] at hlen2 ⊢
          omega
      exact after_notAfter pre _ hle

/-- C25. On the source made of one `"`, `Tokenize` returns a `StringLiteral`
located at `1:2` followed by `EndOfFile` located at `1:2` as well: two
consecutive tokens whose locations are equal, not strictly increasing. The
literal is located after its opening quote, where the end of the source is.
On every source `s` of fewer than `2^31 - 1` characters, two consecutive tokens
of `Tokenize s` (the final `EndOfFile` included) have locations that never
decrease in lexicographic order, line numbers that never decrease, and
locations that strictly increase whenever the first of the two is not a string
or character literal. -/
theorem lone_quote_is_located_at_endOfFile (s : List Char) :
    Tokenize ['"']
        = Except.ok [Token.new TokenType.StringLiteral [] { line := 1, column := 2 },
            Token.new TokenType.EndOfFile [] { line := 1, column := 2 }]
      ∧ TokenLocation.before { line := 1, column := 2 } { line := 1, column := 2 } = false
      ∧ Tokenize ['\'']
        = Except.ok [Token.new TokenType.CharLiteral [] { line := 1, column := 2 },
            Token.new TokenType.EndOfFile [] { line := 1, column := 2 }]
      ∧ (s.length < 2147483647 →
          ∃ toks, Tokenize s = Except.ok toks ∧ List.Chain' Token.precedes toks) :=
  ⟨rfl, rfl, rfl, fun hs => ⟨_, Tokenize_eq s, (tokensOf_precedes [] s hs).1⟩⟩

theorem tokensOf_length_le (loc : TokenLocation) (cs : List Char) :
    (tokensOf loc cs).length ≤ cs.length := by
  refine tokensOf_induct (fun _ cs ts => ts.length ≤ cs.length) ?_ ?_ loc cs
  · intro _ _ _
    exact Nat.zero_le _
  · intro loc cs c cs1 h ih
    have h1 := trivia_length_le cs
    rw [h] at h1
    have h2 := scan_rest_length_le c cs1
    simp only [List.length_cons] at h1 ⊢
    omega

theorem scanToken_progress (pre cs : List Char) (loc : TokenLocation) (c : Char)
    (cs1 : List Char) (h : (trivia cs).2 = c :: cs1) :
    ∃ t l2, (Lexer.atSplit (pre ++ (trivia cs).1) (trivia cs).2
          (loc.after (trivia cs).1)).scanToken = Except.ok (t, l2)
      ∧ l2.source_ = pre ++ cs
      ∧ (pre ++ (trivia cs).1).length < l2.position_
      ∧ l2.position_ ≤ (pre ++ cs).length := by
  have hfix := trivia_rest_fixed cs
  have happ := trivia_append cs
  rw [h] at happ
  have hused := scan_used_append c cs1
  obtain ⟨u, hu, _⟩ := scan_spec c cs1
  have hsc := Lexer.scanToken_atSplit (pre ++ (trivia cs).1) (trivia cs).2
    (loc.after (trivia cs).1) c cs1 (by rw [hfix, h])
  rw [hfix] at hsc
  refine ⟨_, _, hsc, ?_, ?_, ?_⟩
  · simp only [Lexer.atSplit_source, List.append_nil, List.append_assoc, hused, happ]
  · simp only [Lexer.atSplit_position, List.append_nil, List.length_append, hu,
      List.length_cons]
    omega
  · have hlen := congrArg List.length hused
    have hlen2 := congrArg List.length happ
    simp only [List.length_append, List.length_cons] at hlen hlen2
    simp only [Lexer.atSplit_position, List.append_nil, List.length_append]
    omega

/-- C26. Progress and termination. From every state of the lexer, with `pre`
consumed and `cs` left, `skipWhitespaceAndComments` returns a state with the
same source whose cursor has not moved backwards and is within the source; if
that state is not at the end, which is when `tokenize` calls `scanToken`, the
call returns a token and a state with the same source whose cursor is strictly
further and still within the source: each token consumes at least one
character. `Tokenize` therefore returns on every source, and it returns at most
`length + 1` tokens. -/
theorem progress_and_termination (pre cs : List Char) (loc : TokenLocation) :
    (∃ l1, (Lexer.atSplit pre cs loc).skipWhitespaceAndComments = Except.ok l1
      ∧ l1.source_ = pre ++ cs
      ∧ (Lexer.atSplit pre cs loc).position_ ≤ l1.position_
      ∧ l1.position_ ≤ (pre ++ cs).length
      ∧ (l1.isAtEnd = false →
          ∃ t l2, l1.scanToken = Except.ok (t, l2)
            ∧ l2.source_ = pre ++ cs
            ∧ l1.position_ < l2.position_
            ∧ l2.position_ ≤ (pre ++ cs).length))
    ∧ ∃ toks, Tokenize (pre ++ cs) = Except.ok toks
        ∧ toks.length ≤ (pre ++ cs).length + 1 := by
  have happ := trivia_append cs
  have hlen := congrArg List.length happ
  simp only [List.length_append] at hlen
  refine ⟨⟨_, Lexer.skipWhitespaceAndComments_atSplit pre cs loc, ?_, ?_, ?_, ?_⟩,
    _, Tokenize_eq (pre ++ cs), ?_⟩
  · simp only [Lexer.atSplit_source, List.append_assoc, happ]
  · simp only [Lexer.atSplit_position, List.length_append]
    omega
  · simp only [Lexer.atSplit_position, List.length_append]
    omega
  · intro hend
    rw [Lexer.isAtEnd_atSplit] at hend
    cases h : (trivia cs).2 with
    | nil => simp [h] at hend
    | cons c cs1 =>
      have hp := scanToken_progress pre cs loc c cs1 h
      rw [h] at hp
      simpa only [Lexer.atSplit_position] using hp
  · have := tokensOf_length_le { line := 1, column := 1 } (pre ++ cs)
    simp only [List.length_append, List.length_singleton] at this ⊢
    omega

end GC
